import Mathlib

/-!
Verification of the agentflow workflow engine (src/app) against its
natural-language specification.

The development shallowly embeds the Python source:
* Python values (`None`, bools, ints, floats, strings, lists, string-keyed
  dicts) become the inductive type `Val`; floats are modelled as exact
  rationals (binary rounding, infinities and NaN are outside the model).
* Python dicts become insertion-ordered association lists with
  dict-semantics update (replacing a key keeps its position).
* Fallible code returns `Except String _`, the error being the message of
  the Python exception.
* Wall-clock times (`duration_ms`) are modelled as 0 throughout; no claim
  mentions durations.
-/

/-- A Python value as used by the workflow engine and agents. -/
inductive Val where
  | null : Val
  | bool : Bool → Val
  | int : Int → Val
  | float : Rat → Val
  | str : String → Val
  | list : List Val → Val
  | dict : List (String × Val) → Val

mutual

/-- Structural equality test on `Val` (Lean-level; used to derive
decidable equality, this is not Python `==`). -/
def Val.beq : Val → Val → Bool
  | .null, .null => true
  | .bool a, .bool b => a == b
  | .int a, .int b => a == b
  | .float a, .float b => a == b
  | .str a, .str b => a == b
  | .list a, .list b => valListBeq a b
  | .dict a, .dict b => valPairsBeq a b
  | _, _ => false

def valListBeq : List Val → List Val → Bool
  | [], [] => true
  | a :: as, b :: bs => Val.beq a b && valListBeq as bs
  | _, _ => false

def valPairsBeq : List (String × Val) → List (String × Val) → Bool
  | (k, v) :: as, (k2, v2) :: bs => k == k2 && Val.beq v v2 && valPairsBeq as bs
  | [], [] => true
  | _, _ => false

end

mutual

theorem Val.eq_of_beq : ∀ a b : Val, Val.beq a b = true → a = b
  | .null, b, h => by cases b <;> simp [Val.beq] at h ⊢
  | .bool a, b, h => by cases b <;> simp [Val.beq] at h ⊢; exact h
  | .int a, b, h => by cases b <;> simp [Val.beq] at h ⊢; exact h
  | .float a, b, h => by cases b <;> simp [Val.beq] at h ⊢; exact h
  | .str a, b, h => by cases b <;> simp [Val.beq] at h ⊢; exact h
  | .list a, b, h => by
      cases b <;> simp [Val.beq] at h ⊢
      case list bs => exact valListBeq_sound a bs h
  | .dict a, b, h => by
      cases b <;> simp [Val.beq] at h ⊢
      case dict bs => exact valPairsBeq_sound a bs h

theorem valListBeq_sound : ∀ as bs : List Val, valListBeq as bs = true → as = bs
  | [], [], _ => rfl
  | [], _ :: _, h => by simp [valListBeq] at h
  | _ :: _, [], h => by simp [valListBeq] at h
  | a :: as, b :: bs, h => by
      rw [valListBeq, Bool.and_eq_true] at h
      rw [Val.eq_of_beq a b h.1, valListBeq_sound as bs h.2]

theorem valPairsBeq_sound :
    ∀ as bs : List (String × Val), valPairsBeq as bs = true → as = bs
  | [], [], _ => rfl
  | [], _ :: _, h => by simp [valPairsBeq] at h
  | _ :: _, [], h => by simp [valPairsBeq] at h
  | (k, v) :: as, (k2, v2) :: bs, h => by
      rw [valPairsBeq, Bool.and_eq_true, Bool.and_eq_true] at h
      have hk : k = k2 := by
        have := h.1.1; exact of_decide_eq_true (by exact this)
      rw [hk, Val.eq_of_beq v v2 h.1.2, valPairsBeq_sound as bs h.2]

end

mutual

theorem Val.beq_refl : ∀ a : Val, Val.beq a a = true
  | .null => rfl
  | .bool a => by simp [Val.beq]
  | .int a => by simp [Val.beq]
  | .float a => by simp [Val.beq]
  | .str a => by simp [Val.beq]
  | .list a => by rw [Val.beq]; exact valListBeq_refl a
  | .dict a => by rw [Val.beq]; exact valPairsBeq_refl a

theorem valListBeq_refl : ∀ as : List Val, valListBeq as as = true
  | [] => rfl
  | a :: as => by
      rw [valListBeq, Bool.and_eq_true]
      exact ⟨Val.beq_refl a, valListBeq_refl as⟩

theorem valPairsBeq_refl : ∀ as : List (String × Val), valPairsBeq as as = true
  | [] => rfl
  | (k, v) :: as => by
      rw [valPairsBeq, Bool.and_eq_true, Bool.and_eq_true]
      exact ⟨⟨by simp, Val.beq_refl v⟩, valPairsBeq_refl as⟩

end

instance : DecidableEq Val := fun a b =>
  if h : Val.beq a b = true then isTrue (Val.eq_of_beq a b h)
  else isFalse (fun he => h (he ▸ Val.beq_refl a))

/-! ### Association lists with Python-dict semantics -/

/-- `d.get(k)` on a Python dict. -/
def dget (d : List (String × Val)) (k : String) : Option Val :=
  (d.find? (fun p => p.1 == k)).map (fun p => p.2)

/-- `d.get(k, v0)` on a Python dict. -/
def dgetD (d : List (String × Val)) (k : String) (v0 : Val) : Val :=
  (dget d k).getD v0

/-- Membership test `k in d` for a Python dict. -/
def dmem (d : List (String × Val)) (k : String) : Bool :=
  d.any (fun p => p.1 == k)

/-- `d[k] = v` on a Python dict: replacing an existing key keeps its
position, a new key is appended. -/
def dset (d : List (String × Val)) (k : String) (v : Val) : List (String × Val) :=
  if d.any (fun p => p.1 == k) then
    d.map (fun p => if p.1 == k then (k, v) else p)
  else d ++ [(k, v)]

/-- `{**a, **b}` / `a.update(b)` on Python dicts. -/
def dmerge (a b : List (String × Val)) : List (String × Val) :=
  b.foldl (fun acc p => dset acc p.1 p.2) a

/-! ### Python primitives on `Val` -/

/-- Python truthiness `bool(v)`. -/
def Val.truthy : Val → Bool
  | .null => false
  | .bool b => b
  | .int n => n != 0
  | .float q => q != 0
  | .str s => s != ""
  | .list xs => !xs.isEmpty
  | .dict xs => !xs.isEmpty

/-- `type(v).__name__` for a Python value. -/
def Val.typeName : Val → String
  | .null => "NoneType"
  | .bool _ => "bool"
  | .int _ => "int"
  | .float _ => "float"
  | .str _ => "str"
  | .list _ => "list"
  | .dict _ => "dict"

/-- Numeric view shared by `bool`, `int` and `float` (Python's numeric
tower as far as the engine uses it). -/
def Val.asNum : Val → Option Rat
  | .bool b => some (if b then 1 else 0)
  | .int n => some (n : Rat)
  | .float q => some q
  | _ => none

/-- Decimal rendering of a Python float whose value is the rational `q`.
Covers finite floats whose value has a terminating decimal expansion (all
floats do); Python's switch to exponent notation outside
[1e-4, 1e16) is not modelled, no claim depends on it. -/
def floatRepr (q : Rat) : String :=
  let sign := if q < 0 then "-" else ""
  let a := |q|
  let ip := a.floor
  let frac := a - (ip : Rat)
  let rec digits (r : Rat) (fuel : Nat) : String :=
    match fuel with
    | 0 => ""
    | fuel + 1 =>
      if r = 0 then ""
      else
        let r10 := r * 10
        let d := r10.floor
        toString d ++ digits (r10 - (d : Rat)) fuel
  let ds := digits frac 40
  sign ++ toString ip ++ "." ++ (if ds = "" then "0" else ds)

mutual

/-- Python `repr(v)`.  String escaping inside `repr` is not modelled
(strings are rendered between plain single quotes). -/
def Val.pyRepr : Val → String
  | .null => "None"
  | .bool b => if b then "True" else "False"
  | .int n => toString n
  | .float q => floatRepr q
  | .str s => "\x27" ++ s ++ "\x27"
  | .list xs => "[" ++ String.intercalate ", " (pyReprList xs) ++ "]"
  | .dict xs => "\x7b" ++ String.intercalate ", " (pyReprPairs xs) ++ "\x7d"

def pyReprList : List Val → List String
  | [] => []
  | v :: vs => v.pyRepr :: pyReprList vs

def pyReprPairs : List (String × Val) → List String
  | [] => []
  | (k, v) :: ps => ("\x27" ++ k ++ "\x27: " ++ v.pyRepr) :: pyReprPairs ps

end

/-- Python `str(v)`. -/
def Val.pyStr : Val → String
  | .str s => s
  | v => v.pyRepr

instance : Repr Val := ⟨fun v _ => Std.Format.text v.pyRepr⟩

/-- Python `s.isdigit()` restricted to ASCII digits, which is all the
repository produces. -/
def pyIsDigit (s : String) : Bool :=
  s != "" && s.toList.all Char.isDigit

def digitsToNat (ds : List Char) : Nat :=
  ds.foldl (fun a c => a * 10 + (c.toNat - 48)) 0

mutual

/-- Python `==` on the modelled values: numeric cross-kind equality over
the `bool`/`int`/`float` tower, structural equality on strings and lists,
order-insensitive equality on dicts, `None == None`, and `False` across
unlike kinds.  `==` never raises in Python. -/
def pyEq : Val → Val → Bool
  | .null, .null => true
  | .str a, .str b => a == b
  | .list as, .list bs => pyEqList as bs
  | .dict as, .dict bs => as.length == bs.length && pyEqPairs as bs
  | a, b =>
    match a.asNum, b.asNum with
    | some x, some y => x == y
    | _, _ => false

def pyEqList : List Val → List Val → Bool
  | [], [] => true
  | a :: as, b :: bs => pyEq a b && pyEqList as bs
  | _, _ => false

def pyEqPairs : List (String × Val) → List (String × Val) → Bool
  | [], _ => true
  | (k, v) :: as, bs =>
    (match dget bs k with
     | some w => pyEq v w
     | Option.none => false) && pyEqPairs as bs

end

mutual

/-- Three-way comparison backing Python `<`, `<=`, `>`, `>=` on the
modelled values: numeric tower, lexicographic strings and lists; any
other combination raises `TypeError`, reported as the pair of the two
type names (the caller formats the message with the operator symbol). -/
def pyCompare : Val → Val → Except (String × String) Ordering
  | .str a, .str b =>
    .ok (if a < b then .lt else if b < a then .gt else .eq)
  | .list as, .list bs => pyCompareList as bs
  | a, b =>
    match a.asNum, b.asNum with
    | some x, some y => .ok (if x < y then .lt else if y < x then .gt else .eq)
    | _, _ => .error (a.typeName, b.typeName)

/-- Python list comparison: first non-`==` pair decides, else length. -/
def pyCompareList : List Val → List Val → Except (String × String) Ordering
  | [], [] => .ok .eq
  | [], _ :: _ => .ok .lt
  | _ :: _, [] => .ok .gt
  | a :: as, b :: bs =>
    if pyEq a b then pyCompareList as bs
    else
      match pyCompare a b with
      | .ok o => .ok o
      | .error e => .error e

end

/-- Substring test `needle in hay` for Python strings. -/
def strContains (hay needle : String) : Bool :=
  needle == "" || (hay.splitOn needle).length > 1

/-! ### `float(v)` (conditional agent numeric coercion)

The string grammar covers optional surrounding whitespace, an optional
sign, a decimal mantissa and an optional exponent.  CPython additionally
accepts `inf`/`nan` and underscore digit separators; those are outside
the model (treated as non-coercible). -/

def pyIsSpace (c : Char) : Bool :=
  c == ' ' || c == '\t' || c == '\n' || c == '\x0d' || c == '\x0b' || c == '\x0c'

/-- Splits an optional leading sign off a character list, returning the
sign as `1` or `-1`. -/
def splitSign (cs : List Char) : Int × List Char :=
  match cs with
  | '+' :: rest => (1, rest)
  | '-' :: rest => (-1, rest)
  | _ => (1, cs)

def parseFloat? (s : String) : Option Rat :=
  let cs0 := (((s.toList.dropWhile pyIsSpace).reverse).dropWhile pyIsSpace).reverse
  let sgn := splitSign cs0
  let cs1 := sgn.2
  let ip := cs1.takeWhile Char.isDigit
  let cs2 := cs1.dropWhile Char.isDigit
  let fpcs : List Char × List Char :=
    match cs2 with
    | '.' :: rest => (rest.takeWhile Char.isDigit, rest.dropWhile Char.isDigit)
    | _ => ([], cs2)
  let fp := fpcs.1
  let cs3 := fpcs.2
  if ip = [] ∧ fp = [] then Option.none
  else
    let mant : Rat :=
      (sgn.1 : Rat) *
        ((digitsToNat ip : Rat) + (digitsToNat fp : Rat) / ((10 : Rat) ^ fp.length))
    match cs3 with
    | [] => some mant
    | c :: rest =>
      if c = 'e' ∨ c = 'E' then
        let esgn := splitSign rest
        let ed := esgn.2.takeWhile Char.isDigit
        let tail := esgn.2.dropWhile Char.isDigit
        if ed = [] ∨ tail ≠ [] then Option.none
        else some (mant * (10 : Rat) ^ (esgn.1 * (digitsToNat ed : Int)))
      else Option.none

/-- Python `float(v)`; errors carry the exception message. -/
def pyFloat : Val → Except String Rat
  | .bool b => .ok (if b then 1 else 0)
  | .int n => .ok (n : Rat)
  | .float q => .ok q
  | .str s =>
    match parseFloat? s with
    | some q => .ok q
    | Option.none =>
      .error ("could not convert string to float: \x27" ++ s ++ "\x27")
  | v =>
    .error ("float() argument must be a string or a real number, not \x27" ++
      v.typeName ++ "\x27")


/-! ### Agent contract (src/app/agents/base.py) -/

/-- `AgentResult` dataclass: standardized result from any agent
execution.  `tokens_used` is a Python int, `cost_usd` a float (modelled
as an exact rational); `duration_ms` is wall time and modelled as 0. -/
structure AgentResult where
  success : Bool
  output : Val
  tokens_used : Int := 0
  cost_usd : Rat := 0
  duration_ms : Int := 0
  metadata : List (String × Val) := []
deriving DecidableEq, Repr

/-! ### Conditional agent (src/app/agents/conditional_agent.py) -/

/-- `ConditionalAgent._extract`: dotted-path walk through nested dicts;
a missing key or a non-dict intermediate value yields `None`. -/
def condExtractGo : List String → Val → Val
  | [], cur => cur
  | p :: ps, cur =>
    match cur with
    | .dict d => condExtractGo ps (dgetD d p Val.null)
    | _ => Val.null

def condExtract (data : Val) (field : String) : Val :=
  condExtractGo (field.splitOn ".") data

/-- The names in the `OPERATORS` table. -/
def OPERATOR_NAMES : List String :=
  ["eq", "ne", "gt", "gte", "lt", "lte",
   "contains", "not_contains", "is_empty", "is_not_empty"]

/-- Formats the `TypeError` message of an unsupported ordered
comparison. -/
def cmpTypeError (sym ta tb : String) : String :=
  "\x27" ++ sym ++ "\x27 not supported between instances of \x27" ++
    ta ++ "\x27 and \x27" ++ tb ++ "\x27"

/-- One entry of `OPERATORS` applied to the two operands; `.error` is a
raised exception (caught by `ConditionalAgent.run`). -/
def applyOperator (opName : String) (a b : Val) : Except String Bool :=
  let ordered (sym : String) (pick : Ordering → Bool) : Except String Bool :=
    match pyCompare a b with
    | .ok o => .ok (pick o)
    | .error e => .error (cmpTypeError sym e.1 e.2)
  match opName with
  | "ne" => .ok (!pyEq a b)
  | "gt" => ordered ">" (fun o => o == .gt)
  | "gte" => ordered ">=" (fun o => o != .lt)
  | "lt" => ordered "<" (fun o => o == .lt)
  | "lte" => ordered "<=" (fun o => o != .gt)
  | "contains" =>
    match b with
    | .str nb => .ok (strContains a.pyStr nb)
    | _ =>
      .error ("\x27in <string>\x27 requires string as left operand, not " ++
        b.typeName)
  | "not_contains" =>
    match b with
    | .str nb => .ok (!strContains a.pyStr nb)
    | _ =>
      .error ("\x27in <string>\x27 requires string as left operand, not " ++
        b.typeName)
  | "is_empty" => .ok (!a.truthy)
  | "is_not_empty" => .ok a.truthy
  | _ => .ok (pyEq a b)

/-- The numeric type-coercion step of `ConditionalAgent.run` (lines
37-43): for ordered operators, `actual` and then `value` are replaced by
`float(·)` (falsy operands become the int `0`); the first
`ValueError`/`TypeError` aborts the whole `try`, so a failure on
`actual` leaves both raw while a failure on `value` leaves `actual`
already coerced. -/
def coercePair (actual value : Val) : Val × Val :=
  match (if actual.truthy then (pyFloat actual).map Val.float else .ok (Val.int 0)) with
  | .error _ => (actual, value)
  | .ok a2 =>
    match (if value.truthy then (pyFloat value).map Val.float else .ok (Val.int 0)) with
    | .error _ => (a2, value)
    | .ok v2 => (a2, v2)

/-- `ConditionalAgent.run`.  The outer `.error` models an exception that
escapes `run` itself (possible only from the statements before the
`try`: a non-string `field` config or an unhashable `operator`); the
`try` inside returns `success=false` on comparison errors. -/
def ConditionalAgent.run (config : List (String × Val)) (objective : Val)
    (context : List (String × Val)) : Except String AgentResult :=
  let fieldV := dgetD config "field" (.str "")
  let op := dgetD config "operator" (.str "eq")
  let value := dgetD config "value" (.str "")
  match fieldV with
  | .str field =>
    match op with
    | .list _ => .error "unhashable type: \x27list\x27"
    | .dict _ => .error "unhashable type: \x27dict\x27"
    | _ =>
      let actual := condExtract (Val.dict context) field
      let opName : String :=
        match op with
        | .str s => if OPERATOR_NAMES.contains s then s else "eq"
        | _ => "eq"
      let isOrdered : Bool :=
        match op with
        | .str s => s == "gt" || s == "gte" || s == "lt" || s == "lte"
        | _ => false
      let pair := if isOrdered then coercePair actual value else (actual, value)
      let actual2 := pair.1
      let value2 := pair.2
      match applyOperator opName actual2 value2 with
      | .ok met =>
        .ok { success := true
              output := .dict
                [("condition_met", .bool met),
                 ("branch", .str (if met then "true" else "false")),
                 ("evaluated", .str (field ++ " " ++ op.pyStr ++ " " ++
                   value2.pyStr ++ " => " ++ (if met then "True" else "False")))]
              metadata :=
                [("field", .str field), ("operator", op), ("value", value2),
                 ("actual", .str actual2.pyStr)] }
      | .error msg =>
        .ok { success := false
              output := .str ("Condition evaluation failed: " ++ msg) }
  | v => .error ("\x27" ++ v.typeName ++ "\x27 object has no attribute \x27split\x27")

/-! ### JSON (used by `DataTransformAgent` for `map` and `json_parse`) -/

/-- Minimal JSON string escaping as `json.dumps` performs it; `\u`
escaping of non-ASCII characters is outside the model. -/
def jsonEscapeChar (c : Char) : String :=
  if c = '"' then "\\\""
  else if c = '\\' then "\\\\"
  else if c = '\n' then "\\n"
  else if c = '\t' then "\\t"
  else if c = '\x0d' then "\\r"
  else String.singleton c

def jsonEscape (s : String) : String :=
  s.toList.foldl (fun acc c => acc ++ jsonEscapeChar c) ""

mutual

/-- `json.dumps(v, default=str)` with the default separators. -/
def jsonDumps : Val → String
  | .null => "null"
  | .bool b => if b then "true" else "false"
  | .int n => toString n
  | .float q => floatRepr q
  | .str s => "\"" ++ jsonEscape s ++ "\""
  | .list xs => "[" ++ String.intercalate ", " (jsonDumpsList xs) ++ "]"
  | .dict xs => "\x7b" ++ String.intercalate ", " (jsonDumpsPairs xs) ++ "\x7d"

def jsonDumpsList : List Val → List String
  | [] => []
  | v :: vs => jsonDumps v :: jsonDumpsList vs

def jsonDumpsPairs : List (String × Val) → List String
  | [] => []
  | (k, v) :: ps => ("\"" ++ jsonEscape k ++ "\": " ++ jsonDumps v) :: jsonDumpsPairs ps

end

def jsonIsWs (c : Char) : Bool :=
  c == ' ' || c == '\t' || c == '\n' || c == '\x0d'

def jsonSkipWs (cs : List Char) : List Char := cs.dropWhile jsonIsWs

/-- Characters that may occur in a JSON number token. -/
def jsonNumChar (c : Char) : Bool :=
  c.isDigit || c == '-' || c == '+' || c == '.' || c == 'e' || c == 'E'

/-- Parses one JSON number token; ints stay ints, anything with a
fraction or exponent becomes a float (as `json.loads` does). -/
def jsonParseNum (cs : List Char) : Except String (Val × List Char) :=
  let tok := cs.takeWhile jsonNumChar
  let rest := cs.dropWhile jsonNumChar
  if tok = [] then .error "Expecting value"
  else if tok.any (fun c => c == '.' || c == 'e' || c == 'E') then
    match parseFloat? (String.mk tok) with
    | some q => .ok (.float q, rest)
    | Option.none => .error "Expecting value"
  else
    let sgn := splitSign tok
    if sgn.2 = [] ∨ ¬ sgn.2.all Char.isDigit then .error "Expecting value"
    else .ok (.int (sgn.1 * (digitsToNat sgn.2 : Int)), rest)

/-- Parses a JSON string body after the opening quote. -/
def jsonParseStr : Nat → List Char → String → Except String (String × List Char)
  | 0, _, _ => .error "Unterminated string starting at"
  | _, [], _ => .error "Unterminated string starting at"
  | fuel + 1, c :: rest, acc =>
    if c = '"' then .ok (acc, rest)
    else if c = '\\' then
      match rest with
      | [] => .error "Unterminated string starting at"
      | e :: rest2 =>
        if e = '"' then jsonParseStr fuel rest2 (acc ++ "\"")
        else if e = '\\' then jsonParseStr fuel rest2 (acc ++ "\\")
        else if e = '/' then jsonParseStr fuel rest2 (acc ++ "/")
        else if e = 'n' then jsonParseStr fuel rest2 (acc ++ "\n")
        else if e = 't' then jsonParseStr fuel rest2 (acc ++ "\t")
        else if e = 'r' then jsonParseStr fuel rest2 (acc ++ "\x0d")
        else if e = 'b' then jsonParseStr fuel rest2 (acc ++ "\x08")
        else if e = 'f' then jsonParseStr fuel rest2 (acc ++ "\x0c")
        else if e = 'u' then
          match rest2 with
          | h1 :: h2 :: h3 :: h4 :: rest3 =>
            if [h1, h2, h3, h4].all (fun h => h.isDigit || (h.toLower ≥ 'a' ∧ h.toLower ≤ 'f')) then
              let hv := [h1, h2, h3, h4].foldl
                (fun a h => a * 16 + (if h.isDigit then h.toNat - 48 else h.toLower.toNat - 87)) 0
              jsonParseStr fuel rest3 (acc ++ String.singleton (Char.ofNat hv))
            else .error "Invalid \\uXXXX escape"
          | _ => .error "Invalid \\uXXXX escape"
        else .error "Invalid \\escape"
    else jsonParseStr fuel rest (acc ++ String.singleton c)

mutual

/-- Recursive-descent JSON value parser (`json.loads`); the `fuel`
argument strictly exceeds the input length, so it never runs out on
real input.  Error messages abstract from CPython's
position-reporting. -/
def jsonParseVal : Nat → List Char → Except String (Val × List Char)
  | 0, _ => .error "Expecting value"
  | fuel + 1, cs =>
    match jsonSkipWs cs with
    | [] => .error "Expecting value"
    | c :: rest =>
      if c = 'n' then
        match rest with
        | 'u' :: 'l' :: 'l' :: rest2 => .ok (.null, rest2)
        | _ => .error "Expecting value"
      else if c = 't' then
        match rest with
        | 'r' :: 'u' :: 'e' :: rest2 => .ok (.bool true, rest2)
        | _ => .error "Expecting value"
      else if c = 'f' then
        match rest with
        | 'a' :: 'l' :: 's' :: 'e' :: rest2 => .ok (.bool false, rest2)
        | _ => .error "Expecting value"
      else if c = '"' then
        match jsonParseStr fuel rest "" with
        | .ok p => .ok (.str p.1, p.2)
        | .error e => .error e
      else if c = '\x5b' then
        match jsonSkipWs rest with
        | '\x5d' :: rest2 => .ok (.list [], rest2)
        | _ =>
          match jsonParseArr fuel rest with
          | .ok p => .ok (.list p.1, p.2)
          | .error e => .error e
      else if c = '\x7b' then
        match jsonSkipWs rest with
        | '\x7d' :: rest2 => .ok (.dict [], rest2)
        | _ =>
          match jsonParseObj fuel rest [] with
          | .ok p => .ok (.dict p.1, p.2)
          | .error e => .error e
      else jsonParseNum (c :: rest)

/-- Array elements after `[`. -/
def jsonParseArr : Nat → List Char → Except String (List Val × List Char)
  | 0, _ => .error "Expecting value"
  | fuel + 1, cs => do
    let p ← jsonParseVal fuel cs
    match jsonSkipWs p.2 with
    | ',' :: rest => do
      let q ← jsonParseArr fuel rest
      .ok (p.1 :: q.1, q.2)
    | '\x5d' :: rest => .ok ([p.1], rest)
    | _ => .error "Expecting \x27,\x27 delimiter"

/-- Object members after `{`; duplicate keys resolve as dict
assignment (last wins). -/
def jsonParseObj : Nat → List Char → List (String × Val) →
    Except String (List (String × Val) × List Char)
  | 0, _, _ => .error "Expecting value"
  | fuel + 1, cs, acc =>
    match jsonSkipWs cs with
    | '"' :: rest => do
      let k ← jsonParseStr fuel rest ""
      match jsonSkipWs k.2 with
      | ':' :: rest2 => do
        let v ← jsonParseVal fuel rest2
        let acc2 := dset acc k.1 v.1
        match jsonSkipWs v.2 with
        | ',' :: rest3 => jsonParseObj fuel rest3 acc2
        | '\x7d' :: rest3 => .ok (acc2, rest3)
        | _ => .error "Expecting \x27,\x27 delimiter"
      | _ => .error "Expecting \x27:\x27 delimiter"
    | _ => .error "Expecting property name enclosed in double quotes"

end

/-- `json.loads(s)`. -/
def jsonLoads (s : String) : Except String Val := do
  let p ← jsonParseVal (s.length + 1) s.toList
  if jsonSkipWs p.2 = [] then .ok p.1 else .error "Extra data"

/-! ### Data transform agent (src/app/agents/data_transform_agent.py) -/

/-- `AttributeError` message text. -/
def noAttr (v : Val) (attr : String) : String :=
  "\x27" ++ v.typeName ++ "\x27 object has no attribute \x27" ++ attr ++ "\x27"

/-- `DataTransformAgent._extract`: dotted-path walk where an all-digits
segment indexes into a list.  A missing dict key or a non-indexable
intermediate yields `None` (`.ok Val.null`); a list index out of bounds
raises `IndexError` (`.error`), which `run` catches. -/
def dtExtractGo : List String → Val → Except String Val
  | [], cur => .ok cur
  | p :: ps, cur =>
    match cur with
    | .dict d => dtExtractGo ps (dgetD d p Val.null)
    | .list xs =>
      if pyIsDigit p then
        match xs.get? (digitsToNat p.toList) with
        | some v => dtExtractGo ps v
        | Option.none => .error "list index out of range"
      else .ok Val.null
    | _ => .ok Val.null

/-- `DataTransformAgent._extract` on a `field` config value that may not
be a string (then `field.split` raises `AttributeError`). -/
def dtExtract (data : Val) (fieldV : Val) : Except String Val :=
  match fieldV with
  | .str f => dtExtractGo (f.splitOn ".") data
  | v => .error (noAttr v "split")

/-- The comprehension inside `DataTransformAgent._filter`. -/
def dtFilterGo (fieldV value : Val) : List Val → Except String (List Val)
  | [] => .ok []
  | x :: xs => do
    let v ← dtExtract x fieldV
    let rest ← dtFilterGo fieldV value xs
    if v.pyStr == value.pyStr then .ok (x :: rest) else .ok rest

/-- `DataTransformAgent._filter`: non-list data is returned unchanged
(the field is never touched, so a bad `condition_field` only raises on a
non-empty list). -/
def dtFilter (data fieldV value : Val) : Except String Val :=
  match data with
  | .list xs => (dtFilterGo fieldV value xs).map Val.list
  | _ => .ok data

/-- The comprehension inside `DataTransformAgent._map`. -/
def dtMapGo (templateV : Val) : List Val → Except String (List Val)
  | [] => .ok []
  | x :: xs =>
    match templateV with
    | .str t => do
      let rest ← dtMapGo templateV xs
      .ok (.str (t.replace "\x7bitem\x7d" (jsonDumps x)) :: rest)
    | v => .error (noAttr v "replace")

/-- `DataTransformAgent._map`. -/
def dtMap (data templateV : Val) : Except String Val :=
  match data with
  | .list xs => (dtMapGo templateV xs).map Val.list
  | _ => .ok data

/-- `DataTransformAgent._aggregate`. -/
def dtAggregate (data aggType : Val) : Val :=
  match data with
  | .list xs =>
    if pyEq aggType (.str "count") then .dict [("count", .int xs.length)]
    else if pyEq aggType (.str "first") then (xs.head?).getD Val.null
    else if pyEq aggType (.str "last") then (xs.getLast?).getD Val.null
    else .dict [("count", .int xs.length)]
  | _ => data

/-- `DataTransformAgent._merge`. -/
def dtMerge (data : Val) : Val :=
  match data with
  | .dict d =>
    .dict (d.foldl (fun acc p =>
      match p.2 with
      | .dict v => dmerge acc v
      | _ => acc) [])
  | _ => data

/-- The `input_key` scoping step of `DataTransformAgent.run` (lines
16-19): `data = context or {}`, then `data = data[input_key]` when
`input_key` is truthy and a present key.  An unhashable `input_key`
raises `TypeError` (caught by `run`). -/
def dtScopeData (config context : List (String × Val)) : Except String Val :=
  let data := Val.dict context
  match dget config "input_key" with
  | Option.none => .ok data
  | some ik =>
    if ik.truthy then
      match ik with
      | .str s => .ok (if dmem context s then dgetD context s Val.null else data)
      | .list _ => .error "unhashable type: \x27list\x27"
      | .dict _ => .error "unhashable type: \x27dict\x27"
      | _ => .ok data
    else .ok data

/-- The body of the `try` in `DataTransformAgent.run` (lines 15-45),
including the final `output_key` wrapping.  Dict keys are strings in the
value model; a truthy non-string `output_key` is wrapped via `str` of
the key (model boundary, configs are JSON objects). -/
def dtBody (config context : List (String × Val)) : Except String Val := do
  let operation := dgetD config "operation" (.str "passthrough")
  let data ← dtScopeData config context
  let result ←
    if pyEq operation (.str "passthrough") then pure data
    else if pyEq operation (.str "extract_field") then
      dtExtract data (dgetD config "field" (.str ""))
    else if pyEq operation (.str "filter") then
      dtFilter data (dgetD config "condition_field" (.str ""))
        (dgetD config "condition_value" (.str ""))
    else if pyEq operation (.str "map") then
      dtMap data (dgetD config "template" (.str "\x7bitem\x7d"))
    else if pyEq operation (.str "aggregate") then
      pure (dtAggregate data (dgetD config "agg_type" (.str "count")))
    else if pyEq operation (.str "merge") then pure (dtMerge data)
    else if pyEq operation (.str "json_parse") then
      match data with
      | .str s => jsonLoads s
      | _ => pure data
    else pure data
  match dget config "output_key" with
  | some okey =>
    if okey.truthy then
      match okey with
      | .str k => pure (Val.dict [(k, result)])
      | .list _ => .error "unhashable type: \x27list\x27"
      | .dict _ => .error "unhashable type: \x27dict\x27"
      | v => pure (Val.dict [(v.pyStr, result)])
    else pure result
  | Option.none => pure result

/-- `DataTransformAgent.run`: everything fallible sits inside the `try`,
so `run` never raises; an exception becomes `success=false` with the
message in `output`. -/
def DataTransformAgent.run (config : List (String × Val)) (objective : Val)
    (context : List (String × Val)) : AgentResult :=
  let operation := dgetD config "operation" (.str "passthrough")
  match dtBody config context with
  | .ok r => { success := true, output := r, metadata := [("operation", operation)] }
  | .error msg => { success := false, output := .str ("Transform failed: " ++ msg) }

/-! ### API-call agent header interpolation (src/app/agents/api_call_agent.py) -/

/-- `APICallAgent._interpolate`: for each context key `k`, the literal
occurrences of `{{k}}` are replaced by `str(context[k])`, in context
order. -/
def interpolate (template : String) (context : List (String × Val)) : String :=
  context.foldl
    (fun t p => t.replace ("\x7b\x7b" ++ p.1 ++ "\x7d\x7d") p.2.pyStr) template

/-- `APICallAgent.run`, lines 19-25: when `context` is truthy the agent
assigns `headers[k] = self._interpolate(v, context)` for every header —
mutating, in place, the very dict object stored in the node's merged
config (the merge `{**defaults, **overrides}` copies the outer dict but
aliases the nested `headers` dict).  This definition gives the value of
that dict after `run`; the network request itself is not modelled.
Non-string header values would raise before the `try` and are outside
the model. -/
def apiCallHeadersAfterRun (headers : List (String × String))
    (context : List (String × Val)) : List (String × String) :=
  if context.isEmpty then headers
  else headers.map (fun p => (p.1, interpolate p.2 context))

/-! ### Workflow engine graph data (src/app/workflows/engine.py)

Nodes and edges arrive as JSON dicts; the schema layer
(src/app/schemas.py) types `id`, `source_id`, `target_id` as strings,
`agent_type`/`condition` as strings, `stop_on_failure` as bool.  The
structures mirror the dict fields read by the engine, with `Option` for
possibly-absent keys. -/

structure PyEdge where
  source_id : String
  target_id : String
  condition : Option String := Option.none
deriving DecidableEq, Repr

structure PyNode where
  id : String
  agent_type : Option String := Option.none
  agent_def_id : Option String := Option.none
  config_overrides : List (String × Val) := []
  objective : Option Val := Option.none
  stop_on_failure : Option Bool := Option.none
deriving DecidableEq, Repr

structure AgentDef where
  agent_type : Option String := Option.none
  config : List (String × Val) := []
deriving DecidableEq, Repr

/-! ### Topological sort (`WorkflowEngine._topological_sort`) -/

/-- `adjacency[u]`: targets of the edges out of `u`, accumulated in edge
declaration order. -/
def adjacency (edges : List PyEdge) (u : String) : List String :=
  (edges.filter (fun e => e.source_id == u)).map (fun e => e.target_id)

/-- The in-degree map after the build loop: number of edges into `v`
(0 for any id without incoming edges, matching the `defaultdict` plus
`setdefault`). -/
def initInDeg (edges : List PyEdge) (v : String) : Nat :=
  (edges.filter (fun e => e.target_id == v)).length

/-- The inner `for neighbor in adjacency[node]` loop: decrement each
neighbor's in-degree and append it to the queue when the count reaches
exactly 0.  Python ints go negative silently, hence `Int`. -/
def processNeighbors : List String → (String → Int) → List String →
    ((String → Int) × List String)
  | [], deg, q => (deg, q)
  | t :: ts, deg, q =>
    let deg2 := fun x => if x = t then deg x - 1 else deg x
    let q2 := if deg2 t = 0 then q ++ [t] else q
    processNeighbors ts deg2 q2

/-- The `while queue` loop of Kahn's algorithm.  The fuel only bounds
the iteration count; `kahnFuel_sufficient`-style reasoning below shows
the chosen fuel is never exhausted, so the `0` branch is dead code for
the actual entry point. -/
def kahnLoop (edges : List PyEdge) : Nat → (String → Int) → List String → List String
  | 0, _, _ => []
  | fuel + 1, deg, queue =>
    match queue with
    | [] => []
    | u :: qs =>
      let s := processNeighbors (adjacency edges u) deg qs
      u :: kahnLoop edges fuel s.1 s.2

/-- `WorkflowEngine._topological_sort` over the node id list (the dict
`self.nodes` iterates ids in node-list order; ids are unique per the
graph invariant). -/
def topologicalSort (nodeIds : List String) (edges : List PyEdge) : List String :=
  let deg := fun v => (initInDeg edges v : Int)
  let queue := nodeIds.filter (fun n => deg n = 0)
  kahnLoop edges (nodeIds.length + edges.length) deg queue

/-! ### Branch pruner (`_get_skipped_branches`, `_get_all_descendants`) -/

/-- Union of Python sets, modelled on lists up to membership. -/
def setUnion (a b : List String) : List String :=
  a ++ b.filter (fun x => !a.contains x)

/-- The `for edge in self.edges` body of the BFS in
`_get_all_descendants`: every edge out of `cur` whose target is not yet
recorded adds the target to the descendant set and the queue. -/
def descStep (edges : List PyEdge) (cur : String)
    (p : List String × List String) : List String × List String :=
  edges.foldl (fun acc e =>
    if e.source_id == cur && !acc.1.contains e.target_id then
      (acc.1 ++ [e.target_id], acc.2 ++ [e.target_id])
    else acc) p

/-- The `while queue` loop of `_get_all_descendants` (fuel-bounded; the
chosen fuel is provably never exhausted). -/
def descLoop (edges : List PyEdge) : Nat → List String → List String → List String
  | 0, desc, _ => desc
  | fuel + 1, desc, queue =>
    match queue with
    | [] => desc
    | cur :: qs =>
      let p := descStep edges cur (desc, qs)
      descLoop edges fuel p.1 p.2

/-- `WorkflowEngine._get_all_descendants`. -/
def getAllDescendants (edges : List PyEdge) (nodeId : String) : List String :=
  descLoop edges (edges.length + 1) [] [nodeId]

/-- `WorkflowEngine._get_skipped_branches`: for every outbound edge of
the conditional whose condition (`"true"` when absent) differs from the
taken branch, the target and all its descendants are added.  The branch
value comes from the agent output and is compared with Python `!=`. -/
def getSkippedBranches (edges : List PyEdge) (cid : String) (branch : Val) :
    List String :=
  edges.foldl (fun acc e =>
    if e.source_id == cid && !pyEq (.str (e.condition.getD "true")) branch then
      setUnion acc (e.target_id :: getAllDescendants edges e.target_id)
    else acc) []

/-! ### Execution driver (`WorkflowEngine.run`) -/

/-- Generic association-list get (`d[k]` / `d.get(k)`). -/
def aget {α : Type} (d : List (String × α)) (k : String) : Option α :=
  (d.find? (fun p => p.1 == k)).map (fun p => p.2)

/-- Generic association-list set with dict semantics. -/
def aset {α : Type} (d : List (String × α)) (k : String) (v : α) :
    List (String × α) :=
  if d.any (fun p => p.1 == k) then
    d.map (fun p => if p.1 == k then (k, v) else p)
  else d ++ [(k, v)]

/-- One recorded node result.  Python stores plain dicts whose key sets
differ per status; absent keys are `Option.none` here.  `duration_ms`
is modelled as 0. -/
structure NodeRes where
  status : String
  output : Val
  tokens_used : Option Int := Option.none
  cost_usd : Option Rat := Option.none
  duration_ms : Int := 0
  metadata : Option (List (String × Val)) := Option.none
deriving DecidableEq, Repr

/-- The result dict recorded for a node found in the skip set. -/
def skippedNodeRes : NodeRes := { status := "skipped", output := Val.null }

/-- The engine object: graph plus agent-definition lookup (the
per-run mutable attributes live in `EngSt`; a fresh engine per run is
created by the router, matching `__init__`). -/
structure WorkflowEngine where
  nodes : List PyNode
  edges : List PyEdge
  agent_defs : List (String × AgentDef) := []
deriving DecidableEq, Repr

/-- Per-run mutable engine state (`self.results`, the local
`context_store` and `skipped_nodes`, `self.total_tokens`,
`self.total_cost`). -/
structure EngSt where
  results : List (String × NodeRes) := []
  context_store : List (String × Val) := []
  skipped : List String := []
  total_tokens : Int := 0
  total_cost : Rat := 0
deriving DecidableEq, Repr

/-- The final execution record returned by `run`. -/
structure RunRecord where
  status : String
  node_results : List (String × NodeRes)
  output_data : Val
  total_tokens : Int
  total_cost_usd : Rat
  duration_ms : Int := 0
  failed_node : Option String
deriving DecidableEq, Repr

/-- Python `round(x, 6)` (round half to even). -/
def round6 (q : Rat) : Rat :=
  let x := q * 1000000
  let f : Int := x.floor
  let r : Rat := x - (f : Rat)
  let n : Int :=
    if r < 1/2 then f
    else if 1/2 < r then f + 1
    else if f % 2 = 0 then f else f + 1
  (n : Rat) / 1000000

/-- `WorkflowEngine._build_result`: the workflow output is the output of
the last completed node in recording order. -/
def buildResult (st : EngSt) (status : String) (failed : Option String) :
    RunRecord :=
  let out :=
    ((st.results.reverse.find? (fun p => p.2.status == "completed")).map
      (fun p => p.2.output)).getD Val.null
  { status := status, node_results := st.results, output_data := out,
    total_tokens := st.total_tokens, total_cost_usd := round6 st.total_cost,
    failed_node := failed }

/-- `self.nodes[node_id]` (dict keyed by id; ids unique per the graph
invariant, so first match is the dict entry). -/
def lookupNode (nodes : List PyNode) (i : String) : Option PyNode :=
  nodes.find? (fun n => n.id == i)

/-- `WorkflowEngine._gather_context`. -/
def gatherContext (edges : List PyEdge) (nodeId : String)
    (ctxStore : List (String × Val)) (input : List (String × Val)) :
    List (String × Val) :=
  let base := if input.isEmpty then [] else [("input", Val.dict input)]
  edges.foldl (fun acc e =>
    if e.target_id == nodeId then
      match aget ctxStore e.source_id with
      | some v => aset acc e.source_id v
      | Option.none => acc
    else acc) base

/-- `agent_type = node.get("agent_type") or agent_def.get("agent_type", "llm")`
(Python `or`: an empty node string falls through). -/
def resolveAgentType (node : PyNode) (adef : Option AgentDef) : String :=
  let adt :=
    match adef with
    | some d => (d.agent_type).getD "llm"
    | Option.none => "llm"
  match node.agent_type with
  | some s => if s = "" then adt else s
  | Option.none => adt

/-- `config = {**agent_def.get("config", {}), **node.get("config_overrides", {})}`. -/
def nodeConfig (node : PyNode) (adef : Option AgentDef) : List (String × Val) :=
  dmerge (match adef with | some d => d.config | Option.none => []) node.config_overrides

/-- `objective = node.get("objective", config.get("objective", ""))`. -/
def nodeObjective (node : PyNode) (config : List (String × Val)) : Val :=
  match node.objective with
  | some v => v
  | Option.none => dgetD config "objective" (.str "")

/-- The keys of `AGENT_REGISTRY` (src/app/agents/registry.py). -/
def AGENT_REGISTRY_KEYS : List String :=
  ["llm", "web_search", "code_exec", "api_call", "data_transform", "conditional"]

/-- The `ValueError` message raised by `get_agent` for an unknown type. -/
def unknownAgentMsg (t : String) : String :=
  "Unknown agent type: " ++ t ++
    ". Available: [\x27llm\x27, \x27web_search\x27, \x27code_exec\x27, " ++
    "\x27api_call\x27, \x27data_transform\x27, \x27conditional\x27]"

/-- An agent back end: given agent type, merged config, objective and
upstream context, produce the `AgentResult` of `get_agent(...).run(...)`
(`.error` is an exception escaping the agent, caught by the driver).
The engine theorems are stated for every oracle; concrete runs
instantiate it with `pureAgents` below. -/
def AgentOracle : Type :=
  String → List (String × Val) → Val → List (String × Val) →
    Except String AgentResult

/-- Normalization of an output into the context store:
`output if isinstance(output, dict) else {"output": output}`. -/
def normOut : Val → Val
  | .dict d => .dict d
  | v => .dict [("output", v)]

/-- The agent-definition record used for a node
(`self.agent_defs.get(node.get("agent_def_id", ""), {})`). -/
def nodeAdef (eng : WorkflowEngine) (node : PyNode) : Option AgentDef :=
  (eng.agent_defs.find? (fun p => p.1 == node.agent_def_id.getD "")).map
    (fun p => p.2)

/-- The agent type the driver resolves for a node. -/
def nodeAtype (eng : WorkflowEngine) (node : PyNode) : String :=
  resolveAgentType node (nodeAdef eng node)

/-- The result dict recorded when `get_agent`/`agent.run` raised
(the `except` branch, lines 100-105). -/
def errNodeRes (msg : String) : NodeRes := { status := "error", output := .str msg }

/-- The result dict recorded for a normally returned `AgentResult`
(lines 71-78). -/
def okNodeRes (r : AgentResult) : NodeRes :=
  { status := if r.success then "completed" else "failed",
    output := r.output, tokens_used := some r.tokens_used,
    cost_usd := some r.cost_usd, metadata := some r.metadata }

/-- Outcome of processing one node of the execution order. -/
inductive StepOut where
  | next (st : EngSt)
  | halt (r : RunRecord)
  | crash (msg : String)
deriving DecidableEq, Repr

/-- The agent invocation of one driver step:
`get_agent(agent_type, config=config)` followed by
`agent.run(objective, context=upstream_context)` (lines 56-69); an
unknown type is the raised `ValueError`. -/
def stepCall (eng : WorkflowEngine) (oracle : AgentOracle)
    (input : List (String × Val)) (st : EngSt) (nodeId : String)
    (node : PyNode) : Except String AgentResult :=
  if AGENT_REGISTRY_KEYS.contains (nodeAtype eng node) then
    oracle (nodeAtype eng node) (nodeConfig node (nodeAdef eng node))
      (nodeObjective node (nodeConfig node (nodeAdef eng node)))
      (gatherContext eng.edges nodeId st.context_store input)
  else .error (unknownAgentMsg (nodeAtype eng node))

/-- The state updates of a driver step whose agent returned normally
(lines 71-93): record the result, add the totals, store the normalized
output, and - for a conditional with a dict output - extend the skip
set. -/
def stepStOk (eng : WorkflowEngine) (st : EngSt) (nodeId : String)
    (node : PyNode) (r : AgentResult) : EngSt :=
  let st2 := { st with
    results := aset st.results nodeId (okNodeRes r),
    total_tokens := st.total_tokens + r.tokens_used,
    total_cost := st.total_cost + r.cost_usd,
    context_store := aset st.context_store nodeId (normOut r.output) }
  if nodeAtype eng node = "conditional" then
    match r.output with
    | .dict od =>
      let sk := setUnion st2.skipped
        (getSkippedBranches eng.edges nodeId (dgetD od "branch" (.str "true")))
      { st2 with skipped := sk }
    | _ => st2
  else st2

/-- The body of `for node_id in execution_order` in
`WorkflowEngine.run` (lines 47-107).  `crash` models the uncaught
`KeyError` when the id is not in `self.nodes` (everything after that
lookup sits inside the `try`). -/
def stepNode (eng : WorkflowEngine) (oracle : AgentOracle)
    (input : List (String × Val)) (st : EngSt) (nodeId : String) : StepOut :=
  if st.skipped.contains nodeId then
    .next { st with results := aset st.results nodeId skippedNodeRes }
  else
    match lookupNode eng.nodes nodeId with
    | Option.none => .crash ("KeyError: \x27" ++ nodeId ++ "\x27")
    | some node =>
      match stepCall eng oracle input st nodeId node with
      | .error msg =>
        let st2 := { st with results := aset st.results nodeId (errNodeRes msg) }
        if (node.stop_on_failure).getD true then
          .halt (buildResult st2 "failed" (some nodeId))
        else .next st2
      | .ok r =>
        let st3 := stepStOk eng st nodeId node r
        if !r.success && (node.stop_on_failure).getD true then
          .halt (buildResult st3 "failed" (some nodeId))
        else .next st3

/-- The driver loop over the execution order. -/
def runNodes (eng : WorkflowEngine) (oracle : AgentOracle)
    (input : List (String × Val)) : List String → EngSt → Except String RunRecord
  | [], st => .ok (buildResult st "completed" Option.none)
  | nodeId :: rest, st =>
    match stepNode eng oracle input st nodeId with
    | .next st2 => runNodes eng oracle input rest st2
    | .halt r => .ok r
    | .crash m => .error m

/-- `WorkflowEngine.run` for a fresh engine (`__init__` zeroes
`results` and the totals; the router constructs a new engine per run).
`input = []` covers both `input_data=None` and `input_data={}` (they
are equivalent under every `if input_data:`). -/
def WorkflowEngine.run (eng : WorkflowEngine) (oracle : AgentOracle)
    (input : List (String × Val)) : Except String RunRecord :=
  let order := topologicalSort (eng.nodes.map (fun n => n.id)) eng.edges
  let st0 : EngSt :=
    { context_store := if input.isEmpty then [] else [("__input__", Val.dict input)] }
  runNodes eng oracle input order st0

/-- The deterministic agents as an oracle: `data_transform` and
`conditional` are embedded in full; the four side-effecting agents
(llm, web_search, code_exec, api_call touch network or an interpreter)
are represented by a failing result and are not invoked by any concrete
run in this development. -/
def pureAgents : AgentOracle := fun atype config objective context =>
  if atype = "data_transform" then .ok (DataTransformAgent.run config objective context)
  else if atype = "conditional" then ConditionalAgent.run config objective context
  else .ok { success := false, output := .str "external agent not modelled" }

/-! ### Lemmas about association lists and list order -/

theorem aget_cons {α : Type} (a : String × α) (d : List (String × α)) (k : String) :
    aget (a :: d) k = if a.1 = k then some a.2 else aget d k := by
  by_cases h : a.1 = k
  · unfold aget
    rw [List.find?_cons_of_pos _ (by simpa using h)]
    simp [h]
  · unfold aget
    rw [List.find?_cons_of_neg _ (by simpa using h)]
    simp [h]

theorem aget_none_of_not_mem {α : Type} (d : List (String × α)) (k : String)
    (h : ∀ p ∈ d, p.1 ≠ k) : aget d k = Option.none := by
  induction d with
  | nil => rfl
  | cons a t ih =>
    rw [aget_cons, if_neg (h a (List.mem_cons_self a t))]
    exact ih (fun p hp => h p (List.mem_cons_of_mem a hp))

theorem aget_map_set_self {α : Type} (d : List (String × α)) (k : String) (v : α)
    (h : ∃ p ∈ d, p.1 = k) :
    aget (d.map (fun p => if p.1 == k then (k, v) else p)) k = some v := by
  induction d with
  | nil => simp at h
  | cons a t ih =>
    by_cases ha : a.1 = k
    · have hb : (a.1 == k) = true := beq_iff_eq.mpr ha
      simp [List.map_cons, hb, aget_cons, ha]
    · have hb : (a.1 == k) = false := beq_eq_false_iff_ne.mpr ha
      simp only [List.map_cons, hb, Bool.false_eq_true, if_false, aget_cons]
      rw [if_neg ha]
      refine ih ?_
      rcases h with ⟨p, hp, hpk⟩
      rcases List.mem_cons.mp hp with hpa | hpt
      · exact absurd (hpa ▸ hpk) ha
      · exact ⟨p, hpt, hpk⟩

theorem aget_map_set_ne {α : Type} (d : List (String × α)) (k : String) (v : α)
    (x : String) (hx : x ≠ k) :
    aget (d.map (fun p => if p.1 == k then (k, v) else p)) x = aget d x := by
  induction d with
  | nil => rfl
  | cons a t ih =>
    by_cases ha : a.1 = k
    · have hb : (a.1 == k) = true := beq_iff_eq.mpr ha
      have hkx : ¬ (k = x) := fun he => hx he.symm
      have hax : ¬ (a.1 = x) := fun he => hkx (ha ▸ he)
      simp only [List.map_cons, hb, if_true, aget_cons]
      rw [if_neg hkx, if_neg hax]
      exact ih
    · have hb : (a.1 == k) = false := beq_eq_false_iff_ne.mpr ha
      simp only [List.map_cons, hb, Bool.false_eq_true, if_false, aget_cons]
      by_cases hax : a.1 = x
      · rw [if_pos hax, if_pos hax]
      · rw [if_neg hax, if_neg hax]
        exact ih

theorem any_eq_true_iff_mem {α : Type} (d : List (String × α)) (k : String) :
    (d.any (fun p => p.1 == k) = true) ↔ ∃ p ∈ d, p.1 = k := by
  rw [List.any_eq_true]
  constructor
  · rintro ⟨p, hp, hpk⟩; exact ⟨p, hp, beq_iff_eq.mp hpk⟩
  · rintro ⟨p, hp, hpk⟩; exact ⟨p, hp, beq_iff_eq.mpr hpk⟩

theorem aget_aset_self {α : Type} (d : List (String × α)) (k : String) (v : α) :
    aget (aset d k v) k = some v := by
  unfold aset
  by_cases h : d.any (fun p => p.1 == k) = true
  · rw [if_pos h]
    exact aget_map_set_self d k v ((any_eq_true_iff_mem d k).mp h)
  · rw [if_neg h]
    have h2 : ∀ p ∈ d, p.1 ≠ k := by
      intro p hp hpk
      exact h ((any_eq_true_iff_mem d k).mpr ⟨p, hp, hpk⟩)
    have h0 := aget_none_of_not_mem d k h2
    unfold aget at h0 ⊢
    have hfind : List.find? (fun p => p.1 == k) d = Option.none :=
      Option.map_eq_none'.mp h0
    rw [List.find?_append, hfind]
    rw [List.find?_cons_of_pos _ (by simp)]
    rfl

theorem aget_aset_ne {α : Type} (d : List (String × α)) (k : String) (v : α)
    (x : String) (hx : x ≠ k) : aget (aset d k v) x = aget d x := by
  unfold aset
  by_cases h : d.any (fun p => p.1 == k) = true
  · rw [if_pos h]; exact aget_map_set_ne d k v x hx
  · rw [if_neg h]
    unfold aget
    rw [List.find?_append]
    have hkv : List.find? (fun p => p.1 == x) [(k, v)] = Option.none := by
      have hkx : ¬ (k = x) := fun he => hx he.symm
      rw [List.find?_cons_of_neg _ (by simpa using hkx)]
      rfl
    rw [hkv]
    cases List.find? (fun p => p.1 == x) d <;> rfl

theorem aget_aset {α : Type} (d : List (String × α)) (k : String) (v : α) (x : String) :
    aget (aset d k v) x = if x = k then some v else aget d x := by
  by_cases hx : x = k
  · rw [if_pos hx, hx]; exact aget_aset_self d k v
  · rw [if_neg hx]; exact aget_aset_ne d k v x hx

/-- Precedence in a list: every decomposition that isolates an
occurrence of `b` has `a` strictly before it. -/
def ListPrecedes (l : List String) (a b : String) : Prop :=
  ∀ pre post, l = pre ++ b :: post → a ∈ pre

/-- Splitting a snoc list at an element other than the last one. -/
theorem snoc_split {l pre post : List String} {t u : String}
    (h : l ++ [u] = pre ++ t :: post) :
    (post = [] ∧ t = u ∧ pre = l) ∨
      (∃ post2, post = post2 ++ [u] ∧ l = pre ++ t :: post2) := by
  rcases List.eq_nil_or_concat post with hp | ⟨post2, x, hp⟩
  · subst hp
    have h2 : l ++ [u] = pre ++ [t] := by simpa using h
    have hlen : l.length = pre.length := by
      have := congrArg List.length h2
      simpa using this
    have h3 := List.append_inj h2 (by simpa using hlen)
    refine .inl ⟨rfl, ?_, h3.1.symm⟩
    have := h3.2; simpa using this.symm
  · subst hp
    have h2 : l ++ [u] = (pre ++ t :: post2) ++ [x] := by
      simpa using h
    have hlen : l.length = (pre ++ t :: post2).length := by
      have := congrArg List.length h2
      simp [List.length_append] at this ⊢
      omega
    have h3 := List.append_inj h2 (by simpa using hlen)
    have hx : u = x := by simpa using h3.2
    exact .inr ⟨post2, by rw [hx, List.concat_eq_append], h3.1⟩

/-- Appending an element preserves precedence facts. -/
theorem ListPrecedes.append_right {l : List String} {a b u : String}
    (hb : b ∈ l) (h : ListPrecedes l a b) : ListPrecedes (l ++ [u]) a b := by
  intro pre post hsplit
  rcases snoc_split hsplit with ⟨hpost, ht, hpre⟩ | ⟨post2, hpost, hl⟩
  · subst ht hpre
    rcases List.append_of_mem hb with ⟨s, t2, hst⟩
    rw [hst]
    exact List.mem_append_left _ (h s t2 hst)
  · exact h pre post2 hl

/-- The appended element is preceded by every member of the list. -/
theorem ListPrecedes.snoc_new {l : List String} {a u : String}
    (ha : a ∈ l) (hu : u ∉ l) : ListPrecedes (l ++ [u]) a u := by
  intro pre post hsplit
  rcases snoc_split hsplit with ⟨hpost, ht, hpre⟩ | ⟨post2, hpost, hl⟩
  · subst hpre; exact ha
  · exact absurd (hl ▸ List.mem_append_right pre (List.mem_cons_self u post2)) hu

/-- Precedence composes transitively. -/
theorem ListPrecedes.trans {l : List String} {a b c : String}
    (hab : ListPrecedes l a b) (hbc : ListPrecedes l b c) : ListPrecedes l a c := by
  intro pre post hsplit
  have hb : b ∈ pre := hbc pre post hsplit
  rcases List.append_of_mem hb with ⟨s, t2, hst⟩
  subst hst
  have h2 : l = s ++ b :: (t2 ++ c :: post) := by simp [hsplit]
  have ha := hab s (t2 ++ c :: post) h2
  exact List.mem_append_left _ ha

/-- An element never precedes itself in a duplicate-free list. -/
theorem ListPrecedes.irrefl {l : List String} {a : String}
    (hnd : l.Nodup) (ha : a ∈ l) : ¬ ListPrecedes l a a := by
  intro h
  rcases List.append_of_mem ha with ⟨s, t2, hst⟩
  subst hst
  have hmem := h s t2 rfl
  exact List.disjoint_of_nodup_append hnd hmem (List.mem_cons_self a t2)

/-- A precedence fact forces membership of the earlier element. -/
theorem ListPrecedes.mem_left {l : List String} {a b : String}
    (hb : b ∈ l) (h : ListPrecedes l a b) : a ∈ l := by
  rcases List.append_of_mem hb with ⟨s, t2, hst⟩
  subst hst
  exact List.mem_append_left _ (h s t2 rfl)

/-! ### Graph reachability (specification side) -/

/-- There is an edge from `a` to `b`. -/
def edgeRel (edges : List PyEdge) (a b : String) : Prop :=
  ∃ e ∈ edges, e.source_id = a ∧ e.target_id = b

/-- Decidable edge test. -/
def edgeRelB (edges : List PyEdge) (a b : String) : Bool :=
  edges.any (fun e => e.source_id == a && e.target_id == b)

theorem edgeRelB_iff (edges : List PyEdge) (a b : String) :
    edgeRelB edges a b = true ↔ edgeRel edges a b := by
  simp [edgeRelB, edgeRel, List.any_eq_true]

/-- `b` is reachable from `a` along a non-empty edge path. -/
def Reaches (edges : List PyEdge) : String → String → Prop :=
  Relation.TransGen (edgeRel edges)

/-- The graph has no directed cycle. -/
def Acyclic (edges : List PyEdge) : Prop := ∀ n, ¬ Reaches edges n n

/-! ### Kahn loop invariants -/

/-- Number of edges into `v` whose source has not been popped yet; the
in-degree value maintained by the loop. -/
def remIn (edges : List PyEdge) (popped : List String) (v : String) : Nat :=
  (edges.filter (fun e => e.target_id == v && !popped.contains e.source_id)).length

theorem remIn_nil (edges : List PyEdge) (v : String) :
    remIn edges [] v = initInDeg edges v := by
  unfold remIn initInDeg
  congr 1
  apply List.filter_congr
  intro e _
  simp [List.contains]

theorem count_adjacency (edges : List PyEdge) (u v : String) :
    (adjacency edges u).count v =
      (edges.filter (fun e => e.source_id == u && e.target_id == v)).length := by
  induction edges with
  | nil => rfl
  | cons e es ih =>
    unfold adjacency at *
    by_cases hs : e.source_id = u
    · by_cases ht : e.target_id = v
      · simp [List.filter_cons, hs, ht, List.count_cons, ih]
      · simp [List.filter_cons, hs, ht, List.count_cons, ih]
    · simp [List.filter_cons, hs, ih]

/-- Popping `u` converts, for each `v`, exactly the edges `u → v` from
"unprocessed" to "processed". -/
theorem remIn_snoc (edges : List PyEdge) (popped : List String) (u v : String)
    (hu : u ∉ popped) :
    remIn edges popped v = remIn edges (popped ++ [u]) v + (adjacency edges u).count v := by
  rw [count_adjacency]
  unfold remIn
  induction edges with
  | nil => rfl
  | cons e es ih =>
    rw [List.filter_cons, List.filter_cons, List.filter_cons]
    by_cases ht : e.target_id = v
    · by_cases hs : e.source_id = u
      · have h1 : (e.target_id == v && !popped.contains e.source_id) = true := by
          simp [ht, hs, List.contains]
          intro hmem
          exact hu (hs ▸ hmem)
        have h2 : (e.target_id == v && !(popped ++ [u]).contains e.source_id) = false := by
          simp [ht, hs]
        have h3 : (e.source_id == u && e.target_id == v) = true := by simp [hs, ht]
        simp only [h1, h2, h3, Bool.false_eq_true, if_false, if_true, List.length_cons]
        omega
      · have hcp : (popped ++ [u]).contains e.source_id = popped.contains e.source_id := by
          simp [List.contains, hs]
        have h3 : (e.source_id == u && e.target_id == v) = false := by simp [hs]
        simp only [hcp, h3, Bool.false_eq_true, if_false]
        by_cases hc : popped.contains e.source_id
        · simp only [ht, hc]
          simpa using ih
        · have : (e.target_id == v && !popped.contains e.source_id) = true := by
            simp [ht]
            simpa using hc
          simp only [this, if_true, List.length_cons]
          omega
    · have h1 : (e.target_id == v && !popped.contains e.source_id) = false := by simp [ht]
      have h2 : (e.target_id == v && !(popped ++ [u]).contains e.source_id) = false := by
        simp [ht]
      have h3 : (e.source_id == u && e.target_id == v) = false := by simp [ht]
      simp only [h1, h2, h3, Bool.false_eq_true, if_false]
      exact ih

/-- When the maintained in-degree of `v` is 0, every edge into `v` comes
from a popped source. -/
theorem remIn_zero_sources (edges : List PyEdge) (popped : List String) (v : String)
    (h : remIn edges popped v = 0) :
    ∀ e ∈ edges, e.target_id = v → e.source_id ∈ popped := by
  intro e he ht
  by_contra hs
  have hmem : e ∈ edges.filter (fun e => e.target_id == v && !popped.contains e.source_id) := by
    rw [List.mem_filter]
    refine ⟨he, ?_⟩
    simp [ht]
    simpa [List.contains] using hs
  have := List.length_pos.mpr (List.ne_nil_of_mem hmem)
  unfold remIn at h
  omega

/-- A positive maintained in-degree exhibits an incoming edge from an
unpopped source. -/
theorem remIn_pos_edge (edges : List PyEdge) (popped : List String) (v : String)
    (h : 0 < remIn edges popped v) :
    ∃ e ∈ edges, e.target_id = v ∧ e.source_id ∉ popped := by
  unfold remIn at h
  have hne : edges.filter (fun e => e.target_id == v && !popped.contains e.source_id) ≠ [] := by
    intro h0
    rw [h0] at h
    simp at h
  rcases List.exists_mem_of_ne_nil _ hne with ⟨e, he⟩
  rw [List.mem_filter] at he
  have h2 := he.2
  simp only [Bool.and_eq_true, beq_iff_eq, Bool.not_eq_true] at h2
  refine ⟨e, he.1, h2.1, ?_⟩
  have h3 := h2.2
  simp [List.contains] at h3
  exact h3

/-- The enqueued suffix produced while processing a neighbor list. -/
def pnNew : List String → (String → Int) → List String
  | [], _ => []
  | t :: ts, deg =>
    let deg2 := fun x => if x = t then deg x - 1 else deg x
    (if deg2 t = 0 then [t] else []) ++ pnNew ts deg2

theorem processNeighbors_deg (ts : List String) (deg : String → Int)
    (q : List String) (x : String) :
    (processNeighbors ts deg q).1 x = deg x - (ts.count x : Int) := by
  induction ts generalizing deg q with
  | nil => simp [processNeighbors]
  | cons t ts ih =>
    rw [processNeighbors]
    rw [ih]
    by_cases hx : x = t
    · subst hx
      simp [List.count_cons]
      omega
    · have : t ≠ x := fun he => hx he.symm
      simp [hx, List.count_cons, this]

theorem processNeighbors_queue (ts : List String) (deg : String → Int)
    (q : List String) :
    (processNeighbors ts deg q).2 = q ++ pnNew ts deg := by
  induction ts generalizing deg q with
  | nil => simp [processNeighbors, pnNew]
  | cons t ts ih =>
    rw [processNeighbors, pnNew]
    rw [ih]
    by_cases h0 : deg t - 1 = 0 <;> simp [h0]

theorem pnNew_mem (ts : List String) (deg : String → Int) (x : String) :
    x ∈ pnNew ts deg ↔ 0 < deg x ∧ deg x ≤ (ts.count x : Int) := by
  induction ts generalizing deg with
  | nil => simp [pnNew]
  | cons t ts ih =>
    rw [pnNew]
    simp only [List.mem_append]
    rw [ih]
    by_cases hx : x = t
    · subst hx
      by_cases h0 : deg x - 1 = 0 <;>
        · simp [h0, List.count_cons]
          omega
    · have htx : t ≠ x := fun he => hx he.symm
      by_cases h0 : deg t - 1 = 0 <;> simp [hx, htx, h0, List.count_cons]

theorem pnNew_nodup (ts : List String) (deg : String → Int) :
    (pnNew ts deg).Nodup := by
  induction ts generalizing deg with
  | nil => simp [pnNew]
  | cons t ts ih =>
    rw [pnNew]
    by_cases h0 : deg t - 1 = 0
    · have hif : (if (fun x => if x = t then deg x - 1 else deg x) t = 0
          then [t] else ([] : List String)) = [t] := by simp [h0]
      rw [hif]
      refine List.Nodup.append (by simp) (ih _) ?_
      intro x hx hmem
      simp at hx
      subst hx
      rw [pnNew_mem] at hmem
      simp at hmem
      omega
    · have hif : (if (fun x => if x = t then deg x - 1 else deg x) t = 0
          then [t] else ([] : List String)) = [] := by simp [h0]
      rw [hif]
      simpa using ih _

/-- Indicator bookkeeping: when a pointwise-decreasing update is applied,
the number of positive entries drops by exactly the number of
positive-to-nonpositive crossings. -/
theorem countP_pos_drop (T : List String) (f g : String → Int)
    (hle : ∀ x ∈ T, g x ≤ f x) :
    T.countP (fun v => decide (0 < g v)) +
      T.countP (fun v => decide (0 < f v ∧ g v ≤ 0)) =
      T.countP (fun v => decide (0 < f v)) := by
  induction T with
  | nil => simp
  | cons a T ih =>
    have ha := hle a (List.mem_cons_self a T)
    have ih2 := ih (fun x hx => hle x (List.mem_cons_of_mem a hx))
    rw [List.countP_cons, List.countP_cons, List.countP_cons]
    have eg : (if (fun v => decide (0 < g v)) a = true then 1 else 0) =
        (if 0 < g a then 1 else 0) := by by_cases h : 0 < g a <;> simp [h]
    have ef : (if (fun v => decide (0 < f v)) a = true then 1 else 0) =
        (if 0 < f a then 1 else 0) := by by_cases h : 0 < f a <;> simp [h]
    have ec : (if (fun v => decide (0 < f v ∧ g v ≤ 0)) a = true then 1 else 0) =
        (if 0 < f a ∧ g a ≤ 0 then 1 else 0) := by
      by_cases h : 0 < f a ∧ g a ≤ 0 <;> simp [h]
    rw [eg, ef, ec]
    by_cases h1 : 0 < g a
    · have h2 : 0 < f a := lt_of_lt_of_le h1 ha
      have h3 : ¬ (0 < f a ∧ g a ≤ 0) := fun hh => absurd hh.2 (not_le.mpr h1)
      rw [if_pos h1, if_pos h2, if_neg h3]
      omega
    · by_cases h2 : 0 < f a
      · have h3 : (0 < f a ∧ g a ≤ 0) := ⟨h2, not_lt.mp h1⟩
        rw [if_neg h1, if_pos h2, if_pos h3]
        omega
      · have h3 : ¬ (0 < f a ∧ g a ≤ 0) := fun hh => absurd hh.1 h2
        rw [if_neg h1, if_neg h2, if_neg h3]
        omega

/-- The distinct edge targets: every vertex whose in-degree can ever be
positive. -/
def kahnTargets (edges : List PyEdge) : List String :=
  (edges.map (fun e => e.target_id)).dedup

theorem mem_kahnTargets_of_remIn_pos {edges : List PyEdge} {popped : List String}
    {v : String} (h : 0 < remIn edges popped v) : v ∈ kahnTargets edges := by
  rcases remIn_pos_edge edges popped v h with ⟨e, he, ht, _⟩
  exact List.mem_dedup.mpr (ht ▸ List.mem_map_of_mem (fun e => e.target_id) he)

/-- Number of vertices whose maintained in-degree is still positive. -/
def countPosR (edges : List PyEdge) (popped : List String) : Nat :=
  (kahnTargets edges).countP (fun v => decide (0 < ((remIn edges popped v : Int))))

theorem remIn_snoc_le (edges : List PyEdge) (popped : List String) (u v : String)
    (hu : u ∉ popped) : remIn edges (popped ++ [u]) v ≤ remIn edges popped v := by
  have := remIn_snoc edges popped u v hu
  omega

/-- Membership in the enqueued suffix, in in-degree terms: exactly the
vertices whose count crosses from positive to zero when `u` is popped. -/
theorem pnNew_mem_remIn {edges : List PyEdge} {popped : List String} {u x : String}
    (hu : u ∉ popped) :
    (x ∈ pnNew (adjacency edges u) (fun v => (remIn edges popped v : Int))) ↔
      (0 < remIn edges popped x ∧ remIn edges (popped ++ [u]) x = 0) := by
  rw [pnNew_mem]
  have hs := remIn_snoc edges popped u x hu
  constructor
  · rintro ⟨h1, h2⟩
    constructor
    · exact_mod_cast h1
    · omega
  · rintro ⟨h1, h2⟩
    constructor
    · exact_mod_cast h1
    · omega

/-- Popping `u` moves exactly `|pnNew|` vertices out of the positive
in-degree count. -/
theorem countPosR_snoc {edges : List PyEdge} {popped : List String} {u : String}
    (hu : u ∉ popped) :
    countPosR edges (popped ++ [u]) +
      (pnNew (adjacency edges u) (fun v => (remIn edges popped v : Int))).length =
      countPosR edges popped := by
  have hdrop := countP_pos_drop (kahnTargets edges)
    (fun v => (remIn edges popped v : Int))
    (fun v => (remIn edges (popped ++ [u]) v : Int))
    (fun x _ => by
      show ((remIn edges (popped ++ [u]) x : Int)) ≤ ((remIn edges popped x : Int))
      exact_mod_cast remIn_snoc_le edges popped u x hu)
  have hlen : (pnNew (adjacency edges u) (fun v => (remIn edges popped v : Int))).length =
      (kahnTargets edges).countP
        (fun v => decide (0 < ((remIn edges popped v : Int)) ∧
          ((remIn edges (popped ++ [u]) v : Int)) ≤ 0)) := by
    rw [List.countP_eq_length_filter]
    have hperm : (pnNew (adjacency edges u) (fun v => (remIn edges popped v : Int))).Perm
        ((kahnTargets edges).filter
          (fun v => decide (0 < ((remIn edges popped v : Int)) ∧
            ((remIn edges (popped ++ [u]) v : Int)) ≤ 0))) := by
      refine (List.perm_ext_iff_of_nodup (pnNew_nodup _ _) (List.Nodup.filter _ (List.nodup_dedup _))).mpr ?_
      intro x
      rw [pnNew_mem_remIn hu, List.mem_filter]
      constructor
      · rintro ⟨h1, h2⟩
        refine ⟨mem_kahnTargets_of_remIn_pos h1, ?_⟩
        simp only [decide_eq_true_eq]
        constructor
        · exact_mod_cast h1
        · omega
      · rintro ⟨hmem, h2⟩
        simp only [decide_eq_true_eq] at h2
        constructor
        · exact_mod_cast h2.1
        · omega
    exact hperm.length_eq
  rw [hlen]
  unfold countPosR
  simp only [] at hdrop
  omega

/-- Invariant of the Kahn loop, relating the queue and the already
emitted prefix. -/
structure KahnInv (edges : List PyEdge) (nodeIds queue popped : List String) : Prop where
  qnd : queue.Nodup
  pnd : popped.Nodup
  disj : ∀ v ∈ queue, v ∉ popped
  q0 : ∀ v ∈ queue, remIn edges popped v = 0
  closed : ∀ v ∈ nodeIds, remIn edges popped v = 0 → v ∈ queue ∨ v ∈ popped
  pop0 : ∀ v ∈ popped, remIn edges popped v = 0
  sorted : ∀ e ∈ edges, e.target_id ∈ popped →
    e.source_id ∈ popped ∧ ListPrecedes popped e.source_id e.target_id
  qmem : ∀ v ∈ queue, v ∈ nodeIds ∨ v ∈ edges.map (fun e => e.target_id)
  pmem : ∀ v ∈ popped, v ∈ nodeIds ∨ v ∈ edges.map (fun e => e.target_id)

/-- What holds of the finished emission list. -/
structure KahnPost (edges : List PyEdge) (nodeIds total : List String) : Prop where
  nodup : total.Nodup
  sorted : ∀ e ∈ edges, e.target_id ∈ total →
    e.source_id ∈ total ∧ ListPrecedes total e.source_id e.target_id
  closed : ∀ v ∈ nodeIds, remIn edges total v = 0 → v ∈ total
  mem : ∀ v ∈ total, v ∈ nodeIds ∨ v ∈ edges.map (fun e => e.target_id)

theorem kahnPost_terminal (edges : List PyEdge) (nodeIds popped : List String)
    (hinv : KahnInv edges nodeIds [] popped) : KahnPost edges nodeIds popped where
  nodup := hinv.pnd
  sorted := hinv.sorted
  closed := fun v hv h0 => (hinv.closed v hv h0).resolve_left (by simp)
  mem := hinv.pmem

theorem kahnLoop_master (edges : List PyEdge) (nodeIds : List String) :
    ∀ (fuel : Nat) (deg : String → Int) (queue popped : List String),
    (∀ v, deg v = (remIn edges popped v : Int)) →
    KahnInv edges nodeIds queue popped →
    queue.length + countPosR edges popped ≤ fuel →
    KahnPost edges nodeIds (popped ++ kahnLoop edges fuel deg queue) ∧
      (kahnLoop edges fuel deg queue).take queue.length = queue := by
  intro fuel
  induction fuel with
  | zero =>
    intro deg queue popped hdeg hinv hfuel
    have hq : queue = [] := List.eq_nil_of_length_eq_zero (by omega)
    subst hq
    have hkl : kahnLoop edges 0 deg [] = [] := rfl
    rw [hkl]
    exact ⟨by simpa using kahnPost_terminal edges nodeIds popped hinv, rfl⟩
  | succ fuel ih =>
    intro deg queue popped hdeg hinv hfuel
    cases queue with
    | nil =>
      have hkl : kahnLoop edges (fuel + 1) deg [] = [] := rfl
      rw [hkl]
      exact ⟨by simpa using kahnPost_terminal edges nodeIds popped hinv, rfl⟩
    | cons u qs =>
      have hde : deg = fun v => (remIn edges popped v : Int) := funext hdeg
      subst hde
      have hu_pop : u ∉ popped := hinv.disj u (List.mem_cons_self u qs)
      have hu_rem : remIn edges popped u = 0 := hinv.q0 u (List.mem_cons_self u qs)
      have hu_notqs : u ∉ qs := by
        have := hinv.qnd
        rw [List.nodup_cons] at this
        exact this.1
      have hqs_nd : qs.Nodup := by
        have := hinv.qnd
        rw [List.nodup_cons] at this
        exact this.2
      set canon := fun v => (remIn edges popped v : Int) with hcanon
      set popped2 := popped ++ [u] with hpopped2
      set pn := pnNew (adjacency edges u) canon with hpn
      have hkl : kahnLoop edges (fuel + 1) canon (u :: qs) =
          u :: kahnLoop edges fuel
            (processNeighbors (adjacency edges u) canon qs).1
            (processNeighbors (adjacency edges u) canon qs).2 := rfl
      have hd2 : (processNeighbors (adjacency edges u) canon qs).1 =
          fun v => (remIn edges popped2 v : Int) := by
        funext v
        rw [processNeighbors_deg]
        have hsp := remIn_snoc edges popped u v hu_pop
        simp only [hcanon]
        rw [hpopped2]
        omega
      have hq2 : (processNeighbors (adjacency edges u) canon qs).2 = qs ++ pn :=
        processNeighbors_queue _ _ _
      -- membership in the enqueued suffix
      have hpnm : ∀ x, x ∈ pn ↔
          0 < remIn edges popped x ∧ remIn edges popped2 x = 0 := by
        intro x
        rw [hpn, hcanon]
        exact pnNew_mem_remIn hu_pop
      -- the new invariant
      have hinv2 : KahnInv edges nodeIds (qs ++ pn) popped2 := by
        refine ⟨?_, ?_, ?_, ?_, ?_, ?_, ?_, ?_, ?_⟩
        · -- queue nodup
          refine List.Nodup.append hqs_nd (by rw [hpn]; exact pnNew_nodup _ _) ?_
          intro x hxq hxp
          have h0 := hinv.q0 x (List.mem_cons_of_mem u hxq)
          have := (hpnm x).mp hxp
          omega
        · -- popped nodup
          refine List.Nodup.append hinv.pnd (by simp) ?_
          intro x hxp hxu
          simp at hxu
          subst hxu
          exact hu_pop hxp
        · -- disjointness
          intro v hv hvp
          rcases List.mem_append.mp hv with hvq | hvpn
          · rcases List.mem_append.mp hvp with h | h
            · exact hinv.disj v (List.mem_cons_of_mem u hvq) h
            · simp at h
              subst h
              exact hu_notqs hvq
          · have hc := (hpnm v).mp hvpn
            rcases List.mem_append.mp hvp with h | h
            · have := hinv.pop0 v h
              omega
            · simp at h
              subst h
              omega
        · -- queue zero
          intro v hv
          rcases List.mem_append.mp hv with hvq | hvpn
          · have h0 := hinv.q0 v (List.mem_cons_of_mem u hvq)
            have := remIn_snoc_le edges popped u v hu_pop
            rw [hpopped2]
            omega
          · exact ((hpnm v).mp hvpn).2
        · -- closure
          intro v hv h0
          by_cases hz : remIn edges popped v = 0
          · rcases hinv.closed v hv hz with hq | hp
            · rcases List.mem_cons.mp hq with he | he
              · subst he
                exact Or.inr (List.mem_append_right popped (by simp))
              · exact Or.inl (List.mem_append_left pn he)
            · exact Or.inr (List.mem_append_left [u] hp)
          · left
            exact List.mem_append_right qs ((hpnm v).mpr ⟨by omega, h0⟩)
        · -- popped zero
          intro v hv
          have hle := remIn_snoc_le edges popped u v hu_pop
          rcases List.mem_append.mp hv with h | h
          · have := hinv.pop0 v h
            rw [hpopped2]
            omega
          · simp at h
            subst h
            rw [hpopped2]
            omega
        · -- sortedness
          intro e he ht
          rcases List.mem_append.mp ht with h | h
          · rcases hinv.sorted e he h with ⟨hs, hp⟩
            exact ⟨List.mem_append_left [u] hs, hp.append_right h⟩
          · simp at h
            have hs := remIn_zero_sources edges popped u hu_rem e he h
            refine ⟨List.mem_append_left [u] hs, ?_⟩
            rw [h]
            exact ListPrecedes.snoc_new hs hu_pop
        · -- queue membership domain
          intro v hv
          rcases List.mem_append.mp hv with h | h
          · exact hinv.qmem v (List.mem_cons_of_mem u h)
          · have hc := (hpnm v).mp h
            rcases remIn_pos_edge edges popped v hc.1 with ⟨e, he, hte, _⟩
            exact Or.inr (hte ▸ List.mem_map_of_mem (fun e => e.target_id) he)
        · -- popped membership domain
          intro v hv
          rcases List.mem_append.mp hv with h | h
          · exact hinv.pmem v h
          · simp at h
            subst h
            exact hinv.qmem v (List.mem_cons_self v qs)
      -- fuel bookkeeping
      have hcount := @countPosR_snoc edges popped _ hu_pop
      have hfuel2 : (qs ++ pn).length + countPosR edges popped2 ≤ fuel := by
        rw [List.length_append]
        have hflen : (u :: qs).length = qs.length + 1 := rfl
        rw [hflen] at hfuel
        rw [hpn, hcanon]
        rw [← hpopped2] at hcount
        omega
      have hrec := ih (fun v => (remIn edges popped2 v : Int)) (qs ++ pn) popped2
        (fun v => rfl) hinv2 hfuel2
      rw [hkl, hd2, hq2]
      constructor
      · have hassoc : popped ++ u :: kahnLoop edges fuel
            (fun v => (remIn edges popped2 v : Int)) (qs ++ pn) =
            popped2 ++ kahnLoop edges fuel
              (fun v => (remIn edges popped2 v : Int)) (qs ++ pn) := by
          rw [hpopped2]
          simp
        rw [hassoc]
        exact hrec.1
      · have htake := hrec.2
        have hle : qs.length ≤ (qs ++ pn).length := by
          rw [List.length_append]
          omega
        have h1 : (kahnLoop edges fuel (fun v => (remIn edges popped2 v : Int))
            (qs ++ pn)).take qs.length = qs := by
          have h2 : (kahnLoop edges fuel (fun v => (remIn edges popped2 v : Int))
              (qs ++ pn)).take qs.length =
              ((kahnLoop edges fuel (fun v => (remIn edges popped2 v : Int))
                (qs ++ pn)).take (qs ++ pn).length).take qs.length := by
            rw [List.take_take, min_eq_left hle]
          rw [h2, htake]
          exact List.take_left qs pn
        simp [List.take_succ_cons, h1]

/-- The initial queue of the sort: zero in-degree nodes in node-list
order. -/
def kahnQueue0 (nodeIds : List String) (edges : List PyEdge) : List String :=
  nodeIds.filter (fun n => ((initInDeg edges n : Int)) = 0)

theorem topologicalSort_spec (nodeIds : List String) (edges : List PyEdge)
    (hnd : nodeIds.Nodup) :
    KahnPost edges nodeIds (topologicalSort nodeIds edges) ∧
      (topologicalSort nodeIds edges).take (kahnQueue0 nodeIds edges).length =
        kahnQueue0 nodeIds edges := by
  have hq0mem : ∀ v ∈ kahnQueue0 nodeIds edges, v ∈ nodeIds ∧ initInDeg edges v = 0 := by
    intro v hv
    rw [kahnQueue0, List.mem_filter] at hv
    refine ⟨hv.1, ?_⟩
    have := hv.2
    simp at this
    exact_mod_cast this
  have hinv : KahnInv edges nodeIds (kahnQueue0 nodeIds edges) [] := by
    refine ⟨?_, ?_, ?_, ?_, ?_, ?_, ?_, ?_, ?_⟩
    · exact List.Nodup.filter _ hnd
    · exact List.nodup_nil
    · intro v _ hv
      simp at hv
    · intro v hv
      rw [remIn_nil]
      exact (hq0mem v hv).2
    · intro v hv h0
      rw [remIn_nil] at h0
      left
      rw [kahnQueue0, List.mem_filter]
      exact ⟨hv, by simp [h0]⟩
    · intro v hv
      simp at hv
    · intro e _ ht
      simp at ht
    · intro v hv
      exact Or.inl (hq0mem v hv).1
    · intro v hv
      simp at hv
  have hfuel : (kahnQueue0 nodeIds edges).length + countPosR edges [] ≤
      nodeIds.length + edges.length := by
    have h1 : (kahnQueue0 nodeIds edges).length ≤ nodeIds.length :=
      List.length_filter_le _ _
    have h2 : countPosR edges [] ≤ (kahnTargets edges).length :=
      List.countP_le_length _
    have h3 : (kahnTargets edges).length ≤ edges.length := by
      have hs := List.Sublist.length_le (List.dedup_sublist
        (edges.map (fun e => e.target_id)))
      rw [List.length_map] at hs
      exact hs
    omega
  have hmaster := kahnLoop_master edges nodeIds (nodeIds.length + edges.length)
    (fun v => (initInDeg edges v : Int)) (kahnQueue0 nodeIds edges) []
    (fun v => by rw [remIn_nil]) hinv hfuel
  rw [List.nil_append] at hmaster
  exact hmaster

theorem topologicalSort_nodup (nodeIds : List String) (edges : List PyEdge)
    (hnd : nodeIds.Nodup) : (topologicalSort nodeIds edges).Nodup :=
  ((topologicalSort_spec nodeIds edges hnd).1).nodup

/-- Every emitted node is preceded by all of its edge predecessors. -/
theorem topologicalSort_sorted (nodeIds : List String) (edges : List PyEdge)
    (hnd : nodeIds.Nodup) :
    ∀ e ∈ edges, e.target_id ∈ topologicalSort nodeIds edges →
      e.source_id ∈ topologicalSort nodeIds edges ∧
        ListPrecedes (topologicalSort nodeIds edges) e.source_id e.target_id :=
  ((topologicalSort_spec nodeIds edges hnd).1).sorted

/-- Transitive version: reachability forces emission order. -/
theorem topologicalSort_reaches (nodeIds : List String) (edges : List PyEdge)
    (hnd : nodeIds.Nodup) {a b : String} (hr : Reaches edges a b) :
    b ∈ topologicalSort nodeIds edges →
      a ∈ topologicalSort nodeIds edges ∧
        ListPrecedes (topologicalSort nodeIds edges) a b := by
  induction hr with
  | single h =>
    intro hb
    rcases h with ⟨e, he, hs, ht⟩
    have := topologicalSort_sorted nodeIds edges hnd e he (ht ▸ hb)
    rw [hs, ht] at this
    exact this
  | tail hab hbc ih =>
    intro hc
    rcases hbc with ⟨e, he, hs, ht⟩
    have h2 := topologicalSort_sorted nodeIds edges hnd e he (ht ▸ hc)
    rw [hs, ht] at h2
    rcases ih h2.1 with ⟨ha, hp⟩
    exact ⟨ha, hp.trans h2.2⟩

/-- A node lying on a cycle is never emitted. -/
theorem topologicalSort_cycle_not_mem (nodeIds : List String) (edges : List PyEdge)
    (hnd : nodeIds.Nodup) {n : String} (hc : Reaches edges n n) :
    n ∉ topologicalSort nodeIds edges := by
  intro hmem
  rcases topologicalSort_reaches nodeIds edges hnd hc hmem with ⟨_, hp⟩
  exact ListPrecedes.irrefl (topologicalSort_nodup nodeIds edges hnd) hmem hp

/-! ### Cycle construction (for the completeness argument) -/

/-- A backward chain of predecessors inside `S`, built with `find?`. -/
def predChain (edges : List PyEdge) (S : List String) (v0 : String) : Nat → String
  | 0 => v0
  | n + 1 =>
    match S.find? (fun u => edgeRelB edges u (predChain edges S v0 n)) with
    | some u => u
    | Option.none => v0

theorem predChain_mem (edges : List PyEdge) (S : List String) (v0 : String)
    (hv0 : v0 ∈ S) : ∀ n, predChain edges S v0 n ∈ S := by
  intro n
  induction n with
  | zero => exact hv0
  | succ n ih =>
    rw [predChain]
    cases hf : S.find? (fun u => edgeRelB edges u (predChain edges S v0 n)) with
    | none => exact hv0
    | some u => exact List.mem_of_find?_eq_some hf

theorem predChain_edge (edges : List PyEdge) (S : List String) (v0 : String)
    (hv0 : v0 ∈ S)
    (hpred : ∀ v ∈ S, ∃ u ∈ S, edgeRel edges u v) (n : Nat) :
    edgeRel edges (predChain edges S v0 (n + 1)) (predChain edges S v0 n) := by
  have hmem := predChain_mem edges S v0 hv0 n
  rcases hpred _ hmem with ⟨u, hu, hedge⟩
  have hsome : (S.find? (fun u => edgeRelB edges u (predChain edges S v0 n))).isSome := by
    rw [List.find?_isSome]
    exact ⟨u, hu, (edgeRelB_iff _ _ _).mpr hedge⟩
  rw [predChain]
  cases hf : S.find? (fun u => edgeRelB edges u (predChain edges S v0 n)) with
  | none => rw [hf] at hsome; simp at hsome
  | some w =>
    have := List.find?_some hf
    exact (edgeRelB_iff _ _ _).mp this

theorem predChain_reaches (edges : List PyEdge) (S : List String) (v0 : String)
    (hv0 : v0 ∈ S)
    (hpred : ∀ v ∈ S, ∃ u ∈ S, edgeRel edges u v) (i : Nat) :
    ∀ d, 0 < d → Reaches edges (predChain edges S v0 (i + d)) (predChain edges S v0 i) := by
  intro d
  induction d with
  | zero => omega
  | succ d ih =>
    intro _
    by_cases hd : 0 < d
    · exact Relation.TransGen.head
        (predChain_edge edges S v0 hv0 hpred (i + d)) (ih hd)
    · have hd0 : d = 0 := by omega
      subst hd0
      exact Relation.TransGen.single (predChain_edge edges S v0 hv0 hpred i)

/-- If every vertex of a non-empty finite set has a predecessor inside
the set, the graph has a cycle. -/
theorem exists_cycle_of_pred (edges : List PyEdge) (S : List String)
    (hS : S ≠ []) (hpred : ∀ v ∈ S, ∃ u ∈ S, edgeRel edges u v) :
    ∃ n, Reaches edges n n := by
  rcases List.exists_mem_of_ne_nil S hS with ⟨v0, hv0⟩
  have hmap : ∀ i : Fin (S.length + 1), predChain edges S v0 (i : Nat) ∈ S.toFinset :=
    fun i => List.mem_toFinset.mpr (predChain_mem edges S v0 hv0 i)
  have hcard : S.toFinset.card < (Finset.univ : Finset (Fin (S.length + 1))).card := by
    rw [Finset.card_univ, Fintype.card_fin]
    exact Nat.lt_succ_of_le (List.toFinset_card_le S)
  rcases Finset.exists_ne_map_eq_of_card_lt_of_maps_to hcard
    (fun i _ => hmap i) with ⟨i, _, j, _, hij, heq⟩
  rcases Nat.lt_or_ge (i : Nat) (j : Nat) with hlt | hge
  · refine ⟨predChain edges S v0 (j : Nat), ?_⟩
    have := predChain_reaches edges S v0 hv0 hpred (i : Nat) ((j : Nat) - (i : Nat))
      (by omega)
    rw [show (i : Nat) + ((j : Nat) - (i : Nat)) = (j : Nat) by omega] at this
    rw [heq] at this
    exact this
  · have hlt2 : (j : Nat) < (i : Nat) := by
      rcases Nat.lt_or_ge (j : Nat) (i : Nat) with h | h
      · exact h
      · exact absurd (Fin.ext (by omega)) hij
    refine ⟨predChain edges S v0 (i : Nat), ?_⟩
    have := predChain_reaches edges S v0 hv0 hpred (j : Nat) ((i : Nat) - (j : Nat))
      (by omega)
    rw [show (j : Nat) + ((i : Nat) - (j : Nat)) = (i : Nat) by omega] at this
    rw [← heq] at this
    exact this

/-- Completeness: on a well-formed acyclic graph the sort emits every
node. -/
theorem topologicalSort_complete (nodeIds : List String) (edges : List PyEdge)
    (hnd : nodeIds.Nodup)
    (hcl : ∀ e ∈ edges, e.source_id ∈ nodeIds ∧ e.target_id ∈ nodeIds)
    (hac : Acyclic edges) :
    ∀ v ∈ nodeIds, v ∈ topologicalSort nodeIds edges := by
  by_contra hcon
  push_neg at hcon
  rcases hcon with ⟨v, hv, hvout⟩
  set S := nodeIds.filter (fun w => !(topologicalSort nodeIds edges).contains w) with hs
  have hSmem : ∀ w, w ∈ S ↔ w ∈ nodeIds ∧ w ∉ topologicalSort nodeIds edges := by
    intro w
    rw [hs, List.mem_filter]
    simp [List.contains]
  have hSne : S ≠ [] := by
    intro h0
    have := (hSmem v).mpr ⟨hv, hvout⟩
    rw [h0] at this
    simp at this
  have hpred : ∀ w ∈ S, ∃ u ∈ S, edgeRel edges u w := by
    intro w hw
    rcases (hSmem w).mp hw with ⟨hwn, hwout⟩
    have hrem : remIn edges (topologicalSort nodeIds edges) w ≠ 0 := by
      intro h0
      exact hwout (((topologicalSort_spec nodeIds edges hnd).1).closed w hwn h0)
    rcases remIn_pos_edge edges (topologicalSort nodeIds edges) w (by omega) with
      ⟨e, he, ht, hsout⟩
    refine ⟨e.source_id, ?_, ⟨e, he, rfl, ht⟩⟩
    exact (hSmem e.source_id).mpr ⟨(hcl e he).1, hsout⟩
  rcases exists_cycle_of_pred edges S hSne hpred with ⟨n, hn⟩
  exact hac n hn

/-- Soundness: every emitted id is a node id (well-formed graphs). -/
theorem topologicalSort_subset (nodeIds : List String) (edges : List PyEdge)
    (hnd : nodeIds.Nodup)
    (hcl : ∀ e ∈ edges, e.source_id ∈ nodeIds ∧ e.target_id ∈ nodeIds) :
    ∀ v ∈ topologicalSort nodeIds edges, v ∈ nodeIds := by
  intro v hv
  rcases ((topologicalSort_spec nodeIds edges hnd).1).mem v hv with h | h
  · exact h
  · rcases List.mem_map.mp h with ⟨e, he, ht⟩
    exact ht ▸ (hcl e he).2

/-- On a well-formed acyclic graph the sort emits exactly the node ids:
a permutation of the node list. -/
theorem topologicalSort_perm (nodeIds : List String) (edges : List PyEdge)
    (hnd : nodeIds.Nodup)
    (hcl : ∀ e ∈ edges, e.source_id ∈ nodeIds ∧ e.target_id ∈ nodeIds)
    (hac : Acyclic edges) :
    (topologicalSort nodeIds edges).Perm nodeIds := by
  refine (List.perm_ext_iff_of_nodup (topologicalSort_nodup nodeIds edges hnd) hnd).mpr ?_
  intro v
  exact ⟨fun h => topologicalSort_subset nodeIds edges hnd hcl v h,
    fun h => topologicalSort_complete nodeIds edges hnd hcl hac v h⟩

/-! ### Descendant BFS (`_get_all_descendants`) correctness -/

/-- The new targets discovered while scanning the edge list from `cur`
(the suffix appended to both the descendant set and the queue). -/
def descNew (edges : List PyEdge) (cur : String) (desc : List String) : List String :=
  match edges with
  | [] => []
  | e :: es =>
    if e.source_id == cur && !desc.contains e.target_id then
      e.target_id :: descNew es cur (desc ++ [e.target_id])
    else descNew es cur desc

theorem descStep_eq (edges : List PyEdge) (cur : String) (desc qs : List String) :
    descStep edges cur (desc, qs) =
      (desc ++ descNew edges cur desc, qs ++ descNew edges cur desc) := by
  induction edges generalizing desc qs with
  | nil => simp [descStep, descNew]
  | cons e es ih =>
    rw [descStep] at *
    rw [descNew]
    by_cases hc : (e.source_id == cur && !desc.contains e.target_id) = true
    · rw [List.foldl_cons]
      simp only [hc, if_true]
      rw [show (desc ++ [e.target_id], qs ++ [e.target_id]) =
        ((desc ++ [e.target_id]), (qs ++ [e.target_id])) from rfl]
      have := ih (desc ++ [e.target_id]) (qs ++ [e.target_id])
      rw [descStep] at this
      rw [this]
      simp
    · rw [List.foldl_cons]
      simp only [hc, Bool.false_eq_true, if_false]
      have := ih desc qs
      rw [descStep] at this
      rw [this]

theorem descNew_mem (edges : List PyEdge) (cur : String) :
    ∀ (desc : List String) (x : String),
      x ∈ descNew edges cur desc ↔
        x ∉ desc ∧ ∃ e ∈ edges, e.source_id = cur ∧ e.target_id = x := by
  induction edges with
  | nil => intro desc x; simp [descNew]
  | cons e es ih =>
    intro desc x
    rw [descNew]
    by_cases hc : (e.source_id == cur && !desc.contains e.target_id) = true
    · have hcc : e.source_id = cur ∧ e.target_id ∉ desc := by
        rw [Bool.and_eq_true] at hc
        refine ⟨beq_iff_eq.mp hc.1, ?_⟩
        have h2 := hc.2
        simp [List.contains] at h2
        exact h2
      rw [if_pos hc]
      constructor
      · intro hmem
        rcases List.mem_cons.mp hmem with hx | hx
        · subst hx
          exact ⟨hcc.2, e, List.mem_cons_self e es, hcc.1, rfl⟩
        · rcases (ih _ x).mp hx with ⟨hnd, e2, he2, hs2, ht2⟩
          exact ⟨fun hm => hnd (List.mem_append_left _ hm),
            e2, List.mem_cons_of_mem e he2, hs2, ht2⟩
      · rintro ⟨hnd, e2, he2, hs2, ht2⟩
        rcases List.mem_cons.mp he2 with he2h | he2t
        · subst he2h
          rw [← ht2]
          exact List.mem_cons_self _ _
        · by_cases hx : x = e.target_id
          · subst hx
            exact List.mem_cons_self _ _
          · refine List.mem_cons_of_mem _ ((ih _ x).mpr ⟨?_, e2, he2t, hs2, ht2⟩)
            intro hm
            rcases List.mem_append.mp hm with h | h
            · exact hnd h
            · simp at h
              exact hx h
    · have hnotc : e.source_id ≠ cur ∨ e.target_id ∈ desc := by
        by_contra hcon
        push_neg at hcon
        apply hc
        rw [Bool.and_eq_true]
        refine ⟨beq_iff_eq.mpr hcon.1, ?_⟩
        simp [List.contains]
        exact hcon.2
      rw [if_neg hc]
      rw [ih]
      constructor
      · rintro ⟨hnd, e2, he2, hs2, ht2⟩
        exact ⟨hnd, e2, List.mem_cons_of_mem e he2, hs2, ht2⟩
      · rintro ⟨hnd, e2, he2, hs2, ht2⟩
        rcases List.mem_cons.mp he2 with he2h | he2t
        · subst he2h
          rcases hnotc with h | h
          · exact absurd hs2 h
          · exact absurd (ht2 ▸ h) hnd
        · exact ⟨hnd, e2, he2t, hs2, ht2⟩

theorem descNew_nodup (edges : List PyEdge) (cur : String) :
    ∀ desc : List String, (descNew edges cur desc).Nodup := by
  induction edges with
  | nil => intro desc; simp [descNew]
  | cons e es ih =>
    intro desc
    rw [descNew]
    by_cases hc : (e.source_id == cur && !desc.contains e.target_id) = true
    · rw [if_pos hc, List.nodup_cons]
      refine ⟨?_, ih _⟩
      intro hmem
      have := ((descNew_mem es cur (desc ++ [e.target_id]) e.target_id).mp hmem).1
      exact this (List.mem_append_right desc (by simp))
    · rw [if_neg hc]
      exact ih _

/-- After scanning the whole edge list from `cur`, every target of `cur`
is recorded. -/
theorem descNew_covers (edges : List PyEdge) (cur : String) :
    ∀ (desc : List String), ∀ e ∈ edges, e.source_id = cur →
      e.target_id ∈ desc ++ descNew edges cur desc := by
  induction edges with
  | nil => intro desc e he; simp at he
  | cons e0 es ih =>
    intro desc e he hs
    rw [descNew]
    by_cases hc : (e0.source_id == cur && !desc.contains e0.target_id) = true
    · rw [if_pos hc]
      rcases List.mem_cons.mp he with heh | het
      · subst heh
        exact List.mem_append_right desc (List.mem_cons_self _ _)
      · have hcov := ih (desc ++ [e0.target_id]) e het hs
        rcases List.mem_append.mp hcov with h | h
        · rcases List.mem_append.mp h with h2 | h2
          · exact List.mem_append_left _ h2
          · simp at h2
            exact List.mem_append_right desc (h2 ▸ List.mem_cons_self _ _)
        · exact List.mem_append_right desc (List.mem_cons_of_mem _ h)
    · rw [if_neg hc]
      rcases List.mem_cons.mp he with heh | het
      · subst heh
        have hnotc : e.source_id ≠ cur ∨ e.target_id ∈ desc := by
          by_contra hcon
          push_neg at hcon
          apply hc
          rw [Bool.and_eq_true]
          refine ⟨beq_iff_eq.mpr hcon.1, ?_⟩
          simp [List.contains]
          exact hcon.2
        rcases hnotc with h | h
        · exact absurd hs h
        · exact List.mem_append_left _ h
      · exact ih desc e het hs

theorem descNew_targets (edges : List PyEdge) (cur : String) (desc : List String) :
    ∀ x ∈ descNew edges cur desc, x ∈ edges.map (fun e => e.target_id) := by
  intro x hx
  rcases ((descNew_mem edges cur desc x).mp hx).2 with ⟨e, he, _, ht⟩
  exact ht ▸ List.mem_map_of_mem (fun e => e.target_id) he

/-- Invariant of the descendant BFS. -/
structure DescInv (edges : List PyEdge) (start : String) (desc queue : List String) : Prop where
  dnd : desc.Nodup
  dsound : ∀ x ∈ desc, Reaches edges start x
  qsound : ∀ x ∈ queue, x = start ∨ Reaches edges start x
  closed : ∀ x, (x = start ∨ x ∈ desc) → x ∈ queue ∨
    ∀ e ∈ edges, e.source_id = x → e.target_id ∈ desc
  dtar : ∀ x ∈ desc, x ∈ edges.map (fun e => e.target_id)

theorem descInv_desc_le (edges : List PyEdge) (start : String)
    {desc queue : List String} (hinv : DescInv edges start desc queue) :
    desc.length ≤ (kahnTargets edges).length := by
  have h1 : desc.length = desc.toFinset.card := (List.toFinset_card_of_nodup hinv.dnd).symm
  have h2 : desc.toFinset ⊆ (edges.map (fun e => e.target_id)).toFinset := by
    intro x hx
    exact List.mem_toFinset.mpr (hinv.dtar x (List.mem_toFinset.mp hx))
  have h3 := Finset.card_le_card h2
  rw [List.card_toFinset] at h3
  rw [h1]
  exact h3

theorem descLoop_master (edges : List PyEdge) (start : String) :
    ∀ (fuel : Nat) (desc queue : List String),
    DescInv edges start desc queue →
    queue.length + (kahnTargets edges).length ≤ fuel + desc.length →
    (∀ x ∈ descLoop edges fuel desc queue, Reaches edges start x) ∧
    (∀ x, (x = start ∨ x ∈ descLoop edges fuel desc queue) →
      ∀ e ∈ edges, e.source_id = x → e.target_id ∈ descLoop edges fuel desc queue) ∧
    (∀ x ∈ desc, x ∈ descLoop edges fuel desc queue) := by
  intro fuel
  induction fuel with
  | zero =>
    intro desc queue hinv hfuel
    have hq : queue = [] := by
      have := descInv_desc_le edges start hinv
      exact List.eq_nil_of_length_eq_zero (by omega)
    subst hq
    have hdl : descLoop edges 0 desc [] = desc := rfl
    rw [hdl]
    exact ⟨hinv.dsound,
      fun x hx e he hs => ((hinv.closed x hx).resolve_left (by simp)) e he hs,
      fun x hx => hx⟩
  | succ fuel ih =>
    intro desc queue hinv hfuel
    cases queue with
    | nil =>
      have hdl : descLoop edges (fuel + 1) desc [] = desc := rfl
      rw [hdl]
      exact ⟨hinv.dsound,
        fun x hx e he hs => ((hinv.closed x hx).resolve_left (by simp)) e he hs,
        fun x hx => hx⟩
    | cons cur qs =>
      set pn := descNew edges cur desc with hpn
      have hstep : descLoop edges (fuel + 1) desc (cur :: qs) =
          descLoop edges fuel (desc ++ pn) (qs ++ pn) := by
        rw [show descLoop edges (fuel + 1) desc (cur :: qs) =
          descLoop edges fuel (descStep edges cur (desc, qs)).1
            (descStep edges cur (desc, qs)).2 from rfl]
        rw [descStep_eq]
      have hcur := hinv.qsound cur (List.mem_cons_self cur qs)
      have hpn_reach : ∀ x ∈ pn, Reaches edges start x := by
        intro x hx
        rcases ((descNew_mem edges cur desc x).mp hx).2 with ⟨e, he, hs, ht⟩
        rcases hcur with hc | hc
        · exact Relation.TransGen.single ⟨e, he, hc ▸ hs, ht⟩
        · exact Relation.TransGen.tail hc ⟨e, he, hs, ht⟩
      have hinv2 : DescInv edges start (desc ++ pn) (qs ++ pn) := by
        refine ⟨?_, ?_, ?_, ?_, ?_⟩
        · refine List.Nodup.append hinv.dnd (hpn ▸ descNew_nodup edges cur desc) ?_
          intro x hx hxp
          exact ((descNew_mem edges cur desc x).mp (hpn ▸ hxp)).1 hx
        · intro x hx
          rcases List.mem_append.mp hx with h | h
          · exact hinv.dsound x h
          · exact hpn_reach x h
        · intro x hx
          rcases List.mem_append.mp hx with h | h
          · exact hinv.qsound x (List.mem_cons_of_mem cur h)
          · exact Or.inr (hpn_reach x h)
        · intro x hx
          rcases hx with hx | hx
          · rcases hinv.closed x (Or.inl hx) with hq | hcl
            · rcases List.mem_cons.mp hq with hh | hh
              · subst hh
                right
                intro e he hs
                exact hpn ▸ descNew_covers edges x desc e he hs
              · exact Or.inl (List.mem_append_left pn hh)
            · right
              intro e he hs
              exact List.mem_append_left pn (hcl e he hs)
          · rcases List.mem_append.mp hx with hxd | hxp
            · rcases hinv.closed x (Or.inr hxd) with hq | hcl
              · rcases List.mem_cons.mp hq with hh | hh
                · subst hh
                  right
                  intro e he hs
                  exact hpn ▸ descNew_covers edges x desc e he hs
                · exact Or.inl (List.mem_append_left pn hh)
              · right
                intro e he hs
                exact List.mem_append_left pn (hcl e he hs)
            · exact Or.inl (List.mem_append_right qs hxp)
        · intro x hx
          rcases List.mem_append.mp hx with h | h
          · exact hinv.dtar x h
          · exact descNew_targets edges cur desc x (hpn ▸ h)
      have hfuel2 : (qs ++ pn).length + (kahnTargets edges).length ≤
          fuel + (desc ++ pn).length := by
        rw [List.length_append, List.length_append]
        have : (cur :: qs).length = qs.length + 1 := rfl
        rw [this] at hfuel
        omega
      rcases ih (desc ++ pn) (qs ++ pn) hinv2 hfuel2 with ⟨c1, c2, c3⟩
      rw [hstep]
      exact ⟨c1, c2, fun x hx => c3 x (List.mem_append_left pn hx)⟩

theorem getAllDescendants_sound (edges : List PyEdge) (s x : String)
    (h : x ∈ getAllDescendants edges s) : Reaches edges s x := by
  have hinv : DescInv edges s [] [s] := by
    refine ⟨List.nodup_nil, by simp, ?_, ?_, by simp⟩
    · intro x hx
      simp at hx
      exact Or.inl hx
    · intro x hx
      rcases hx with hx | hx
      · exact Or.inl (by simp [hx])
      · simp at hx
  have := (descLoop_master edges s (edges.length + 1) [] [s] hinv (by
    have h3 : (kahnTargets edges).length ≤ edges.length := by
      have hs2 := List.Sublist.length_le (List.dedup_sublist
        (edges.map (fun e => e.target_id)))
      rw [List.length_map] at hs2
      exact hs2
    simp
    omega)).1
  exact this x h

theorem getAllDescendants_complete (edges : List PyEdge) (s x : String)
    (h : Reaches edges s x) : x ∈ getAllDescendants edges s := by
  have hinv : DescInv edges s [] [s] := by
    refine ⟨List.nodup_nil, by simp, ?_, ?_, by simp⟩
    · intro x hx
      simp at hx
      exact Or.inl hx
    · intro x hx
      rcases hx with hx | hx
      · exact Or.inl (by simp [hx])
      · simp at hx
  have hcl := (descLoop_master edges s (edges.length + 1) [] [s] hinv (by
    have h3 : (kahnTargets edges).length ≤ edges.length := by
      have hs2 := List.Sublist.length_le (List.dedup_sublist
        (edges.map (fun e => e.target_id)))
      rw [List.length_map] at hs2
      exact hs2
    simp
    omega)).2.1
  induction h with
  | single hr =>
    rcases hr with ⟨e, he, hs, ht⟩
    exact ht ▸ hcl s (Or.inl rfl) e he hs
  | tail hab hbc ih2 =>
    rcases hbc with ⟨e, he, hs, ht⟩
    exact ht ▸ hcl _ (Or.inr ih2) e he hs

theorem getAllDescendants_iff (edges : List PyEdge) (s x : String) :
    x ∈ getAllDescendants edges s ↔ Reaches edges s x :=
  ⟨getAllDescendants_sound edges s x, getAllDescendants_complete edges s x⟩

/-- Decidable acyclicity via the BFS closure. -/
def AcyclicB (edges : List PyEdge) : Bool :=
  (edges.map (fun e => e.source_id)).all
    (fun n => !(getAllDescendants edges n).contains n)

theorem reaches_first_edge {edges : List PyEdge} {a c : String}
    (h : Reaches edges a c) : ∃ b, edgeRel edges a b := by
  induction h with
  | single hr => exact ⟨_, hr⟩
  | tail hab _ ih => exact ih

theorem AcyclicB_iff (edges : List PyEdge) :
    AcyclicB edges = true ↔ Acyclic edges := by
  unfold AcyclicB Acyclic
  rw [List.all_eq_true]
  constructor
  · intro h n hr
    rcases reaches_first_edge hr with ⟨b, e, he, hs, _⟩
    have h2 := h n (hs ▸ List.mem_map_of_mem (fun e => e.source_id) he)
    have h3 := getAllDescendants_complete edges n n hr
    simp [List.contains] at h2
    exact h2 h3
  · intro h n _
    simp [List.contains]
    intro hmem
    exact h n (getAllDescendants_sound edges n n hmem)

/-! ### Skip-set membership -/

theorem setUnion_mem (a b : List String) (x : String) :
    x ∈ setUnion a b ↔ x ∈ a ∨ x ∈ b := by
  unfold setUnion
  rw [List.mem_append]
  constructor
  · rintro (h | h)
    · exact Or.inl h
    · exact Or.inr (List.mem_filter.mp h).1
  · rintro (h | h)
    · exact Or.inl h
    · by_cases ha : x ∈ a
      · exact Or.inl ha
      · refine Or.inr (List.mem_filter.mpr ⟨h, ?_⟩)
        simp [List.contains, ha]

theorem foldl_skip_mem (edges : List PyEdge) (p : PyEdge → Bool)
    (g : PyEdge → List String) :
    ∀ (l : List PyEdge) (acc : List String) (x : String),
      x ∈ l.foldl (fun acc e => if p e then setUnion acc (g e) else acc) acc ↔
        x ∈ acc ∨ ∃ e ∈ l, p e = true ∧ x ∈ g e := by
  intro l
  induction l with
  | nil => intro acc x; simp
  | cons e es ih =>
    intro acc x
    rw [List.foldl_cons]
    by_cases hp : p e = true
    · rw [if_pos hp, ih, setUnion_mem]
      constructor
      · rintro ((h | h) | ⟨e2, he2, hp2, hx2⟩)
        · exact Or.inl h
        · exact Or.inr ⟨e, List.mem_cons_self e es, hp, h⟩
        · exact Or.inr ⟨e2, List.mem_cons_of_mem e he2, hp2, hx2⟩
      · rintro (h | ⟨e2, he2, hp2, hx2⟩)
        · exact Or.inl (Or.inl h)
        · rcases List.mem_cons.mp he2 with hh | hh
          · exact Or.inl (Or.inr (hh ▸ hx2))
          · exact Or.inr ⟨e2, hh, hp2, hx2⟩
    · rw [if_neg hp, ih]
      constructor
      · rintro (h | ⟨e2, he2, hp2, hx2⟩)
        · exact Or.inl h
        · exact Or.inr ⟨e2, List.mem_cons_of_mem e he2, hp2, hx2⟩
      · rintro (h | ⟨e2, he2, hp2, hx2⟩)
        · exact Or.inl h
        · rcases List.mem_cons.mp he2 with hh | hh
          · exact absurd (hh ▸ hp2) hp
          · exact Or.inr ⟨e2, hh, hp2, hx2⟩

/-- The skip set computed for a conditional equals: targets of
differently-labelled outbound edges together with everything reachable
from them. -/
theorem getSkippedBranches_mem (edges : List PyEdge) (cid : String) (branch : Val)
    (t : String) :
    t ∈ getSkippedBranches edges cid branch ↔
      ∃ e ∈ edges, e.source_id = cid ∧
        pyEq (.str (e.condition.getD "true")) branch = false ∧
        (t = e.target_id ∨ Reaches edges e.target_id t) := by
  unfold getSkippedBranches
  rw [foldl_skip_mem edges _ _ edges [] t]
  simp only [List.not_mem_nil, false_or]
  constructor
  · rintro ⟨e, he, hp, hx⟩
    rw [Bool.and_eq_true] at hp
    refine ⟨e, he, beq_iff_eq.mp hp.1, ?_, ?_⟩
    · have := hp.2
      simp at this
      exact this
    · rcases List.mem_cons.mp hx with h | h
      · exact Or.inl h
      · exact Or.inr ((getAllDescendants_iff edges e.target_id t).mp h)
  · rintro ⟨e, he, hs, hc, ht⟩
    refine ⟨e, he, ?_, ?_⟩
    · rw [Bool.and_eq_true]
      refine ⟨beq_iff_eq.mpr hs, by simp [hc]⟩
    · rcases ht with h | h
      · exact h ▸ List.mem_cons_self _ _
      · exact List.mem_cons_of_mem _ ((getAllDescendants_iff edges e.target_id t).mpr h)

/-! ### Driver step case equations -/

theorem stepNode_skipped {eng : WorkflowEngine} {oracle : AgentOracle}
    {input : List (String × Val)} {st : EngSt} {nodeId : String}
    (h : st.skipped.contains nodeId = true) :
    stepNode eng oracle input st nodeId =
      .next { st with results := aset st.results nodeId skippedNodeRes } := by
  unfold stepNode
  rw [if_pos h]

theorem stepNode_nonode {eng : WorkflowEngine} {oracle : AgentOracle}
    {input : List (String × Val)} {st : EngSt} {nodeId : String}
    (h : st.skipped.contains nodeId = false)
    (hl : lookupNode eng.nodes nodeId = Option.none) :
    stepNode eng oracle input st nodeId =
      .crash ("KeyError: \x27" ++ nodeId ++ "\x27") := by
  unfold stepNode
  simp only [h, Bool.false_eq_true, if_false, hl]

theorem stepNode_err {eng : WorkflowEngine} {oracle : AgentOracle}
    {input : List (String × Val)} {st : EngSt} {nodeId : String} {node : PyNode}
    {msg : String}
    (h : st.skipped.contains nodeId = false)
    (hl : lookupNode eng.nodes nodeId = some node)
    (hc : stepCall eng oracle input st nodeId node = .error msg) :
    stepNode eng oracle input st nodeId =
      (if (node.stop_on_failure).getD true then
        .halt (buildResult { st with results := aset st.results nodeId (errNodeRes msg) }
          "failed" (some nodeId))
      else .next { st with results := aset st.results nodeId (errNodeRes msg) }) := by
  unfold stepNode
  simp only [h, Bool.false_eq_true, if_false, hl, hc]

theorem stepNode_okcall {eng : WorkflowEngine} {oracle : AgentOracle}
    {input : List (String × Val)} {st : EngSt} {nodeId : String} {node : PyNode}
    {r : AgentResult}
    (h : st.skipped.contains nodeId = false)
    (hl : lookupNode eng.nodes nodeId = some node)
    (hc : stepCall eng oracle input st nodeId node = .ok r) :
    stepNode eng oracle input st nodeId =
      (if !r.success && (node.stop_on_failure).getD true then
        .halt (buildResult (stepStOk eng st nodeId node r) "failed" (some nodeId))
      else .next (stepStOk eng st nodeId node r)) := by
  unfold stepNode
  simp only [h, Bool.false_eq_true, if_false, hl, hc]

/-! ### `stepStOk` field values -/

theorem stepStOk_results (eng : WorkflowEngine) (st : EngSt) (nodeId : String)
    (node : PyNode) (r : AgentResult) :
    (stepStOk eng st nodeId node r).results = aset st.results nodeId (okNodeRes r) := by
  unfold stepStOk
  by_cases h : nodeAtype eng node = "conditional"
  · rw [if_pos h]
    cases r.output <;> rfl
  · rw [if_neg h]

theorem stepStOk_ctx (eng : WorkflowEngine) (st : EngSt) (nodeId : String)
    (node : PyNode) (r : AgentResult) :
    (stepStOk eng st nodeId node r).context_store =
      aset st.context_store nodeId (normOut r.output) := by
  unfold stepStOk
  by_cases h : nodeAtype eng node = "conditional"
  · rw [if_pos h]
    cases r.output <;> rfl
  · rw [if_neg h]

theorem stepStOk_tokens (eng : WorkflowEngine) (st : EngSt) (nodeId : String)
    (node : PyNode) (r : AgentResult) :
    (stepStOk eng st nodeId node r).total_tokens = st.total_tokens + r.tokens_used := by
  unfold stepStOk
  by_cases h : nodeAtype eng node = "conditional"
  · rw [if_pos h]
    cases r.output <;> rfl
  · rw [if_neg h]

theorem stepStOk_cost (eng : WorkflowEngine) (st : EngSt) (nodeId : String)
    (node : PyNode) (r : AgentResult) :
    (stepStOk eng st nodeId node r).total_cost = st.total_cost + r.cost_usd := by
  unfold stepStOk
  by_cases h : nodeAtype eng node = "conditional"
  · rw [if_pos h]
    cases r.output <;> rfl
  · rw [if_neg h]

theorem stepStOk_skipped_super (eng : WorkflowEngine) (st : EngSt) (nodeId : String)
    (node : PyNode) (r : AgentResult) :
    ∀ x ∈ st.skipped, x ∈ (stepStOk eng st nodeId node r).skipped := by
  intro x hx
  unfold stepStOk
  by_cases h : nodeAtype eng node = "conditional"
  · rw [if_pos h]
    cases r.output <;> simp <;> first
      | exact hx
      | exact (setUnion_mem _ _ x).mpr (Or.inl hx)
  · rw [if_neg h]
    exact hx

theorem stepStOk_skipped_cond (eng : WorkflowEngine) (st : EngSt) (nodeId : String)
    (node : PyNode) (r : AgentResult) (od : List (String × Val))
    (h : nodeAtype eng node = "conditional") (ho : r.output = .dict od) :
    ∀ x ∈ getSkippedBranches eng.edges nodeId (dgetD od "branch" (.str "true")),
      x ∈ (stepStOk eng st nodeId node r).skipped := by
  intro x hx
  unfold stepStOk
  rw [if_pos h, ho]
  exact (setUnion_mem _ _ x).mpr (Or.inr hx)

/-! ### Driver step state evolution -/

theorem stepNode_next_results {eng : WorkflowEngine} {oracle : AgentOracle}
    {input : List (String × Val)} {st : EngSt} {nodeId : String} {st2 : EngSt}
    (h : stepNode eng oracle input st nodeId = .next st2) :
    ∀ k, k ≠ nodeId → aget st2.results k = aget st.results k := by
  intro k hk
  by_cases hsk : st.skipped.contains nodeId = true
  · rw [stepNode_skipped hsk] at h
    cases h
    exact aget_aset_ne _ _ _ _ hk
  · have hsk2 : st.skipped.contains nodeId = false := by
      simpa using hsk
    cases hl : lookupNode eng.nodes nodeId with
    | none =>
      rw [stepNode_nonode hsk2 hl] at h
      cases h
    | some node =>
      cases hc : stepCall eng oracle input st nodeId node with
      | error msg =>
        rw [stepNode_err hsk2 hl hc] at h
        by_cases hstop : (node.stop_on_failure).getD true = true
        · rw [if_pos hstop] at h
          cases h
        · rw [if_neg hstop] at h
          cases h
          exact aget_aset_ne _ _ _ _ hk
      | ok r =>
        rw [stepNode_okcall hsk2 hl hc] at h
        by_cases hstop : (!r.success && (node.stop_on_failure).getD true) = true
        · rw [if_pos hstop] at h
          cases h
        · rw [if_neg hstop] at h
          cases h
          rw [stepStOk_results]
          exact aget_aset_ne _ _ _ _ hk

theorem stepNode_next_skipped {eng : WorkflowEngine} {oracle : AgentOracle}
    {input : List (String × Val)} {st : EngSt} {nodeId : String} {st2 : EngSt}
    (h : stepNode eng oracle input st nodeId = .next st2) :
    ∀ x ∈ st.skipped, x ∈ st2.skipped := by
  intro x hx
  by_cases hsk : st.skipped.contains nodeId = true
  · rw [stepNode_skipped hsk] at h
    cases h
    exact hx
  · have hsk2 : st.skipped.contains nodeId = false := by
      simpa using hsk
    cases hl : lookupNode eng.nodes nodeId with
    | none =>
      rw [stepNode_nonode hsk2 hl] at h
      cases h
    | some node =>
      cases hc : stepCall eng oracle input st nodeId node with
      | error msg =>
        rw [stepNode_err hsk2 hl hc] at h
        by_cases hstop : (node.stop_on_failure).getD true = true
        · rw [if_pos hstop] at h
          cases h
        · rw [if_neg hstop] at h
          cases h
          exact hx
      | ok r =>
        rw [stepNode_okcall hsk2 hl hc] at h
        by_cases hstop : (!r.success && (node.stop_on_failure).getD true) = true
        · rw [if_pos hstop] at h
          cases h
        · rw [if_neg hstop] at h
          cases h
          exact stepStOk_skipped_super eng st nodeId node r x hx

theorem stepNode_halt_results {eng : WorkflowEngine} {oracle : AgentOracle}
    {input : List (String × Val)} {st : EngSt} {nodeId : String} {r0 : RunRecord}
    (h : stepNode eng oracle input st nodeId = .halt r0) :
    ∀ k, k ≠ nodeId → aget r0.node_results k = aget st.results k := by
  intro k hk
  by_cases hsk : st.skipped.contains nodeId = true
  · rw [stepNode_skipped hsk] at h
    cases h
  · have hsk2 : st.skipped.contains nodeId = false := by
      simpa using hsk
    cases hl : lookupNode eng.nodes nodeId with
    | none =>
      rw [stepNode_nonode hsk2 hl] at h
      cases h
    | some node =>
      cases hc : stepCall eng oracle input st nodeId node with
      | error msg =>
        rw [stepNode_err hsk2 hl hc] at h
        by_cases hstop : (node.stop_on_failure).getD true = true
        · rw [if_pos hstop] at h
          cases h
          exact aget_aset_ne _ _ _ _ hk
        · rw [if_neg hstop] at h
          cases h
      | ok r =>
        rw [stepNode_okcall hsk2 hl hc] at h
        by_cases hstop : (!r.success && (node.stop_on_failure).getD true) = true
        · rw [if_pos hstop] at h
          cases h
          rw [show (buildResult (stepStOk eng st nodeId node r) "failed"
            (some nodeId)).node_results = (stepStOk eng st nodeId node r).results from rfl]
          rw [stepStOk_results]
          exact aget_aset_ne _ _ _ _ hk
        · rw [if_neg hstop] at h
          cases h

/-- Keys outside the remaining order are untouched by the rest of the
run. -/
theorem runNodes_preserve (eng : WorkflowEngine) (oracle : AgentOracle)
    (input : List (String × Val)) :
    ∀ (order : List String) (st : EngSt) (r : RunRecord),
      runNodes eng oracle input order st = .ok r →
      ∀ k, k ∉ order → aget r.node_results k = aget st.results k := by
  intro order
  induction order with
  | nil =>
    intro st r h k _
    rw [runNodes] at h
    cases h
    rfl
  | cons nodeId rest ih =>
    intro st r h k hk
    have hk1 : k ≠ nodeId := fun he => hk (he ▸ List.mem_cons_self _ _)
    have hk2 : k ∉ rest := fun hm => hk (List.mem_cons_of_mem _ hm)
    rw [runNodes] at h
    cases hstep : stepNode eng oracle input st nodeId with
    | next st2 =>
      rw [hstep] at h
      rw [ih st2 r h k hk2]
      exact stepNode_next_results hstep k hk1
    | halt r0 =>
      rw [hstep] at h
      cases h
      exact stepNode_halt_results hstep k hk1
    | crash m =>
      rw [hstep] at h
      cases h

/-- Once a node is in the skip set with no recorded result (or a
skipped one), it can only ever be recorded as skipped. -/
theorem runNodes_skip_persist (eng : WorkflowEngine) (oracle : AgentOracle)
    (input : List (String × Val)) :
    ∀ (order : List String) (st : EngSt) (r : RunRecord) (t : String),
      t ∈ st.skipped →
      (aget st.results t = Option.none ∨ aget st.results t = some skippedNodeRes) →
      runNodes eng oracle input order st = .ok r →
      (aget r.node_results t = Option.none ∨
        aget r.node_results t = some skippedNodeRes) := by
  intro order
  induction order with
  | nil =>
    intro st r t _ hres h
    rw [runNodes] at h
    cases h
    exact hres
  | cons nodeId rest ih =>
    intro st r t htsk hres h
    rw [runNodes] at h
    by_cases hkt : nodeId = t
    · subst hkt
      have hc : st.skipped.contains nodeId = true := by
        simp [List.contains]
        exact htsk
      rw [stepNode_skipped hc] at h
      have h2 : runNodes eng oracle input rest
          { st with results := aset st.results nodeId skippedNodeRes } = .ok r := h
      refine ih { st with results := aset st.results nodeId skippedNodeRes }
        r nodeId ?_ ?_ h2
      · exact htsk
      · right
        exact aget_aset_self st.results nodeId skippedNodeRes
    · cases hstep : stepNode eng oracle input st nodeId with
      | next st2 =>
        rw [hstep] at h
        refine ih st2 r t (stepNode_next_skipped hstep t htsk) ?_ h
        rw [stepNode_next_results hstep t (fun he => hkt he.symm)]
        exact hres
      | halt r0 =>
        rw [hstep] at h
        cases h
        rw [stepNode_halt_results hstep t (fun he => hkt he.symm)]
        exact hres
      | crash m =>
        rw [hstep] at h
        cases h

/-- A step on an id present in `self.nodes` never raises. -/
theorem stepNode_no_crash {eng : WorkflowEngine} {oracle : AgentOracle}
    {input : List (String × Val)} {st : EngSt} {nodeId : String}
    (h : (lookupNode eng.nodes nodeId).isSome) :
    (∃ st2, stepNode eng oracle input st nodeId = .next st2) ∨
      (∃ r0, stepNode eng oracle input st nodeId = .halt r0) := by
  by_cases hsk : st.skipped.contains nodeId = true
  · exact Or.inl ⟨_, stepNode_skipped hsk⟩
  · have hsk2 : st.skipped.contains nodeId = false := by simpa using hsk
    cases hl : lookupNode eng.nodes nodeId with
    | none => rw [hl] at h; simp at h
    | some node =>
      cases hc : stepCall eng oracle input st nodeId node with
      | error msg =>
        by_cases hstop : (node.stop_on_failure).getD true = true
        · have hq := @stepNode_err eng oracle input st nodeId node msg hsk2 hl hc
          rw [if_pos hstop] at hq
          exact Or.inr ⟨_, hq⟩
        · have hq := @stepNode_err eng oracle input st nodeId node msg hsk2 hl hc
          rw [if_neg hstop] at hq
          exact Or.inl ⟨_, hq⟩
      | ok r =>
        by_cases hstop : (!r.success && (node.stop_on_failure).getD true) = true
        · have hq := @stepNode_okcall eng oracle input st nodeId node r hsk2 hl hc
          rw [if_pos hstop] at hq
          exact Or.inr ⟨_, hq⟩
        · have hq := @stepNode_okcall eng oracle input st nodeId node r hsk2 hl hc
          rw [if_neg hstop] at hq
          exact Or.inl ⟨_, hq⟩

/-- The driver returns a record - it never lets an exception escape -
whenever every scheduled id is a known node. -/
theorem runNodes_isOk (eng : WorkflowEngine) (oracle : AgentOracle)
    (input : List (String × Val)) :
    ∀ (order : List String) (st : EngSt),
      (∀ id ∈ order, (lookupNode eng.nodes id).isSome) →
      ∃ r, runNodes eng oracle input order st = .ok r := by
  intro order
  induction order with
  | nil =>
    intro st _
    exact ⟨_, rfl⟩
  | cons nodeId rest ih =>
    intro st hids
    rw [runNodes]
    rcases @stepNode_no_crash eng oracle input st nodeId
      (hids nodeId (List.mem_cons_self _ _)) with ⟨st2, hs⟩ | ⟨r0, hs⟩
    · rw [hs]
      exact ih st2 (fun id hid => hids id (List.mem_cons_of_mem _ hid))
    · rw [hs]
      exact ⟨r0, rfl⟩

/-! ### Totals bookkeeping (claim C5) -/

/-- Token contribution of one recorded node result to the completed
sum. -/
def tokenContrib (nr : NodeRes) : Int :=
  if nr.status == "completed" then (nr.tokens_used).getD 0 else 0

def costContrib (nr : NodeRes) : Rat :=
  if nr.status == "completed" then (nr.cost_usd).getD 0 else 0

/-- Sum of `tokens_used` over the recorded results with status
`completed`. -/
def completedTokens (rs : List (String × NodeRes)) : Int :=
  (rs.map (fun p => tokenContrib p.2)).sum

def completedCost (rs : List (String × NodeRes)) : Rat :=
  (rs.map (fun p => costContrib p.2)).sum

/-- Every agent in the repository returns zero `tokens_used` and zero
`cost_usd` on its failure paths (`success=false`); this is the property
of the oracle claim C5 relies on. -/
def ZeroOnFailure (oracle : AgentOracle) : Prop :=
  ∀ t cfg obj ctx r, oracle t cfg obj ctx = .ok r → r.success = false →
    r.tokens_used = 0 ∧ r.cost_usd = 0

theorem aset_of_none {α : Type} (d : List (String × α)) (k : String) (v : α)
    (h : aget d k = Option.none) : aset d k v = d ++ [(k, v)] := by
  unfold aset
  rw [if_neg]
  intro hany
  rcases (any_eq_true_iff_mem d k).mp hany with ⟨p, hp, hpk⟩
  have : (d.find? (fun p => p.1 == k)).isSome := by
    rw [List.find?_isSome]
    exact ⟨p, hp, beq_iff_eq.mpr hpk⟩
  rw [aget] at h
  rw [Option.map_eq_none'] at h
  rw [h] at this
  simp at this

theorem completedTokens_append (d : List (String × NodeRes)) (k : String)
    (v : NodeRes) :
    completedTokens (d ++ [(k, v)]) = completedTokens d + tokenContrib v := by
  unfold completedTokens
  rw [List.map_append, List.sum_append]
  simp

theorem completedCost_append (d : List (String × NodeRes)) (k : String)
    (v : NodeRes) :
    completedCost (d ++ [(k, v)]) = completedCost d + costContrib v := by
  unfold completedCost
  rw [List.map_append, List.sum_append]
  simp

theorem tokenContrib_skipped : tokenContrib skippedNodeRes = 0 := rfl
theorem costContrib_skipped : costContrib skippedNodeRes = 0 := rfl
theorem tokenContrib_err (msg : String) : tokenContrib (errNodeRes msg) = 0 := rfl
theorem costContrib_err (msg : String) : costContrib (errNodeRes msg) = 0 := rfl

theorem tokenContrib_ok (r : AgentResult) :
    tokenContrib (okNodeRes r) = if r.success then r.tokens_used else 0 := by
  unfold tokenContrib okNodeRes
  by_cases h : r.success <;> simp [h]

theorem costContrib_ok (r : AgentResult) :
    costContrib (okNodeRes r) = if r.success then r.cost_usd else 0 := by
  unfold costContrib okNodeRes
  by_cases h : r.success <;> simp [h]

/-- The running totals always equal the completed-status sums over the
recorded results, and the final record reports them (cost rounded). -/
theorem runNodes_totals (eng : WorkflowEngine) (oracle : AgentOracle)
    (input : List (String × Val)) (hz : ZeroOnFailure oracle) :
    ∀ (order : List String) (st : EngSt),
      order.Nodup →
      (∀ k ∈ order, aget st.results k = Option.none) →
      st.total_tokens = completedTokens st.results →
      st.total_cost = completedCost st.results →
      ∀ r, runNodes eng oracle input order st = .ok r →
        r.total_tokens = completedTokens r.node_results ∧
        r.total_cost_usd = round6 (completedCost r.node_results) := by
  intro order
  induction order with
  | nil =>
    intro st _ _ htok hcost r h
    rw [runNodes] at h
    cases h
    refine ⟨htok, ?_⟩
    show round6 st.total_cost = round6 (completedCost st.results)
    rw [hcost]
  | cons nodeId rest ih =>
    intro st hnd hfresh htok hcost r h
    have hfhead : aget st.results nodeId = Option.none :=
      hfresh nodeId (List.mem_cons_self _ _)
    have hndr : rest.Nodup := (List.nodup_cons.mp hnd).2
    have hnotin : nodeId ∉ rest := (List.nodup_cons.mp hnd).1
    have hfrest : ∀ (v : NodeRes), ∀ k ∈ rest,
        aget (aset st.results nodeId v) k = Option.none := by
      intro v k hk
      rw [aget_aset_ne _ _ _ _ (show k ≠ nodeId from fun he => hnotin (he ▸ hk))]
      exact hfresh k (List.mem_cons_of_mem _ hk)
    rw [runNodes] at h
    by_cases hsk : st.skipped.contains nodeId = true
    · rw [stepNode_skipped hsk] at h
      have h2 : runNodes eng oracle input rest
          { st with results := aset st.results nodeId skippedNodeRes } = .ok r := h
      refine ih { st with results := aset st.results nodeId skippedNodeRes }
        hndr (hfrest _) ?_ ?_ r h2
      · rw [show ({ st with results := aset st.results nodeId skippedNodeRes} :
          EngSt).total_tokens = st.total_tokens from rfl]
        rw [htok]
        rw [show ({ st with results := aset st.results nodeId skippedNodeRes} :
          EngSt).results = aset st.results nodeId skippedNodeRes from rfl]
        rw [aset_of_none _ _ _ hfhead, completedTokens_append, tokenContrib_skipped]
        omega
      · rw [show ({ st with results := aset st.results nodeId skippedNodeRes} :
          EngSt).total_cost = st.total_cost from rfl]
        rw [hcost]
        rw [show ({ st with results := aset st.results nodeId skippedNodeRes} :
          EngSt).results = aset st.results nodeId skippedNodeRes from rfl]
        rw [aset_of_none _ _ _ hfhead, completedCost_append, costContrib_skipped]
        ring
    · have hsk2 : st.skipped.contains nodeId = false := by simpa using hsk
      cases hl : lookupNode eng.nodes nodeId with
      | none =>
        rw [stepNode_nonode hsk2 hl] at h
        cases h
      | some node =>
        cases hc : stepCall eng oracle input st nodeId node with
        | error msg =>
          rw [stepNode_err hsk2 hl hc] at h
          have htok2 : st.total_tokens =
              completedTokens (aset st.results nodeId (errNodeRes msg)) := by
            rw [aset_of_none _ _ _ hfhead, completedTokens_append, tokenContrib_err]
            omega
          have hcost2 : st.total_cost =
              completedCost (aset st.results nodeId (errNodeRes msg)) := by
            rw [aset_of_none _ _ _ hfhead, completedCost_append, costContrib_err]
            rw [hcost]
            ring
          by_cases hstop : (node.stop_on_failure).getD true = true
          · rw [if_pos hstop] at h
            cases h
            refine ⟨htok2, ?_⟩
            show round6 st.total_cost =
              round6 (completedCost (aset st.results nodeId (errNodeRes msg)))
            rw [hcost2]
          · rw [if_neg hstop] at h
            have h2 : runNodes eng oracle input rest
                { st with results := aset st.results nodeId (errNodeRes msg) } =
                .ok r := h
            exact ih { st with results := aset st.results nodeId (errNodeRes msg) }
              hndr (hfrest _) htok2 hcost2 r h2
        | ok ra =>
          rw [stepNode_okcall hsk2 hl hc] at h
          have hzr : ra.success = false → ra.tokens_used = 0 ∧ ra.cost_usd = 0 := by
            intro hf
            unfold stepCall at hc
            by_cases hreg : AGENT_REGISTRY_KEYS.contains (nodeAtype eng node) = true
            · rw [if_pos hreg] at hc
              exact hz _ _ _ _ ra hc hf
            · rw [if_neg hreg] at hc
              cases hc
          have htok2 : (stepStOk eng st nodeId node ra).total_tokens =
              completedTokens (stepStOk eng st nodeId node ra).results := by
            rw [stepStOk_tokens, stepStOk_results, aset_of_none _ _ _ hfhead,
              completedTokens_append, tokenContrib_ok]
            by_cases hsucc : ra.success = true
            · rw [if_pos hsucc]
              omega
            · have hf : ra.success = false := by simpa using hsucc
              rw [if_neg (by simp [hf])]
              have := (hzr hf).1
              omega
          have hcost2 : (stepStOk eng st nodeId node ra).total_cost =
              completedCost (stepStOk eng st nodeId node ra).results := by
            rw [stepStOk_cost, stepStOk_results, aset_of_none _ _ _ hfhead,
              completedCost_append, costContrib_ok]
            by_cases hsucc : ra.success = true
            · rw [if_pos hsucc, hcost]
            · have hf : ra.success = false := by simpa using hsucc
              rw [if_neg (by simp [hf])]
              rw [(hzr hf).2, hcost]
          by_cases hstop : (!ra.success && (node.stop_on_failure).getD true) = true
          · rw [if_pos hstop] at h
            cases h
            refine ⟨htok2, ?_⟩
            show round6 (stepStOk eng st nodeId node ra).total_cost =
              round6 (completedCost (stepStOk eng st nodeId node ra).results)
            rw [hcost2]
          · rw [if_neg hstop] at h
            refine ih _ hndr ?_ htok2 hcost2 r h
            intro k hk
            rw [stepStOk_results]
            exact hfrest _ k hk

theorem ListPrecedes.of_cons {h c t : String} {rest : List String}
    (hp : ListPrecedes (h :: rest) c t) (hc : c ≠ h) : ListPrecedes rest c t := by
  intro pre post hsplit
  have h2 : h :: rest = (h :: pre) ++ t :: post := by rw [hsplit]; rfl
  rcases List.mem_cons.mp (hp (h :: pre) post h2) with hh | hh
  · exact absurd hh hc
  · exact hh

theorem ListPrecedes.head_ne {h c t : String} {rest : List String}
    (hp : ListPrecedes (h :: rest) c t) : h ≠ t := by
  intro he
  have h2 : h :: rest = ([] : List String) ++ t :: rest := by rw [he]; rfl
  have := hp [] rest h2
  simp at this

/-- Core trace lemma for conditional pruning: once the conditional `c`
(still unrecorded, preceding `t`) completes with a dict output whose
branch puts `t` into the skip set, `t` can only ever be recorded as
skipped. -/
theorem runNodes_conditional_core (eng : WorkflowEngine) (oracle : AgentOracle)
    (input : List (String × Val)) (c t : String) (hct : c ≠ t) :
    ∀ (order : List String) (st : EngSt) (r : RunRecord) (rc : NodeRes)
      (od : List (String × Val)),
      order.Nodup →
      ListPrecedes order c t →
      aget st.results c = Option.none →
      (aget st.results t = Option.none ∨ aget st.results t = some skippedNodeRes) →
      (∀ node, lookupNode eng.nodes c = some node →
        nodeAtype eng node = "conditional") →
      runNodes eng oracle input order st = .ok r →
      aget r.node_results c = some rc →
      rc.status = "completed" →
      rc.output = .dict od →
      t ∈ getSkippedBranches eng.edges c (dgetD od "branch" (.str "true")) →
      ∀ rt, aget r.node_results t = some rt → rt = skippedNodeRes := by
  intro order
  induction order with
  | nil =>
    intro st r rc od _ _ hcnone _ _ h hrc _ _ _
    rw [runNodes] at h
    cases h
    have hrc2 : aget st.results c = some rc := hrc
    rw [hcnone] at hrc2
    cases hrc2
  | cons hd rest ih =>
    intro st r rc od hnd hprec hcnone htnone htype h hrc hstat hout hskipmem
    have hht : hd ≠ t := hprec.head_ne
    have hndr : rest.Nodup := (List.nodup_cons.mp hnd).2
    have hhd_rest : hd ∉ rest := (List.nodup_cons.mp hnd).1
    rw [runNodes] at h
    by_cases hhc : hd = c
    · subst hhc
      by_cases hsk : st.skipped.contains hd = true
      · rw [stepNode_skipped hsk] at h
        have h2 : runNodes eng oracle input rest
            { st with results := aset st.results hd skippedNodeRes } = .ok r := h
        have hpres := runNodes_preserve eng oracle input rest _ r h2 hd hhd_rest
        rw [hrc] at hpres
        have : aget (aset st.results hd skippedNodeRes) hd = some skippedNodeRes :=
          aget_aset_self _ _ _
        rw [this] at hpres
        cases hpres
        exact absurd hstat (by decide)
      · have hsk2 : st.skipped.contains hd = false := by simpa using hsk
        cases hl : lookupNode eng.nodes hd with
        | none =>
          rw [stepNode_nonode hsk2 hl] at h
          cases h
        | some node =>
          have hcond := htype node hl
          cases hc : stepCall eng oracle input st hd node with
          | error msg =>
            rw [stepNode_err hsk2 hl hc] at h
            by_cases hstop : (node.stop_on_failure).getD true = true
            · rw [if_pos hstop] at h
              cases h
              have : aget (aset st.results hd (errNodeRes msg)) hd =
                  some (errNodeRes msg) := aget_aset_self _ _ _
              rw [show (buildResult { st with
                  results := aset st.results hd (errNodeRes msg) } "failed"
                  (some hd)).node_results =
                  aset st.results hd (errNodeRes msg) from rfl] at hrc
              rw [this] at hrc
              cases hrc
              simp [errNodeRes] at hstat
            · rw [if_neg hstop] at h
              have h2 : runNodes eng oracle input rest
                  { st with results := aset st.results hd (errNodeRes msg) } =
                  .ok r := h
              have hpres := runNodes_preserve eng oracle input rest _ r h2 hd hhd_rest
              rw [hrc] at hpres
              have : aget (aset st.results hd (errNodeRes msg)) hd =
                  some (errNodeRes msg) := aget_aset_self _ _ _
              rw [this] at hpres
              cases hpres
              simp [errNodeRes] at hstat
          | ok ra =>
            rw [stepNode_okcall hsk2 hl hc] at h
            by_cases hstop : (!ra.success && (node.stop_on_failure).getD true) = true
            · rw [if_pos hstop] at h
              cases h
              intro rt hrt
              rw [show (buildResult (stepStOk eng st hd node ra) "failed"
                  (some hd)).node_results =
                  (stepStOk eng st hd node ra).results from rfl] at hrt
              rw [stepStOk_results] at hrt
              rw [aget_aset_ne _ _ _ _ (fun he => hct he.symm)] at hrt
              rcases htnone with hh | hh
              · rw [hh] at hrt; cases hrt
              · rw [hh] at hrt; cases hrt; rfl
            · rw [if_neg hstop] at h
              have h2 : runNodes eng oracle input rest
                  (stepStOk eng st hd node ra) = .ok r := h
              have hpres := runNodes_preserve eng oracle input rest _ r h2 hd hhd_rest
              rw [hrc, stepStOk_results, aget_aset_self] at hpres
              have hrc2 : rc = okNodeRes ra := by cases hpres; rfl
              have hsucc : ra.success = true := by
                by_contra hs
                have hs2 : ra.success = false := by simpa using hs
                rw [hrc2] at hstat
                unfold okNodeRes at hstat
                rw [hs2] at hstat
                simp at hstat
              have hra_out : ra.output = .dict od := by
                rw [hrc2] at hout
                exact hout
              have htsk : t ∈ (stepStOk eng st hd node ra).skipped :=
                stepStOk_skipped_cond eng st hd node ra od hcond hra_out t hskipmem
              have htres : aget (stepStOk eng st hd node ra).results t =
                    Option.none ∨
                  aget (stepStOk eng st hd node ra).results t =
                    some skippedNodeRes := by
                rw [stepStOk_results,
                  aget_aset_ne _ _ _ _ (fun he => hct he.symm)]
                exact htnone
              have hfinal := runNodes_skip_persist eng oracle input rest _ r t
                htsk htres h2
              intro rt hrt
              rcases hfinal with hh | hh
              · rw [hh] at hrt; cases hrt
              · rw [hh] at hrt; cases hrt; rfl
    · have hne_c : c ≠ hd := fun he => hhc he.symm
      cases hstep : stepNode eng oracle input st hd with
      | next st2 =>
        rw [hstep] at h
        refine ih st2 r rc od hndr (hprec.of_cons hne_c) ?_ ?_ htype h hrc hstat hout hskipmem
        · rw [stepNode_next_results hstep c hne_c]
          exact hcnone
        · rw [stepNode_next_results hstep t (fun he => hht he.symm)]
          exact htnone
      | halt r0 =>
        rw [hstep] at h
        cases h
        have := stepNode_halt_results hstep c hne_c
        rw [hrc, hcnone] at this
        cases this
      | crash m =>
        rw [hstep] at h
        cases h

/-- When a node resolves to a type outside the registry, the raised
`ValueError` is caught by the driver: the node is only ever recorded
with status `error` (or `skipped` if pruned first). -/
theorem runNodes_unknown_type (eng : WorkflowEngine) (oracle : AgentOracle)
    (input : List (String × Val)) (n : String) (node : PyNode)
    (hl : lookupNode eng.nodes n = some node)
    (hreg : AGENT_REGISTRY_KEYS.contains (nodeAtype eng node) = false) :
    ∀ (order : List String) (st : EngSt) (r : RunRecord),
      order.Nodup →
      (aget st.results n = Option.none ∨ aget st.results n = some skippedNodeRes) →
      runNodes eng oracle input order st = .ok r →
      ∀ rn, aget r.node_results n = some rn →
        rn.status = "error" ∨ rn.status = "skipped" := by
  intro order
  induction order with
  | nil =>
    intro st r hnd hn h rn hrn
    rw [runNodes] at h
    cases h
    have hrn2 : aget st.results n = some rn := hrn
    rcases hn with hh | hh
    · rw [hh] at hrn2; cases hrn2
    · rw [hh] at hrn2; cases hrn2; right; rfl
  | cons hd rest ih =>
    intro st r hnd hn h rn hrn
    have hndr : rest.Nodup := (List.nodup_cons.mp hnd).2
    have hhd_rest : hd ∉ rest := (List.nodup_cons.mp hnd).1
    rw [runNodes] at h
    by_cases hhn : hd = n
    · subst hhn
      by_cases hsk : st.skipped.contains hd = true
      · rw [stepNode_skipped hsk] at h
        have h2 : runNodes eng oracle input rest
            { st with results := aset st.results hd skippedNodeRes } = .ok r := h
        have hpres := runNodes_preserve eng oracle input rest _ r h2 hd hhd_rest
        rw [hrn, aget_aset_self] at hpres
        cases hpres
        right
        rfl
      · have hsk2 : st.skipped.contains hd = false := by simpa using hsk
        have hc : stepCall eng oracle input st hd node =
            .error (unknownAgentMsg (nodeAtype eng node)) := by
          unfold stepCall
          rw [hreg]
          rfl
        rw [stepNode_err hsk2 hl hc] at h
        by_cases hstop : (node.stop_on_failure).getD true = true
        · rw [if_pos hstop] at h
          cases h
          have hrn2 : aget (aset st.results hd
              (errNodeRes (unknownAgentMsg (nodeAtype eng node)))) hd = some rn := hrn
          rw [aget_aset_self] at hrn2
          cases hrn2
          left
          rfl
        · rw [if_neg hstop] at h
          have h2 : runNodes eng oracle input rest { st with results := aset st.results hd (errNodeRes (unknownAgentMsg (nodeAtype eng node))) } = .ok r := h
          have hpres := runNodes_preserve eng oracle input rest _ r h2 hd hhd_rest
          rw [hrn, aget_aset_self] at hpres
          cases hpres
          left
          rfl
    · have hnne : n ≠ hd := fun he => hhn he.symm
      cases hstep : stepNode eng oracle input st hd with
      | next st2 =>
        rw [hstep] at h
        refine ih st2 r hndr ?_ h rn hrn
        rw [stepNode_next_results hstep n hnne]
        exact hn
      | halt r0 =>
        rw [hstep] at h
        cases h
        have := stepNode_halt_results hstep n hnne
        rw [hrn] at this
        rcases hn with hh | hh
        · rw [hh] at this; cases this
        · rw [hh] at this; cases this; right; rfl
      | crash m =>
        rw [hstep] at h
        cases h

/-! ### Well-formed graphs and run-level facts -/

/-- The node id list in declaration order (`self.nodes` iteration). -/
def nodeIdsOf (eng : WorkflowEngine) : List String :=
  eng.nodes.map (fun n => n.id)

/-- The graph invariant of the spec: unique ids and referential
integrity of edges. -/
def WellFormed (eng : WorkflowEngine) : Prop :=
  (nodeIdsOf eng).Nodup ∧
  ∀ e ∈ eng.edges, e.source_id ∈ nodeIdsOf eng ∧ e.target_id ∈ nodeIdsOf eng

instance (eng : WorkflowEngine) : Decidable (WellFormed eng) := by
  unfold WellFormed
  infer_instance

theorem lookup_isSome_of_mem (eng : WorkflowEngine) (i : String)
    (h : i ∈ nodeIdsOf eng) : (lookupNode eng.nodes i).isSome := by
  rcases List.mem_map.mp h with ⟨node, hn, hid⟩
  rw [lookupNode, List.find?_isSome]
  exact ⟨node, hn, beq_iff_eq.mpr hid⟩

theorem run_ok_of_wf (eng : WorkflowEngine) (oracle : AgentOracle)
    (input : List (String × Val)) (hwf : WellFormed eng) :
    ∃ r, eng.run oracle input = .ok r := by
  unfold WorkflowEngine.run
  apply runNodes_isOk
  intro id hid
  exact lookup_isSome_of_mem eng id
    (topologicalSort_subset (nodeIdsOf eng) eng.edges hwf.1
      (fun e he => hwf.2 e he) id hid)

/-- The engine starts with empty `results`, so a node that never enters
the execution order is absent from the final report. -/
theorem run_results_none_outside (eng : WorkflowEngine) (oracle : AgentOracle)
    (input : List (String × Val)) (r : RunRecord)
    (h : eng.run oracle input = .ok r) (k : String)
    (hk : k ∉ topologicalSort (nodeIdsOf eng) eng.edges) :
    aget r.node_results k = Option.none := by
  unfold WorkflowEngine.run at h
  exact runNodes_preserve eng oracle input _ _ r h k hk

/-! ### Example graphs for the concrete claims -/

/-- Cycle `A → B → A` plus an independent node `X`
(all data_transform passthrough). -/
def cycleEng : WorkflowEngine :=
  { nodes := [{ id := "X", agent_type := some "data_transform" },
              { id := "A", agent_type := some "data_transform" },
              { id := "B", agent_type := some "data_transform" }],
    edges := [{ source_id := "A", target_id := "B" },
              { source_id := "B", target_id := "A" }] }

/-- The record `cycleEng.run` actually produces. -/
def cycleRunRec : RunRecord :=
  { status := "completed",
    node_results := [("X",
      { status := "completed", output := Val.dict [],
        tokens_used := some 0, cost_usd := some 0, duration_ms := 0,
        metadata := some [("operation", Val.str "passthrough")] })],
    output_data := Val.dict [],
    total_tokens := 0, total_cost_usd := 0, duration_ms := 0,
    failed_node := Option.none }

/-- Two edges out of `A` declared target-`C` first: `A → C`, `A → B`. -/
def tieEdges : List PyEdge :=
  [{ source_id := "A", target_id := "C" },
   { source_id := "A", target_id := "B" }]

/-- C1.  The claim asserts that a workflow whose edges form a cycle is
rejected with a validation error and no node executes.  In the code
`_topological_sort` silently drops every node on a cycle, `run` raises
nothing, executes the remaining nodes, and returns a "completed" record:
on the graph X, A→B→A the run succeeds and X executes. -/
theorem claim_C1_counterexample :
    Reaches cycleEng.edges "A" "A" ∧
    cycleEng.run pureAgents [] = .ok cycleRunRec ∧
    cycleRunRec.status = "completed" ∧
    cycleRunRec.node_results ≠ [] ∧
    (∃ rx, aget cycleRunRec.node_results "X" = some rx ∧
      rx.status = "completed") := by
  refine ⟨(getAllDescendants_iff cycleEng.edges "A" "A").mp (by decide),
    by with_unfolding_all rfl, rfl, by decide, ⟨_, rfl, rfl⟩⟩

/-- C1 (amended).  A cycle is never rejected: `run` raises no
validation error and returns an ordinary record; every node lying on a
cycle is silently dropped from the Kahn order and ends the run with no
entry in `node_results`, while the rest of the workflow executes. -/
theorem claim_C1 (eng : WorkflowEngine) (oracle : AgentOracle)
    (input : List (String × Val)) (n : String)
    (hwf : WellFormed eng) (hcyc : Reaches eng.edges n n) :
    n ∉ topologicalSort (nodeIdsOf eng) eng.edges ∧
    ∃ r, eng.run oracle input = .ok r ∧
      aget r.node_results n = Option.none := by
  have hnot : n ∉ topologicalSort (nodeIdsOf eng) eng.edges :=
    topologicalSort_cycle_not_mem (nodeIdsOf eng) eng.edges hwf.1 hcyc
  rcases run_ok_of_wf eng oracle input hwf with ⟨r, hr⟩
  exact ⟨hnot, r, hr, run_results_none_outside eng oracle input r hr n hnot⟩

theorem claim_C1_witness :
    WellFormed cycleEng ∧ Reaches cycleEng.edges "A" "A" ∧
    ("A" ∉ topologicalSort (nodeIdsOf cycleEng) cycleEng.edges ∧
     ∃ r, cycleEng.run pureAgents [] = .ok r ∧
       aget r.node_results "A" = Option.none) :=
  ⟨by decide, (getAllDescendants_iff cycleEng.edges "A" "A").mp (by decide),
   claim_C1 cycleEng pureAgents [] "A" (by decide)
     ((getAllDescendants_iff cycleEng.edges "A" "A").mp (by decide))⟩

/-- C2.  The claim's tie-break rule is wrong: eligible nodes are kept in
a FIFO queue, so nodes freed by an earlier pop are emitted in the order
the edges freed them, not in node-list order.  With nodes A, B, C and
edges A→C, A→B, after A both B and C are eligible and node-list order
would put B first, yet the code emits C first. -/
theorem claim_C2_counterexample :
    topologicalSort ["A", "B", "C"] tieEdges = ["A", "C", "B"] ∧
    initInDeg tieEdges "B" = 1 ∧ initInDeg tieEdges "C" = 1 ∧
    (∀ e ∈ tieEdges, e.source_id = "A") ∧
    List.indexOf "B" ["A", "B", "C"] < List.indexOf "C" ["A", "B", "C"] ∧
    ¬ (List.indexOf "B" (topologicalSort ["A", "B", "C"] tieEdges) <
       List.indexOf "C" (topologicalSort ["A", "B", "C"] tieEdges)) := by
  refine ⟨by decide, by decide, by decide, by decide, by decide, by decide⟩

/-- C2 (amended).  On an acyclic graph whose edges stay inside the node
set, the scheduler emits exactly V ids, without duplicates, every edge's
source before its target (a permutation of the node list); the correct
tie-break statement is only that the initially eligible nodes (in-degree
zero) open the order, in node-list order. -/
theorem claim_C2 (nodeIds : List String) (edges : List PyEdge)
    (hnd : nodeIds.Nodup)
    (hcl : ∀ e ∈ edges, e.source_id ∈ nodeIds ∧ e.target_id ∈ nodeIds)
    (hac : Acyclic edges) :
    (topologicalSort nodeIds edges).length = nodeIds.length ∧
    (topologicalSort nodeIds edges).Nodup ∧
    (topologicalSort nodeIds edges).Perm nodeIds ∧
    (∀ e ∈ edges,
      ListPrecedes (topologicalSort nodeIds edges) e.source_id e.target_id) ∧
    (topologicalSort nodeIds edges).take (kahnQueue0 nodeIds edges).length =
      kahnQueue0 nodeIds edges := by
  have hperm := topologicalSort_perm nodeIds edges hnd hcl hac
  refine ⟨hperm.length_eq, topologicalSort_nodup nodeIds edges hnd, hperm,
    ?_, (topologicalSort_spec nodeIds edges hnd).2⟩
  intro e he
  exact (topologicalSort_sorted nodeIds edges hnd e he
    (hperm.mem_iff.mpr (hcl e he).2)).2

theorem claim_C2_witness :
    (["A", "B", "C"] : List String).Nodup ∧
    (∀ e ∈ tieEdges, e.source_id ∈ ["A", "B", "C"] ∧
      e.target_id ∈ ["A", "B", "C"]) ∧
    Acyclic tieEdges ∧
    ((topologicalSort ["A", "B", "C"] tieEdges).length = 3 ∧
     (topologicalSort ["A", "B", "C"] tieEdges).Nodup ∧
     (topologicalSort ["A", "B", "C"] tieEdges).Perm ["A", "B", "C"] ∧
     (∀ e ∈ tieEdges, ListPrecedes (topologicalSort ["A", "B", "C"] tieEdges)
        e.source_id e.target_id) ∧
     (topologicalSort ["A", "B", "C"] tieEdges).take
        (kahnQueue0 ["A", "B", "C"] tieEdges).length =
       kahnQueue0 ["A", "B", "C"] tieEdges) :=
  ⟨by decide, by decide, (AcyclicB_iff tieEdges).mp (by decide),
   claim_C2 ["A", "B", "C"] tieEdges (by decide) (by decide)
     ((AcyclicB_iff tieEdges).mp (by decide))⟩

/-- C3.  Confirmed: the skip set computed for a conditional node is
exactly the set of targets of its outbound edges whose condition differs
from the taken branch, together with all transitive descendants of those
targets (BFS over all outbound edges, conditions ignored); and any such
pruned node t distinct from c is recorded as "skipped", never
"completed", in the run record. -/
theorem claim_C3 (eng : WorkflowEngine) (oracle : AgentOracle)
    (input : List (String × Val)) (c t : String) (hne : c ≠ t)
    (hwfnd : (nodeIdsOf eng).Nodup)
    (htype : ∀ node, lookupNode eng.nodes c = some node →
      nodeAtype eng node = "conditional")
    (r : RunRecord) (rc : NodeRes) (od : List (String × Val))
    (hrun : eng.run oracle input = .ok r)
    (hrc : aget r.node_results c = some rc)
    (hstat : rc.status = "completed")
    (hout : rc.output = .dict od) :
    (∀ b x, x ∈ getSkippedBranches eng.edges c b ↔
      ∃ e ∈ eng.edges, e.source_id = c ∧
        pyEq (.str (e.condition.getD "true")) b = false ∧
        (x = e.target_id ∨ Reaches eng.edges e.target_id x)) ∧
    (t ∈ getSkippedBranches eng.edges c (dgetD od "branch" (.str "true")) →
      ∀ rt, aget r.node_results t = some rt → rt.status = "skipped") := by
  refine ⟨fun b x => getSkippedBranches_mem eng.edges c b x, ?_⟩
  intro hskip rt hrt
  rcases (getSkippedBranches_mem eng.edges c _ t).mp hskip with
    ⟨e, he, hsrc, _, htgt⟩
  have hreach : Reaches eng.edges c t := by
    have h1 : edgeRel eng.edges c e.target_id := ⟨e, he, hsrc, rfl⟩
    rcases htgt with h | h
    · rw [h]
      exact Relation.TransGen.single h1
    · exact (Relation.TransGen.single h1).trans h
  unfold WorkflowEngine.run at hrun
  have hndo : (topologicalSort (nodeIdsOf eng) eng.edges).Nodup :=
    topologicalSort_nodup _ _ hwfnd
  have hprec : ListPrecedes (topologicalSort (nodeIdsOf eng) eng.edges) c t := by
    by_cases hto : t ∈ topologicalSort (nodeIdsOf eng) eng.edges
    · exact (topologicalSort_reaches _ _ hwfnd hreach hto).2
    · intro pre post hsplit
      exact absurd (hsplit ▸ List.mem_append_right pre
        (List.mem_cons_self t post)) hto
  have hrun2 : runNodes eng oracle input
      (topologicalSort (nodeIdsOf eng) eng.edges)
      { results := [], context_store := if input.isEmpty then [] else [("__input__", Val.dict input)], skipped := [], total_tokens := 0, total_cost := 0 } = .ok r := hrun
  have hfin := runNodes_conditional_core eng oracle input c t hne
    (topologicalSort (nodeIdsOf eng) eng.edges)
    { results := [], context_store := if input.isEmpty then [] else [("__input__", Val.dict input)], skipped := [], total_tokens := 0, total_cost := 0 }
    r rc od hndo hprec rfl (Or.inl rfl) htype hrun2 hrc hstat hout hskip rt hrt
  rw [hfin]
  rfl

/-- A conditional node whose false branch is taken, with a pruned
true-branch target T1 and a taken false-branch target F1. -/
def condEng : WorkflowEngine :=
  { nodes := [{ id := "C", agent_type := some "conditional",
                config_overrides := [("field", Val.str "x"),
                  ("operator", Val.str "eq"), ("value", Val.int 1)] },
              { id := "T1", agent_type := some "data_transform" },
              { id := "F1", agent_type := some "data_transform" }],
    edges := [{ source_id := "C", target_id := "T1" },
              { source_id := "C", target_id := "F1", condition := some "false" }] }

def condCOut : List (String × Val) :=
  [("condition_met", Val.bool false), ("branch", Val.str "false"),
   ("evaluated", Val.str "x eq 1 => False")]

def condCRes : NodeRes :=
  { status := "completed", output := Val.dict condCOut,
    tokens_used := some 0, cost_usd := some 0, duration_ms := 0,
    metadata := some [("field", Val.str "x"), ("operator", Val.str "eq"),
      ("value", Val.int 1), ("actual", Val.str "None")] }

def condF1Res : NodeRes :=
  { status := "completed", output := Val.dict [("C", Val.dict condCOut)],
    tokens_used := some 0, cost_usd := some 0, duration_ms := 0,
    metadata := some [("operation", Val.str "passthrough")] }

def condRunRec : RunRecord :=
  { status := "completed",
    node_results := [("C", condCRes), ("T1", skippedNodeRes), ("F1", condF1Res)],
    output_data := Val.dict [("C", Val.dict condCOut)],
    total_tokens := 0, total_cost_usd := 0, duration_ms := 0,
    failed_node := Option.none }

theorem claim_C3_witness :
    ("C" : String) ≠ "T1" ∧
    (nodeIdsOf condEng).Nodup ∧
    condEng.run pureAgents [] = .ok condRunRec ∧
    aget condRunRec.node_results "C" = some condCRes ∧
    condCRes.status = "completed" ∧
    condCRes.output = .dict condCOut ∧
    ((∀ b x, x ∈ getSkippedBranches condEng.edges "C" b ↔
      ∃ e ∈ condEng.edges, e.source_id = "C" ∧
        pyEq (.str (e.condition.getD "true")) b = false ∧
        (x = e.target_id ∨ Reaches condEng.edges e.target_id x)) ∧
     ("T1" ∈ getSkippedBranches condEng.edges "C"
        (dgetD condCOut "branch" (.str "true")) →
      ∀ rt, aget condRunRec.node_results "T1" = some rt →
        rt.status = "skipped")) :=
  ⟨by decide, by decide, by with_unfolding_all rfl, by decide, rfl, rfl,
   claim_C3 condEng pureAgents [] "C" "T1" (by decide) (by decide)
     (fun node h => by cases h; rfl) condRunRec condCRes condCOut
     (by with_unfolding_all rfl) (by decide) rfl rfl⟩

/-! ### Context propagation of failed nodes (C4) -/

theorem gatherFold_keep (t : String) (ctx : List (String × Val)) :
    ∀ (es : List PyEdge) (acc : List (String × Val)) (s : String) (v : Val),
    aget ctx s = some v → aget acc s = some v →
    aget (es.foldl (fun acc e =>
      if e.target_id == t then
        match aget ctx e.source_id with
        | some w => aset acc e.source_id w
        | Option.none => acc
      else acc) acc) s = some v := by
  intro es
  induction es with
  | nil => intro acc s v _ hacc; exact hacc
  | cons e es ih =>
    intro acc s v hctx hacc
    rw [List.foldl_cons]
    apply ih _ s v hctx
    by_cases ht : e.target_id == t
    · rw [if_pos ht]
      cases hsrc : aget ctx e.source_id with
      | none => exact hacc
      | some w =>
        by_cases hs : e.source_id = s
        · subst hs
          rw [hsrc] at hctx
          cases hctx
          exact aget_aset_self acc e.source_id v
        · rw [aget_aset_ne acc e.source_id w s (fun h => hs h.symm)]
          exact hacc
    · rw [if_neg ht]
      exact hacc

theorem gatherFold_hit (t : String) (ctx : List (String × Val)) :
    ∀ (es : List PyEdge) (acc : List (String × Val)) (s : String) (v : Val),
    aget ctx s = some v →
    (∃ e ∈ es, e.target_id = t ∧ e.source_id = s) →
    aget (es.foldl (fun acc e =>
      if e.target_id == t then
        match aget ctx e.source_id with
        | some w => aset acc e.source_id w
        | Option.none => acc
      else acc) acc) s = some v := by
  intro es
  induction es with
  | nil =>
    intro acc s v _ hex
    rcases hex with ⟨e, he, _⟩
    exact absurd he (List.not_mem_nil e)
  | cons e es ih =>
    intro acc s v hctx hex
    rw [List.foldl_cons]
    rcases hex with ⟨e2, he2, ht2, hs2⟩
    rcases List.mem_cons.mp he2 with heq | hmem
    · subst heq
      rw [if_pos (beq_iff_eq.mpr ht2), hs2, hctx]
      exact gatherFold_keep t ctx es _ s v hctx (aget_aset_self acc s v)
    · exact ih _ s v hctx ⟨e2, hmem, ht2, hs2⟩

/-- `_gather_context` includes an entry for every stored upstream source:
whatever `context_store` holds under the source id of an inbound edge is
copied into the assembled context. -/
theorem gatherContext_mem (edges : List PyEdge) (t : String)
    (ctx input : List (String × Val)) (s : String) (v : Val)
    (hctx : aget ctx s = some v)
    (hedge : ∃ e ∈ edges, e.target_id = t ∧ e.source_id = s) :
    aget (gatherContext edges t ctx input) s = some v := by
  unfold gatherContext
  exact gatherFold_hit t ctx edges _ s v hctx hedge

/-- A failing extract (index out of range) with stop_on_failure := false,
followed by a passthrough node downstream. -/
def failEng : WorkflowEngine :=
  { nodes := [{ id := "A", agent_type := some "data_transform",
                config_overrides := [("operation", Val.str "extract_field"),
                  ("field", Val.str "input.xs.5")],
                stop_on_failure := some false },
              { id := "B", agent_type := some "data_transform" }],
    edges := [{ source_id := "A", target_id := "B" }] }

def c4Input : List (String × Val) := [("xs", Val.list [Val.int 1])]

def failAOut : Val := Val.str "Transform failed: list index out of range"

def failARes : NodeRes :=
  { status := "failed", output := failAOut, tokens_used := some 0,
    cost_usd := some 0, duration_ms := 0, metadata := some [] }

def failBOut : List (String × Val) :=
  [("input", Val.dict c4Input), ("A", Val.dict [("output", failAOut)])]

def failBRes : NodeRes :=
  { status := "completed", output := Val.dict failBOut,
    tokens_used := some 0, cost_usd := some 0, duration_ms := 0,
    metadata := some [("operation", Val.str "passthrough")] }

def failRec : RunRecord :=
  { status := "completed",
    node_results := [("A", failARes), ("B", failBRes)],
    output_data := Val.dict failBOut,
    total_tokens := 0, total_cost_usd := 0, duration_ms := 0,
    failed_node := Option.none }

/-- C4.  The claim's second half is wrong: when a node fails with
stop_on_failure=false, line 84 still stores its (normalized) output in
`context_store`, so downstream contexts DO contain an entry keyed by the
failed node's id.  Here A fails, the run proceeds to B, and B's context
(visible as its passthrough output) holds key "A". -/
theorem claim_C4_counterexample :
    failEng.run pureAgents c4Input = .ok failRec ∧
    aget failRec.node_results "A" = some failARes ∧
    failARes.status = "failed" ∧
    (∃ nodeA, lookupNode failEng.nodes "A" = some nodeA ∧
      nodeA.stop_on_failure = some false) ∧
    aget failRec.node_results "B" = some failBRes ∧
    failBRes.status = "completed" ∧
    (∃ od, failBRes.output = .dict od ∧
      aget od "A" = some (Val.dict [("output", failAOut)])) := by
  refine ⟨by with_unfolding_all rfl, by decide, rfl,
    ⟨{ id := "A", agent_type := some "data_transform",
       config_overrides := [("operation", Val.str "extract_field"),
         ("field", Val.str "input.xs.5")],
       stop_on_failure := some false }, by decide, rfl⟩,
    by decide, rfl, ⟨failBOut, rfl, by decide⟩⟩

/-- C4 (amended).  With stop_on_failure=false a failing node does not
halt the run: the driver records it as "failed" and continues with the
next node.  But contrary to the claim, line 84 stores the failed node's
normalized output in `context_store`, and `_gather_context` copies every
stored entry of an inbound edge's source into the downstream context, so
downstream nodes DO see an entry keyed by the failed node's id. -/
theorem claim_C4 (eng : WorkflowEngine) (oracle : AgentOracle)
    (input : List (String × Val)) (st : EngSt) (s : String) (node : PyNode)
    (ra : AgentResult)
    (hsk : st.skipped.contains s = false)
    (hl : lookupNode eng.nodes s = some node)
    (hcall : stepCall eng oracle input st s node = .ok ra)
    (hfail : ra.success = false)
    (hstop : (node.stop_on_failure).getD true = false) :
    stepNode eng oracle input st s = .next (stepStOk eng st s node ra) ∧
    (stepStOk eng st s node ra).results = aset st.results s (okNodeRes ra) ∧
    (okNodeRes ra).status = "failed" ∧
    aget (stepStOk eng st s node ra).context_store s =
      some (normOut ra.output) ∧
    (∀ t ctx v, aget ctx s = some v →
      (∃ e ∈ eng.edges, e.target_id = t ∧ e.source_id = s) →
      aget (gatherContext eng.edges t ctx input) s = some v) := by
  refine ⟨?_, stepStOk_results eng st s node ra, ?_, ?_,
    fun t ctx v hv he => gatherContext_mem eng.edges t ctx input s v hv he⟩
  · rw [stepNode_okcall hsk hl hcall]
    rw [hfail, hstop]
    rfl
  · rw [okNodeRes, hfail]
    rfl
  · rw [stepStOk_ctx]
    exact aget_aset_self st.context_store s (normOut ra.output)

def c4St0 : EngSt :=
  { results := [], context_store := [("__input__", Val.dict c4Input)],
    skipped := [], total_tokens := 0, total_cost := 0 }

def c4NodeA : PyNode :=
  { id := "A", agent_type := some "data_transform",
    config_overrides := [("operation", Val.str "extract_field"),
      ("field", Val.str "input.xs.5")],
    stop_on_failure := some false }

def c4ResA : AgentResult :=
  { success := false, output := failAOut, tokens_used := 0, cost_usd := 0,
    duration_ms := 0, metadata := [] }

theorem claim_C4_witness :
    c4St0.skipped.contains "A" = false ∧
    lookupNode failEng.nodes "A" = some c4NodeA ∧
    stepCall failEng pureAgents c4Input c4St0 "A" c4NodeA = .ok c4ResA ∧
    c4ResA.success = false ∧
    (c4NodeA.stop_on_failure).getD true = false ∧
    (stepNode failEng pureAgents c4Input c4St0 "A" =
        .next (stepStOk failEng c4St0 "A" c4NodeA c4ResA) ∧
      (stepStOk failEng c4St0 "A" c4NodeA c4ResA).results =
        aset c4St0.results "A" (okNodeRes c4ResA) ∧
      (okNodeRes c4ResA).status = "failed" ∧
      aget (stepStOk failEng c4St0 "A" c4NodeA c4ResA).context_store "A" =
        some (normOut c4ResA.output) ∧
      (∀ t ctx v, aget ctx "A" = some v →
        (∃ e ∈ failEng.edges, e.target_id = t ∧ e.source_id = "A") →
        aget (gatherContext failEng.edges t ctx c4Input) "A" = some v)) :=
  ⟨rfl, by decide, by with_unfolding_all rfl, rfl, rfl,
   claim_C4 failEng pureAgents c4Input c4St0 "A" c4NodeA c4ResA rfl
     (by decide) (by with_unfolding_all rfl) rfl rfl⟩

/-! ### Totals invariant (C5) -/

theorem dtRun_zero (cfg : List (String × Val)) (obj : Val)
    (ctx : List (String × Val)) :
    (DataTransformAgent.run cfg obj ctx).tokens_used = 0 ∧
    (DataTransformAgent.run cfg obj ctx).cost_usd = 0 := by
  unfold DataTransformAgent.run
  cases hb : dtBody cfg ctx <;> exact ⟨rfl, rfl⟩

theorem condRun_ok_zero (cfg : List (String × Val)) (obj : Val)
    (ctx : List (String × Val)) (r : AgentResult)
    (h : ConditionalAgent.run cfg obj ctx = .ok r) :
    r.tokens_used = 0 ∧ r.cost_usd = 0 := by
  unfold ConditionalAgent.run at h
  dsimp only at h
  iterate 6 (all_goals try split at h)
  all_goals cases h
  all_goals exact ⟨rfl, rfl⟩

/-- Every agent of the repository reports zero tokens and cost on every
failure result. -/
theorem pureAgents_zero : ZeroOnFailure pureAgents := by
  intro t cfg obj ctx r h hf
  unfold pureAgents at h
  split at h
  · cases h
    exact dtRun_zero cfg obj ctx
  · split at h
    · exact condRun_ok_zero cfg obj ctx r h
    · cases h
      exact ⟨rfl, rfl⟩

/-- C5.  Confirmed (for agents that report zero usage on failure, which
all agents of the repository do): the record's total_tokens is the sum
of tokens_used over results with status "completed", and total_cost_usd
is the corresponding cost sum rounded to six decimals. -/
theorem claim_C5 (eng : WorkflowEngine) (oracle : AgentOracle)
    (input : List (String × Val)) (r : RunRecord)
    (hz : ZeroOnFailure oracle)
    (hnd : (nodeIdsOf eng).Nodup)
    (h : eng.run oracle input = .ok r) :
    r.total_tokens = completedTokens r.node_results ∧
    r.total_cost_usd = round6 (completedCost r.node_results) := by
  unfold WorkflowEngine.run at h
  have h2 : runNodes eng oracle input
      (topologicalSort (nodeIdsOf eng) eng.edges)
      { results := [], context_store := if input.isEmpty then [] else [("__input__", Val.dict input)], skipped := [], total_tokens := 0, total_cost := 0 } = .ok r := h
  exact runNodes_totals eng oracle input hz
    (topologicalSort (nodeIdsOf eng) eng.edges)
    { results := [], context_store := if input.isEmpty then [] else [("__input__", Val.dict input)], skipped := [], total_tokens := 0, total_cost := 0 }
    (topologicalSort_nodup _ _ hnd) (fun k _ => rfl) rfl rfl r h2

def c5Eng : WorkflowEngine :=
  { nodes := [{ id := "N", agent_type := some "data_transform" }],
    edges := [] }

def c5Rec : RunRecord :=
  { status := "completed",
    node_results := [("N",
      { status := "completed", output := Val.dict [],
        tokens_used := some 0, cost_usd := some 0, duration_ms := 0,
        metadata := some [("operation", Val.str "passthrough")] })],
    output_data := Val.dict [],
    total_tokens := 0, total_cost_usd := 0, duration_ms := 0,
    failed_node := Option.none }

theorem claim_C5_witness :
    ZeroOnFailure pureAgents ∧
    (nodeIdsOf c5Eng).Nodup ∧
    c5Eng.run pureAgents [] = .ok c5Rec ∧
    (c5Rec.total_tokens = completedTokens c5Rec.node_results ∧
     c5Rec.total_cost_usd = round6 (completedCost c5Rec.node_results)) :=
  ⟨pureAgents_zero, by decide, by with_unfolding_all rfl,
   claim_C5 c5Eng pureAgents [] c5Rec pureAgents_zero (by decide)
     (by with_unfolding_all rfl)⟩

/-! ### Conditional agent comparison semantics (C6) -/

/-- The successful `AgentResult` literal of `ConditionalAgent.run`
(lines 46-55 of the agent). -/
def condOkResult (field : String) (op value2 actual2 : Val) (met : Bool) :
    AgentResult :=
  { success := true,
    output := .dict
      [("condition_met", .bool met),
       ("branch", .str (if met then "true" else "false")),
       ("evaluated", .str (field ++ " " ++ op.pyStr ++ " " ++
         value2.pyStr ++ " => " ++ (if met then "True" else "False")))],
    metadata :=
      [("field", .str field), ("operator", op), ("value", value2),
       ("actual", .str actual2.pyStr)] }

/-- The operand pair the agent actually compares: ordered operators go
through the float coercion, everything else compares the raw values. -/
def condPair (opName : String) (actual value : Val) : Val × Val :=
  if opName == "gt" || opName == "gte" || opName == "lt" || opName == "lte" then
    coercePair actual value
  else (actual, value)

def c6Cfg : List (String × Val) :=
  [("field", Val.str "x"), ("operator", Val.str "gt"),
   ("value", Val.str "abc")]

def c6Ctx : List (String × Val) := [("x", Val.int 5)]

/-- C6.  The claim says the conditional agent never returns a failure
from a semantic mismatch and that unrepresentable comparisons evaluate
to false.  In the code the float fallback keeps the RAW values, and
Python 3 ordered comparison of a float with a str raises TypeError,
which the except block converts into success=false: field "x" (value 5)
gt "abc" yields a failed result, not condition_met=false. -/
theorem claim_C6_counterexample :
    ConditionalAgent.run c6Cfg Val.null c6Ctx =
      .ok { success := false,
            output := Val.str ("Condition evaluation failed: \x27>\x27 " ++
              "not supported between instances of \x27float\x27 and \x27str\x27"),
            tokens_used := 0, cost_usd := 0, duration_ms := 0,
            metadata := [] } := by
  with_unfolding_all rfl

/-- C6 (amended).  With a string field and a known operator: the agent
returns success=true with the {condition_met, branch, evaluated} output
whenever the applied operator evaluates without a raised exception, and
ordered operators coerce through `coercePair` (raw-value fallback);
however, when the operator raises — in particular an ordered comparison
of incompatible raw values — the agent returns success=FALSE with a
"Condition evaluation failed" message, not condition_met=false.  The
last six conjuncts give the operator table semantics, including the
TypeError of "gt" on incomparable values. -/
theorem claim_C6 (config : List (String × Val)) (objective : Val)
    (context : List (String × Val)) (f opName : String)
    (hf : dgetD config "field" (.str "") = .str f)
    (hop : dgetD config "operator" (.str "eq") = .str opName)
    (hmem : OPERATOR_NAMES.contains opName = true) :
    (∀ met, applyOperator opName
        (condPair opName (condExtract (Val.dict context) f)
          (dgetD config "value" (.str ""))).1
        (condPair opName (condExtract (Val.dict context) f)
          (dgetD config "value" (.str ""))).2 = .ok met →
      ConditionalAgent.run config objective context =
        .ok (condOkResult f (.str opName)
          (condPair opName (condExtract (Val.dict context) f)
            (dgetD config "value" (.str ""))).2
          (condPair opName (condExtract (Val.dict context) f)
            (dgetD config "value" (.str ""))).1 met)) ∧
    (∀ msg, applyOperator opName
        (condPair opName (condExtract (Val.dict context) f)
          (dgetD config "value" (.str ""))).1
        (condPair opName (condExtract (Val.dict context) f)
          (dgetD config "value" (.str ""))).2 = .error msg →
      ConditionalAgent.run config objective context =
        .ok { success := false,
              output := .str ("Condition evaluation failed: " ++ msg) }) ∧
    (∀ a b, applyOperator "eq" a b = .ok (pyEq a b)) ∧
    (∀ a b, applyOperator "ne" a b = .ok (!pyEq a b)) ∧
    (∀ a b, applyOperator "is_empty" a b = .ok (!a.truthy)) ∧
    (∀ a b, applyOperator "is_not_empty" a b = .ok a.truthy) ∧
    (∀ a b o, pyCompare a b = .ok o →
      applyOperator "gt" a b = .ok (o == Ordering.gt)) ∧
    (∀ a b e, pyCompare a b = .error e →
      applyOperator "gt" a b = .error (cmpTypeError ">" e.1 e.2)) := by
  refine ⟨?_, ?_, fun a b => rfl, fun a b => rfl, fun a b => rfl, fun a b => rfl,
    ?_, ?_⟩
  · intro met hap
    unfold ConditionalAgent.run
    rw [hf, hop]
    dsimp only
    simp only [condPair] at hap
    simp only [hmem, if_true]
    rw [hap]
    rfl
  · intro msg hap
    unfold ConditionalAgent.run
    rw [hf, hop]
    dsimp only
    simp only [condPair] at hap
    simp only [hmem, if_true]
    rw [hap]
  · intro a b o h
    unfold applyOperator
    dsimp only
    rw [h]
    rfl
  · intro a b e h
    unfold applyOperator
    dsimp only
    rw [h]
    rfl

theorem claim_C6_witness :
    dgetD c6Cfg "field" (.str "") = .str "x" ∧
    dgetD c6Cfg "operator" (.str "eq") = .str "gt" ∧
    OPERATOR_NAMES.contains "gt" = true ∧
    ((∀ met, applyOperator "gt"
        (condPair "gt" (condExtract (Val.dict c6Ctx) "x")
          (dgetD c6Cfg "value" (.str ""))).1
        (condPair "gt" (condExtract (Val.dict c6Ctx) "x")
          (dgetD c6Cfg "value" (.str ""))).2 = .ok met →
      ConditionalAgent.run c6Cfg Val.null c6Ctx =
        .ok (condOkResult "x" (.str "gt")
          (condPair "gt" (condExtract (Val.dict c6Ctx) "x")
            (dgetD c6Cfg "value" (.str ""))).2
          (condPair "gt" (condExtract (Val.dict c6Ctx) "x")
            (dgetD c6Cfg "value" (.str ""))).1 met)) ∧
     (∀ msg, applyOperator "gt"
        (condPair "gt" (condExtract (Val.dict c6Ctx) "x")
          (dgetD c6Cfg "value" (.str ""))).1
        (condPair "gt" (condExtract (Val.dict c6Ctx) "x")
          (dgetD c6Cfg "value" (.str ""))).2 = .error msg →
      ConditionalAgent.run c6Cfg Val.null c6Ctx =
        .ok { success := false,
              output := .str ("Condition evaluation failed: " ++ msg) }) ∧
     (∀ a b, applyOperator "eq" a b = .ok (pyEq a b)) ∧
     (∀ a b, applyOperator "ne" a b = .ok (!pyEq a b)) ∧
     (∀ a b, applyOperator "is_empty" a b = .ok (!a.truthy)) ∧
     (∀ a b, applyOperator "is_not_empty" a b = .ok a.truthy) ∧
     (∀ a b o, pyCompare a b = .ok o →
       applyOperator "gt" a b = .ok (o == Ordering.gt)) ∧
     (∀ a b e, pyCompare a b = .error e →
       applyOperator "gt" a b = .error (cmpTypeError ">" e.1 e.2))) :=
  ⟨rfl, rfl, rfl, claim_C6 c6Cfg Val.null c6Ctx "x" "gt" rfl rfl rfl⟩

/-! ### extract_field path semantics (C7) -/

theorem dtExtractGo_null : ∀ ps, dtExtractGo ps Val.null = .ok Val.null := by
  intro ps
  cases ps <;> rfl

theorem dtExtractGo_missing_key (p : String) (ps : List String)
    (d : List (String × Val)) (h : dget d p = Option.none) :
    dtExtractGo (p :: ps) (.dict d) = .ok Val.null := by
  show dtExtractGo ps (dgetD d p Val.null) = .ok Val.null
  unfold dgetD
  rw [h]
  exact dtExtractGo_null ps

theorem dtExtractGo_scalar (p : String) (ps : List String) (cur : Val)
    (hd : cur.typeName ≠ "dict") (hl : cur.typeName ≠ "list") :
    dtExtractGo (p :: ps) cur = .ok Val.null := by
  cases cur with
  | dict d => exact absurd rfl hd
  | list xs => exact absurd rfl hl
  | null => rfl
  | bool b => rfl
  | int n => rfl
  | float q => rfl
  | str s => rfl

theorem dtExtractGo_nondigit (p : String) (ps : List String) (xs : List Val)
    (h : pyIsDigit p = false) :
    dtExtractGo (p :: ps) (.list xs) = .ok Val.null := by
  show (if pyIsDigit p then _ else Except.ok Val.null) = .ok Val.null
  rw [h]
  rfl

theorem dtExtractGo_index (p : String) (ps : List String) (xs : List Val)
    (v : Val) (hdig : pyIsDigit p = true)
    (hget : xs.get? (digitsToNat p.toList) = some v) :
    dtExtractGo (p :: ps) (.list xs) = dtExtractGo ps v := by
  show (if pyIsDigit p then
      match xs.get? (digitsToNat p.toList) with
      | some v => dtExtractGo ps v
      | Option.none => .error "list index out of range"
    else Except.ok Val.null) = dtExtractGo ps v
  rw [hdig, hget]
  rfl

theorem dtExtractGo_out_of_range (p : String) (ps : List String)
    (xs : List Val) (hdig : pyIsDigit p = true)
    (hlen : xs.length ≤ digitsToNat p.toList) :
    dtExtractGo (p :: ps) (.list xs) = .error "list index out of range" := by
  show (if pyIsDigit p then
      match xs.get? (digitsToNat p.toList) with
      | some v => dtExtractGo ps v
      | Option.none => .error "list index out of range"
    else Except.ok Val.null) = .error "list index out of range"
  rw [hdig, List.get?_eq_none.mpr hlen]
  rfl

theorem dtRun_extract (config : List (String × Val)) (obj : Val)
    (ctx : List (String × Val)) (f : String)
    (hopn : dgetD config "operation" (.str "passthrough") = .str "extract_field")
    (hf : dgetD config "field" (.str "") = .str f)
    (hik : dget config "input_key" = Option.none)
    (hok : dget config "output_key" = Option.none) :
    DataTransformAgent.run config obj ctx =
      match dtExtractGo (f.splitOn ".") (Val.dict ctx) with
      | .ok v => { success := true, output := v, metadata := [("operation", Val.str "extract_field")] }
      | .error m => { success := false, output := .str ("Transform failed: " ++ m) } := by
  have hbody : dtBody config ctx = dtExtractGo (f.splitOn ".") (Val.dict ctx) := by
    unfold dtBody dtScopeData dtExtract
    rw [hik, hopn, hf]
    dsimp only
    simp only [bind, Except.bind, pure, Except.pure]
    have e1 : pyEq (Val.str "extract_field") (Val.str "passthrough") = false := rfl
    have e2 : pyEq (Val.str "extract_field") (Val.str "extract_field") = true := rfl
    rw [e1, e2]
    cases hgo : dtExtractGo (f.splitOn ".") (Val.dict ctx) with
    | ok v =>
      rw [hok]
      rfl
    | error m => rfl
  unfold DataTransformAgent.run
  rw [hopn, hbody]

def c7Cfg : List (String × Val) :=
  [("operation", Val.str "extract_field"), ("field", Val.str "a.5")]

def c7Ctx : List (String × Val) := [("a", Val.list [Val.int 1])]

/-- C7.  The claim says ANY missing segment — including an index outside
the sequence — yields null.  In the code a digit segment is applied as
`current[int(part)]`, which raises IndexError for an out-of-range index;
`run` catches it and returns a FAILED result: extracting "a.5" from
\x7b"a": [1]\x7d gives success=false "Transform failed: list index out
of range", not null. -/
theorem claim_C7_counterexample :
    DataTransformAgent.run c7Cfg Val.null c7Ctx =
      { success := false,
        output := Val.str "Transform failed: list index out of range",
        tokens_used := 0, cost_usd := 0, duration_ms := 0, metadata := [] } := by
  with_unfolding_all rfl

/-- C7 (amended).  extract_field walks the dotted path: a missing dict
key yields null, a non-indexable value yields null, a non-digit segment
on a list yields null, and an in-range digit segment indexes the list;
but an OUT-OF-RANGE digit index raises IndexError, surfacing as a
failed "Transform failed: list index out of range" result rather than
null. -/
theorem claim_C7 :
    (∀ (config : List (String × Val)) (obj : Val)
        (ctx : List (String × Val)) (f : String),
      dgetD config "operation" (.str "passthrough") = .str "extract_field" →
      dgetD config "field" (.str "") = .str f →
      dget config "input_key" = Option.none →
      dget config "output_key" = Option.none →
      DataTransformAgent.run config obj ctx =
        match dtExtractGo (f.splitOn ".") (Val.dict ctx) with
        | .ok v => { success := true, output := v, metadata := [("operation", Val.str "extract_field")] }
        | .error m => { success := false, output := .str ("Transform failed: " ++ m) }) ∧
    (∀ ps, dtExtractGo ps Val.null = .ok Val.null) ∧
    (∀ p ps (d : List (String × Val)), dget d p = Option.none →
      dtExtractGo (p :: ps) (.dict d) = .ok Val.null) ∧
    (∀ p ps (cur : Val), cur.typeName ≠ "dict" → cur.typeName ≠ "list" →
      dtExtractGo (p :: ps) cur = .ok Val.null) ∧
    (∀ p ps (xs : List Val), pyIsDigit p = false →
      dtExtractGo (p :: ps) (.list xs) = .ok Val.null) ∧
    (∀ p ps (xs : List Val) (v : Val), pyIsDigit p = true →
      xs.get? (digitsToNat p.toList) = some v →
      dtExtractGo (p :: ps) (.list xs) = dtExtractGo ps v) ∧
    (∀ p ps (xs : List Val), pyIsDigit p = true →
      xs.length ≤ digitsToNat p.toList →
      dtExtractGo (p :: ps) (.list xs) =
        .error "list index out of range") :=
  ⟨fun config obj ctx f h1 h2 h3 h4 => dtRun_extract config obj ctx f h1 h2 h3 h4,
   dtExtractGo_null,
   fun p ps d h => dtExtractGo_missing_key p ps d h,
   fun p ps cur h1 h2 => dtExtractGo_scalar p ps cur h1 h2,
   fun p ps xs h => dtExtractGo_nondigit p ps xs h,
   fun p ps xs v h1 h2 => dtExtractGo_index p ps xs v h1 h2,
   fun p ps xs h1 h2 => dtExtractGo_out_of_range p ps xs h1 h2⟩

theorem claim_C7_witness :
    (dgetD c7Cfg "operation" (.str "passthrough") = .str "extract_field" ∧
     dgetD c7Cfg "field" (.str "") = .str "a.5" ∧
     dget c7Cfg "input_key" = Option.none ∧
     dget c7Cfg "output_key" = Option.none ∧
     DataTransformAgent.run c7Cfg Val.null c7Ctx =
       match dtExtractGo ("a.5".splitOn ".") (Val.dict c7Ctx) with
       | .ok v => { success := true, output := v, metadata := [("operation", Val.str "extract_field")] }
       | .error m => { success := false, output := .str ("Transform failed: " ++ m) }) ∧
    (dget [("b", Val.int 2)] "a" = Option.none ∧
     dtExtractGo ["a"] (.dict [("b", Val.int 2)]) = .ok Val.null) ∧
    ((Val.int 7).typeName ≠ "dict" ∧ (Val.int 7).typeName ≠ "list" ∧
     dtExtractGo ["x"] (Val.int 7) = .ok Val.null) ∧
    (pyIsDigit "xy" = false ∧
     dtExtractGo ["xy"] (.list [Val.int 1]) = .ok Val.null) ∧
    (pyIsDigit "0" = true ∧ [Val.int 9].get? (digitsToNat "0".toList) = some (Val.int 9) ∧
     dtExtractGo ["0"] (.list [Val.int 9]) = dtExtractGo [] (Val.int 9)) ∧
    (pyIsDigit "5" = true ∧ [Val.int 1].length ≤ digitsToNat "5".toList ∧
     dtExtractGo ["5"] (.list [Val.int 1]) =
       .error "list index out of range") :=
  ⟨⟨rfl, rfl, rfl, rfl, claim_C7.1 c7Cfg Val.null c7Ctx "a.5" rfl rfl rfl rfl⟩,
   ⟨rfl, claim_C7.2.2.1 "a" [] [("b", Val.int 2)] rfl⟩,
   ⟨by decide, by decide, claim_C7.2.2.2.1 "x" [] (Val.int 7) (by decide) (by decide)⟩,
   ⟨by decide, claim_C7.2.2.2.2.1 "xy" [] [Val.int 1] (by decide)⟩,
   ⟨by decide, by decide, claim_C7.2.2.2.2.2.1 "0" [] [Val.int 9] (Val.int 9) (by decide) (by decide)⟩,
   ⟨by decide, by decide, claim_C7.2.2.2.2.2.2 "5" [] [Val.int 1] (by decide) (by decide)⟩⟩

/-! ### Header mutation by the api_call agent (C8) -/

/-- C8.  The claim of an unmodified graph is wrong for api_call nodes
with templated headers: line 25 of the agent writes
interpolate(v, context) back into the aliased headers dict of the node
config, so after a run with nonempty context the stored header differs
from its pre-run value. -/
theorem claim_C8_counterexample :
    apiCallHeadersAfterRun [("Authorization", "Bearer \x7b\x7btoken\x7d\x7d")]
        [("token", Val.str "abc")] =
      [("Authorization", "Bearer abc")] ∧
    apiCallHeadersAfterRun [("Authorization", "Bearer \x7b\x7btoken\x7d\x7d")]
        [("token", Val.str "abc")] ≠
      [("Authorization", "Bearer \x7b\x7btoken\x7d\x7d")] := by
  refine ⟨?_, ?_⟩
  · with_unfolding_all rfl
  · rw [show apiCallHeadersAfterRun [("Authorization", "Bearer \x7b\x7btoken\x7d\x7d")] [("token", Val.str "abc")] = [("Authorization", "Bearer abc")] from by with_unfolding_all rfl]
    decide

/-- C8 (amended).  The headers dict of an api_call node is left intact
only when the context is empty; with a nonempty context every header
value is overwritten in place by its interpolation, so the node
configuration after the run carries the interpolated values. -/
theorem claim_C8 (headers : List (String × String))
    (context : List (String × Val)) :
    (context = [] → apiCallHeadersAfterRun headers context = headers) ∧
    (context ≠ [] → apiCallHeadersAfterRun headers context =
      headers.map (fun p => (p.1, interpolate p.2 context))) ∧
    (∀ k t, (k, t) ∈ headers → context ≠ [] →
      (k, interpolate t context) ∈ apiCallHeadersAfterRun headers context) := by
  refine ⟨?_, ?_, ?_⟩
  · intro h
    subst h
    rfl
  · intro h
    unfold apiCallHeadersAfterRun
    rw [if_neg (by simpa using h)]
  · intro k t hmem h
    unfold apiCallHeadersAfterRun
    rw [if_neg (by simpa using h)]
    exact List.mem_map.mpr ⟨(k, t), hmem, rfl⟩

theorem claim_C8_witness :
    (([] : List (String × Val)) = [] →
      apiCallHeadersAfterRun [("Authorization", "Bearer \x7b\x7btoken\x7d\x7d")] [] =
        [("Authorization", "Bearer \x7b\x7btoken\x7d\x7d")]) ∧
    ([("token", Val.str "abc")] ≠ ([] : List (String × Val)) →
      apiCallHeadersAfterRun [("Authorization", "Bearer \x7b\x7btoken\x7d\x7d")]
          [("token", Val.str "abc")] =
        [("Authorization", "Bearer \x7b\x7btoken\x7d\x7d")].map
          (fun p => (p.1, interpolate p.2 [("token", Val.str "abc")]))) ∧
    (∀ k t, (k, t) ∈ [("Authorization", "Bearer \x7b\x7btoken\x7d\x7d")] →
      [("token", Val.str "abc")] ≠ [] →
      (k, interpolate t [("token", Val.str "abc")]) ∈
        apiCallHeadersAfterRun [("Authorization", "Bearer \x7b\x7btoken\x7d\x7d")]
          [("token", Val.str "abc")]) :=
  ⟨(claim_C8 [("Authorization", "Bearer \x7b\x7btoken\x7d\x7d")] []).1,
   (claim_C8 [("Authorization", "Bearer \x7b\x7btoken\x7d\x7d")]
      [("token", Val.str "abc")]).2.1,
   (claim_C8 [("Authorization", "Bearer \x7b\x7btoken\x7d\x7d")]
      [("token", Val.str "abc")]).2.2⟩

/-! ### Passthrough identity (C9) -/

/-- C9.  Confirmed (with operation=passthrough, no input_key scoping):
the agent reports success=true and returns the input context unchanged;
with output_key set to a nonempty string k the result is wrapped as the
one-key mapping \x7bk: input\x7d.  One boundary nuance: an EMPTY string
output_key is falsy in Python, so it does not wrap. -/
theorem claim_C9 (config : List (String × Val)) (obj : Val)
    (ctx : List (String × Val))
    (hopn : dgetD config "operation" (.str "passthrough") = .str "passthrough")
    (hik : dget config "input_key" = Option.none) :
    (dget config "output_key" = Option.none →
      DataTransformAgent.run config obj ctx =
        { success := true, output := Val.dict ctx, metadata := [("operation", Val.str "passthrough")] }) ∧
    (∀ k, dget config "output_key" = some (Val.str k) → k ≠ "" →
      DataTransformAgent.run config obj ctx =
        { success := true, output := Val.dict [(k, Val.dict ctx)], metadata := [("operation", Val.str "passthrough")] }) ∧
    (dget config "output_key" = some (Val.str "") →
      DataTransformAgent.run config obj ctx =
        { success := true, output := Val.dict ctx, metadata := [("operation", Val.str "passthrough")] }) := by
  have e1 : pyEq (Val.str "passthrough") (Val.str "passthrough") = true := rfl
  refine ⟨?_, ?_, ?_⟩
  · intro hok
    have hbody : dtBody config ctx = .ok (Val.dict ctx) := by
      unfold dtBody dtScopeData
      rw [hik, hopn, hok]
      simp only [bind, Except.bind, pure, Except.pure]
      rw [e1]
      rfl
    unfold DataTransformAgent.run
    rw [hopn, hbody]
  · intro k hok hk
    have ht : (Val.str k).truthy = true := by
      unfold Val.truthy
      simp [hk]
    have hbody : dtBody config ctx = .ok (Val.dict [(k, Val.dict ctx)]) := by
      unfold dtBody dtScopeData
      rw [hik, hopn, hok]
      simp only [bind, Except.bind, pure, Except.pure]
      rw [e1, ht]
      rfl
    unfold DataTransformAgent.run
    rw [hopn, hbody]
  · intro hok
    have hbody : dtBody config ctx = .ok (Val.dict ctx) := by
      unfold dtBody dtScopeData
      rw [hik, hopn, hok]
      simp only [bind, Except.bind, pure, Except.pure]
      rw [e1]
      rfl
    unfold DataTransformAgent.run
    rw [hopn, hbody]

def c9Cfg : List (String × Val) :=
  [("operation", Val.str "passthrough"), ("output_key", Val.str "wrapped")]

def c9Ctx : List (String × Val) := [("a", Val.int 1), ("b", Val.str "two")]

theorem claim_C9_witness :
    dgetD c9Cfg "operation" (.str "passthrough") = .str "passthrough" ∧
    dget c9Cfg "input_key" = Option.none ∧
    dget c9Cfg "output_key" = some (Val.str "wrapped") ∧
    ("wrapped" : String) ≠ "" ∧
    DataTransformAgent.run c9Cfg Val.null c9Ctx =
      { success := true, output := Val.dict [("wrapped", Val.dict c9Ctx)], metadata := [("operation", Val.str "passthrough")] } :=
  ⟨rfl, rfl, rfl, by decide,
   (claim_C9 c9Cfg Val.null c9Ctx rfl rfl).2.1 "wrapped" rfl (by decide)⟩

/-! ### Unknown agent types (C10) -/

/-- C10.  Confirmed: the registry holds exactly the six known kinds, any
other tag makes `get_agent` raise the ValueError message, the driver
catches it (the run still returns a record) recording the node with
status "error" (or "skipped" when the node was pruned first), and with
stop_on_failure true the step halts the run as "failed" at that node. -/
theorem claim_C10 (eng : WorkflowEngine) (oracle : AgentOracle)
    (input : List (String × Val)) (n : String) (node : PyNode)
    (hl : lookupNode eng.nodes n = some node)
    (hreg : AGENT_REGISTRY_KEYS.contains (nodeAtype eng node) = false)
    (hwf : WellFormed eng) :
    AGENT_REGISTRY_KEYS =
      ["llm", "web_search", "code_exec", "api_call", "data_transform",
       "conditional"] ∧
    (∀ st, stepCall eng oracle input st n node =
      .error (unknownAgentMsg (nodeAtype eng node))) ∧
    (∀ st, st.skipped.contains n = false →
      (node.stop_on_failure).getD true = true →
      stepNode eng oracle input st n =
        .halt (buildResult { st with results := aset st.results n (errNodeRes (unknownAgentMsg (nodeAtype eng node))) } "failed" (some n))) ∧
    (∃ r, eng.run oracle input = .ok r ∧
      ∀ rn, aget r.node_results n = some rn →
        rn.status = "error" ∨ rn.status = "skipped") := by
  have hcall : ∀ st, stepCall eng oracle input st n node =
      .error (unknownAgentMsg (nodeAtype eng node)) := by
    intro st
    unfold stepCall
    rw [hreg]
    rfl
  refine ⟨rfl, hcall, ?_, ?_⟩
  · intro st hsk hstop
    rw [stepNode_err hsk hl (hcall st), if_pos hstop]
  · rcases run_ok_of_wf eng oracle input hwf with ⟨r, hr⟩
    refine ⟨r, hr, ?_⟩
    have hr2 : runNodes eng oracle input
        (topologicalSort (nodeIdsOf eng) eng.edges)
        { results := [], context_store := if input.isEmpty then [] else [("__input__", Val.dict input)], skipped := [], total_tokens := 0, total_cost := 0 } = .ok r := hr
    exact runNodes_unknown_type eng oracle input n node hl hreg
      (topologicalSort (nodeIdsOf eng) eng.edges)
      { results := [], context_store := if input.isEmpty then [] else [("__input__", Val.dict input)], skipped := [], total_tokens := 0, total_cost := 0 } r
      (topologicalSort_nodup _ _ hwf.1) (Or.inl rfl) hr2

def c10Eng : WorkflowEngine :=
  { nodes := [{ id := "U", agent_type := some "http" },
              { id := "V", agent_type := some "data_transform" }],
    edges := [] }

def c10NodeU : PyNode := { id := "U", agent_type := some "http" }

theorem claim_C10_witness :
    lookupNode c10Eng.nodes "U" = some c10NodeU ∧
    AGENT_REGISTRY_KEYS.contains (nodeAtype c10Eng c10NodeU) = false ∧
    WellFormed c10Eng ∧
    (AGENT_REGISTRY_KEYS =
      ["llm", "web_search", "code_exec", "api_call", "data_transform",
       "conditional"] ∧
     (∀ st, stepCall c10Eng pureAgents [] st "U" c10NodeU =
       .error (unknownAgentMsg (nodeAtype c10Eng c10NodeU))) ∧
     (∀ st, st.skipped.contains "U" = false →
       (c10NodeU.stop_on_failure).getD true = true →
       stepNode c10Eng pureAgents [] st "U" =
         .halt (buildResult { st with results := aset st.results "U" (errNodeRes (unknownAgentMsg (nodeAtype c10Eng c10NodeU))) } "failed" (some "U"))) ∧
     (∃ r, c10Eng.run pureAgents [] = .ok r ∧
       ∀ rn, aget r.node_results "U" = some rn →
         rn.status = "error" ∨ rn.status = "skipped")) :=
  ⟨by decide, by decide, by decide,
   claim_C10 c10Eng pureAgents [] "U" c10NodeU (by decide) (by decide)
     (by decide)⟩
